import Mathlib

/-!
# Mini_CMake: a verification development for `cmake.c`

A shallow embedding of the interpreter in `src/cmake.c` (variable table,
`${...}` expansion, condition stack, `if()` expression evaluator,
`target_link_libraries` propagation, command reader, command handlers and
dispatch, `Makefile` emission and `main`), followed by theorems about it.

Conventions of the embedding

* A C string is the list of its characters up to, not including, the
  terminating NUL (`CStr`). `strcmp(a, b) == 0` is list equality.
* C `int`s that only ever hold truth values (`0`/`1`) are `Bool`.
* Global tables are explicit values that are passed in and returned.
* A write past the end of a fixed-capacity array and a read of a buffer that
  was never written are undefined behaviour in C; the embedding returns `none`
  there.
* The one expression whose operands C leaves unsequenced, in `cond_push`, is
  read in the order in which the compiled program evaluates it; the definition
  says which.
* The platform macros are those of the non-Windows builds.
-/

namespace MiniCMake

/-- A C string: its characters before the terminating NUL. -/
abbrev CStr := List Char

/-! ## Capacities (`#define`s of the source) -/

def MAX_LINE : Nat := 1024
def MAX_VARS : Nat := 512
def MAX_TARGETS : Nat := 128
def MAX_STACK : Nat := 32

/-! ## Variable table -/

/-- One slot of `Var vars[MAX_VARS]`. -/
structure Var where
  key : CStr
  val : CStr
  deriving DecidableEq, Repr

/-- The live part `vars[0 .. nvars)` of the global table; `nvars` is the length. -/
abbrev VarTable := List Var

/-- The function `getvar`: value of the first slot whose key equals `key`, `""` when there is none. -/
def getvar : VarTable → CStr → CStr
  | [], _ => []
  | v :: rest, key => if v.key = key then v.val else getvar rest key

/-- The search loop of `setvar`: overwrite the value of the first slot whose key
equals `key`; `none` when the loop falls through without a match. -/
def setvar_overwrite : VarTable → CStr → CStr → Option VarTable
  | [], _, _ => none
  | v :: rest, key, val =>
    if v.key = key then some ({ v with val := val } :: rest)
    else (setvar_overwrite rest key val).map (fun t => v :: t)

/-- The function `setvar`: overwrite-or-insert. The insert writes `vars[nvars]` without a
bounds check in the source; with `nvars = MAX_VARS` that write is out of
bounds and the result is `none`. -/
def setvar (vars : VarTable) (key val : CStr) : Option VarTable :=
  match setvar_overwrite vars key val with
  | some t => some t
  | none => if vars.length < MAX_VARS then some (vars ++ [⟨key, val⟩]) else none

/-- A sequence of `setvar(key, val)` calls, in order. -/
def setvar_seq : VarTable → List (CStr × CStr) → Option VarTable
  | vars, [] => some vars
  | vars, (k, v) :: ops =>
    match setvar vars k v with
    | some t => setvar_seq t ops
    | none => none

/-! ## Variable expansion -/

/-- The call `strchr(p, c)`: offset from `p` of the first occurrence of `c`, `none` for `NULL`. -/
def strchr : CStr → Char → Option Nat
  | [], _ => none
  | x :: rest, c => if x = c then some 0 else (strchr rest c).map (fun i => i + 1)

/-- The inner `for` loop of `expand_vars`, which copies the value to the output:
`for (v = val; *v && (dst - buf) < buflen - 1; ++v) *dst++ = *v;`.
`out` is the text written to `buf` so far, so `dst - buf = out.length`. -/
def expand_copy (buflen : Nat) : CStr → CStr → CStr
  | [], out => out
  | v :: vs, out =>
    if out.length + 1 < buflen then expand_copy buflen vs (out ++ [v]) else out

/-- The `while` loop of `expand_vars`; `p` is the unread input, `out` the text
written so far. The condition `(dst - buf) < buflen - 1` on C `int`s is
`out.length + 1 < buflen`. Every iteration advances `p` by at least one
character; the first argument bounds the number of iterations. -/
def expand_loop (vars : VarTable) (buflen : Nat) : Nat → CStr → CStr → CStr
  | 0, _, out => out
  | fuel + 1, p, out =>
    match p with
    | [] => out
    | c :: rest =>
      if out.length + 1 < buflen then
        if c = '$' ∧ rest.head? = some '{' then
          match strchr p '}' with
          | none => expand_loop vars buflen fuel rest (out ++ [c])
          | some e =>
            -- len = end - (p + 2), capped at sizeof(key) - 1
            let len := min (e - 2) 255
            let key := (p.drop 2).take len
            let val := getvar vars key
            expand_loop vars buflen fuel (p.drop (e + 1)) (expand_copy buflen val out)
        else expand_loop vars buflen fuel rest (out ++ [c])
      else out

/-- The call `expand_vars(src, buf, buflen)`: the text left in `buf`. The loop runs at
most `strlen(src)` times. -/
def expand_vars (vars : VarTable) (src : CStr) (buflen : Nat) : CStr :=
  expand_loop vars buflen src.length src []

/-! ## Condition stack -/

/-- The globals `int cond_stack[MAX_STACK]` and `int cond_level`. Every value the
program stores in `cond_stack` is `0` or `1`. -/
structure CondState where
  cond_stack : Nat → Bool
  cond_level : Nat

/-- State set up by `main`: the zero-initialised array with `cond_stack[0] = 1`,
and `cond_level = 0`. -/
def cond_init : CondState :=
  { cond_stack := fun i => decide (i = 0), cond_level := 0 }

/-- The call `cond_push(val)`:
`if (cond_level + 1 < MAX_STACK) cond_stack[++cond_level] = val && cond_stack[cond_level - 1];`.
The increment of `cond_level` in the subscript on the left and the read of
`cond_level` on the right are unsequenced, so C does not fix which value of
`cond_level` the right-hand side sees. The definition follows the program as
GCC and Clang compile it: the right-hand side is evaluated first, with
`cond_level` as it is before the increment, so the frame that is read is
`cond_stack[cond_level - 1]`, the frame below the old top, and not the old top.
At depth `0` this is `cond_stack[-1]`, the word in front of the array in the
zero-initialised data of the program, read as `0`. The right operand of `&&` is
evaluated only when `val` is non-zero; the store goes to the new top. -/
def cond_push (val : Bool) (st : CondState) : CondState :=
  if st.cond_level + 1 < MAX_STACK then
    { cond_stack := Function.update st.cond_stack (st.cond_level + 1)
        (val && (if st.cond_level = 0 then false else st.cond_stack (st.cond_level - 1))),
      cond_level := st.cond_level + 1 }
  else st

/-- The function `cond_pop()`. -/
def cond_pop (st : CondState) : CondState :=
  if st.cond_level > 0 then { st with cond_level := st.cond_level - 1 } else st

/-- The function `cond_active()`. -/
def cond_active (st : CondState) : Bool := st.cond_stack st.cond_level

/-! ## `if()` expression evaluator -/

/-- The call `strtok_r(s, delim, &save)` on the text `s` still to be scanned: skip the
leading characters that belong to the set `delim`, return the run of
characters up to the next member of `delim` and the text after that
delimiter (the new `save`); `none` for `NULL`. -/
def strtok_r (s delim : CStr) : Option (CStr × CStr) :=
  let s1 := s.dropWhile (fun c => delim.contains c)
  if s1 = [] then none
  else some (s1.takeWhile (fun c => !delim.contains c),
             (s1.dropWhile (fun c => !delim.contains c)).tail)

/-- The loops `part = strtok_r(..); while (part && n < 16) { parts[n++] = part;
part = strtok_r(NULL, ..); }` of `eval_simple_if`, with the room left in the
array as first argument. -/
def strtok_parts (delim : CStr) : Nat → CStr → List CStr
  | 0, _ => []
  | n + 1, s =>
    match strtok_r s delim with
    | none => []
    | some (tok, rest) => tok :: strtok_parts delim n rest

/-- The test `isspace` in the C locale. -/
def c_isspace (c : Char) : Bool :=
  c = ' ' || c = '\t' || c = '\n' || c = '\x0b' || c = '\x0c' || c = '\r'

/-- One `%<width>s` directive of `sscanf`: skip white space, then read up to
`width` characters that are not white space. `none` on input failure (end of
string before any character), otherwise the word and the unread input. -/
def scan_s (width : Nat) (s : CStr) : Option (CStr × CStr) :=
  let s1 := s.dropWhile c_isspace
  if s1 = [] then none
  else
    let w := (s1.takeWhile (fun c => !c_isspace c)).take width
    some (w, s1.drop w.length)

/-- The call `sscanf(tok, "%127s %127s %127s", var, op, val)`: `some (var, op, val)`
exactly when it returns `3`. -/
def sscanf_3s (tok : CStr) : Option (CStr × CStr × CStr) :=
  match scan_s 127 tok with
  | none => none
  | some (var, r1) =>
    match scan_s 127 r1 with
    | none => none
    | some (op, r2) =>
      match scan_s 127 r2 with
      | none => none
      | some (val, _) => some (var, op, val)

/-- The truthiness test on a variable's value in `eval_simple_if`:
`strcmp(vval, "ON") == 0 || strcmp(vval, "1") == 0 ||
 (vval[0] && strcmp(vval, "OFF") != 0 && strcmp(vval, "0") != 0)`. -/
def truthy (vval : CStr) : Bool :=
  vval = ['O', 'N'] || vval = ['1'] ||
    (vval ≠ [] && vval ≠ ['O', 'F', 'F'] && vval ≠ ['0'])

/-- Body of the inner `for` loop of `eval_simple_if`: the truth value that one
element of `and_parts` contributes to `and_result`. -/
def eval_term (vars : VarTable) (part : CStr) : Bool :=
  let tok := part.dropWhile (fun c => c = ' ' || c = '\t')
  let invert := (['N', 'O', 'T', ' '] : CStr).isPrefixOf tok
  let tok := if invert then tok.drop 4 else tok
  let bare := if invert then !truthy (getvar vars tok) else truthy (getvar vars tok)
  match sscanf_3s tok with
  | some (var, op, val) =>
    if op = ['S', 'T', 'R', 'E', 'Q', 'U', 'A', 'L'] then
      let cmp := decide (getvar vars var = val)
      if invert then !cmp else cmp
    else bare
  | none => bare

/-- Body of the outer `for` loop of `eval_simple_if`: `and_result` of one element
of `or_parts`. The part is cut with `strtok_r(p, "AND", ..)`. -/
def eval_and (vars : VarTable) (p : CStr) : Bool :=
  (strtok_parts ['A', 'N', 'D'] 16 p).foldl (fun acc t => acc && eval_term vars t) true

/-- The function `eval_simple_if(expr)`. The expression is cut with `strtok_r(expr, "OR", ..)`. -/
def eval_simple_if (vars : VarTable) (expr : CStr) : Bool :=
  let expr := expr.dropWhile (fun c => c = ' ' || c = '\t' || c = '\n')
  (strtok_parts ['O', 'R'] 16 expr).foldl (fun acc p => acc || eval_and vars p) false

/-! ## Condition handling in the loop of `main` -/

/-- The call `strrchr(s, c)`: offset of the last occurrence of `c` in `s`, `none` for `NULL`. -/
def strrchr : CStr → Char → Option Nat
  | [], _ => none
  | x :: rest, c =>
    match strrchr rest c with
    | some i => some (i + 1)
    | none => if x = c then some 0 else none

/-- The trimming `last = first + strlen(first) - 1;
while (last > first && (*last == ' ' || *last == '\t' || *last == '\n')) *last-- = 0;`:
trailing blanks are cut, the first character is never touched. -/
def cut_trailing_blanks : CStr → CStr
  | [] => []
  | c :: rest =>
    c :: (rest.reverse.dropWhile (fun x => x = ' ' || x = '\t' || x = '\n')).reverse

/-- The text that the `if(` and `elseif(` branches of `main` pass to
`eval_simple_if`, given the offsets of `start = strchr(expcmd, '(')` and
`end = strrchr(expcmd, ')')`: the `end - start - 1` characters after `start`,
without leading and trailing blanks. -/
def cond_expr (expcmd : CStr) (s e : Nat) : CStr :=
  cut_trailing_blanks
    (((expcmd.drop (s + 1)).take (e - s - 1)).dropWhile
      (fun x => x = ' ' || x = '\t' || x = '\n'))

/-- The argument of `cond_push` in the `if(` and `elseif(` branches of `main`.
`strncpy(expr, start + 1, end - start - 1)` copies into `char expr[512] = {0}`
without a bounds check: more than 511 characters leave `expr` unterminated or
overrun it, and the result is `none`. -/
def cond_value (vars : VarTable) (expcmd : CStr) : Option Bool :=
  match strchr expcmd '(', strrchr expcmd ')' with
  | some s, some e =>
    if e > s then
      if e - s - 1 ≤ 511 then some (eval_simple_if vars (cond_expr expcmd s e)) else none
    else some false
  | _, _ => some false

/-- The branch `if (strncmp(expcmd, "if(", 3) == 0) { ... }` of `main`. -/
def main_if (vars : VarTable) (expcmd : CStr) (st : CondState) : Option CondState :=
  (cond_value vars expcmd).map (fun b => cond_push b st)

/-- The branch `if (strncmp(expcmd, "elseif(", 7) == 0) { ... }` of `main`:
`if (cond_level > 0) cond_level--;` and then the same as for `if(`. -/
def main_elseif (vars : VarTable) (expcmd : CStr) (st : CondState) : Option CondState :=
  let st1 : CondState :=
    if st.cond_level > 0 then { st with cond_level := st.cond_level - 1 } else st
  (cond_value vars expcmd).map (fun b => cond_push b st1)

/-- The branch `if (strncmp(expcmd, "else", 4) == 0) { ... }` of `main`:
`if (cond_level) cond_stack[cond_level] = !cond_stack[cond_level];`. -/
def main_else (st : CondState) : CondState :=
  if st.cond_level ≠ 0 then
    { st with cond_stack :=
        Function.update st.cond_stack st.cond_level (!st.cond_stack st.cond_level) }
  else st

/-- The branch `if (strncmp(expcmd, "endif", 5) == 0) { cond_pop(); continue; }`. -/
def main_endif (st : CondState) : CondState := cond_pop st

/-- The test `strncmp(s, lit, strlen(lit)) == 0`. -/
def starts_with (s lit : CStr) : Bool := lit.isPrefixOf s

/-- The condition handling at the head of the loop body of `main`, in the order of
the source: `if(`, `elseif(`, `else`, `endif`. Any other command leaves the
condition stack as it is. -/
def main_cond (vars : VarTable) (expcmd : CStr) (st : CondState) : Option CondState :=
  if starts_with expcmd ['i', 'f', '('] then main_if vars expcmd st
  else if starts_with expcmd ['e', 'l', 's', 'e', 'i', 'f', '('] then main_elseif vars expcmd st
  else if starts_with expcmd ['e', 'l', 's', 'e'] then some (main_else st)
  else if starts_with expcmd ['e', 'n', 'd', 'i', 'f'] then some (main_endif st)
  else some st

/-- The condition stack after a sequence of (expanded) commands read by `main`. -/
def cond_run (vars : VarTable) : List CStr → CondState → Option CondState
  | [], st => some st
  | cmd :: cmds, st =>
    match main_cond vars cmd st with
    | some st1 => cond_run vars cmds st1
    | none => none

/-! ## Targets and `target_link_libraries` -/

/-- One slot of `Target targets[MAX_TARGETS]`; the counted arrays `srcs`, `defs`,
`incs`, `libs` are lists. -/
structure Target where
  name : CStr
  type : CStr
  srcs : List CStr
  defs : List CStr
  incs : List CStr
  libs : List CStr
  deriving DecidableEq, Repr

/-- The live part `targets[0 .. ntarget)` of the global table. -/
abbrev Registry := List Target

/-- The function `trim_token`: cut trailing blanks, tabs, newlines and `)`, then leading blanks,
tabs and newlines, then one pair of surrounding double quotes. -/
def trim_token (s : CStr) : CStr :=
  let s1 := (s.reverse.dropWhile
    (fun c => c = ' ' || c = '\t' || c = '\n' || c = ')')).reverse
  let s2 := s1.dropWhile (fun c => c = ' ' || c = '\t' || c = '\n')
  if s2.length ≥ 2 ∧ s2.head? = some '"' ∧ s2.getLast? = some '"' then s2.dropLast.tail
  else s2

/-- One `%<width>[^...]` directive of `sscanf` with the excluded characters
`excl`: read up to `width` characters outside `excl`; `none` (matching
failure) when there is not even one. -/
def scan_set (width : Nat) (excl : CStr) (s : CStr) : Option (CStr × CStr) :=
  let w := (s.takeWhile (fun c => !excl.contains c)).take width
  if w = [] then none else some (w, s.drop w.length)

/-- The call `sscanf(cleaned, " %127[^ )] %4095[^)]", tname, libs)`:
`some (tname, libs)` exactly when it returns `2`. -/
def sscanf_link (cleaned : CStr) : Option (CStr × CStr) :=
  match scan_set 127 [' ', ')'] (cleaned.dropWhile c_isspace) with
  | none => none
  | some (tname, r1) =>
    match scan_set 4095 [')'] (r1.dropWhile c_isspace) with
    | none => none
    | some (libs, _) => some (tname, libs)

/-- Index of the first target named `name`: the search loop
`for (i = 0; i < ntarget; i++) if (strcmp(targets[i].name, name) == 0) ...`. -/
def find_target : Registry → CStr → Option Nat
  | [], _ => none
  | t :: ts, name => if t.name = name then some 0 else (find_target ts name).map (fun i => i + 1)

/-- A loop `for (j = 0; j < src->n; j++) add_string(&dst->list, &dst->n, src->list[j]);`
of `cmd_target_link_libs`, for the list selected by `get` and stored back by
`put`; `src` is `targets[si]`, `dst` is `targets[di]`. The bound `src->n` is
read again in every iteration, so the loop does not end when `src` and `dst`
are the same non-empty list; the first argument bounds the number of
iterations, and the result is `none` when it is used up. -/
def copy_list (get : Target → List CStr) (put : Target → List CStr → Target)
    (si di : Nat) : Nat → Nat → Registry → Option Registry
  | 0, _, _ => none
  | fuel + 1, j, reg =>
    match reg[si]? with
    | none => some reg
    | some src =>
      match (get src)[j]? with
      | none => some reg
      | some v =>
        copy_list get put si di fuel (j + 1)
          (reg.modify (fun d => put d (get d ++ [v])) di)

/-- The three copy loops run for a source target `targets[si]`. -/
def propagate_from (fuel si di : Nat) (reg : Registry) : Option Registry :=
  (copy_list Target.incs (fun d l => { d with incs := l }) si di fuel 0 reg).bind fun r1 =>
  (copy_list Target.defs (fun d l => { d with defs := l }) si di fuel 0 r1).bind fun r2 =>
  copy_list Target.libs (fun d l => { d with libs := l }) si di fuel 0 r2

/-- The loop `for (i = 0; i < ntarget; i++) if (strcmp(targets[i].name, lib) == 0) { ... }`
from index `i` on, with `n` indices left. -/
def propagate (fuel di : Nat) (lib : CStr) : Nat → Nat → Registry → Option Registry
  | 0, _, reg => some reg
  | n + 1, i, reg =>
    match reg[i]? with
    | none => some reg
    | some src =>
      if src.name = lib then
        (propagate_from fuel i di reg).bind (propagate fuel di lib n (i + 1))
      else propagate fuel di lib n (i + 1) reg

/-- The `while (lib)` loop of `cmd_target_link_libs` over the tokens that
`strtok_r(libs, " ", ..)` returns. -/
def link_tokens (fuel di : Nat) : List CStr → Registry → Option Registry
  | [], reg => some reg
  | tok :: toks, reg =>
    let lib := trim_token tok
    let reg1 := reg.modify (fun d => { d with libs := d.libs ++ [lib] }) di
    (propagate fuel di lib reg1.length 0 reg1).bind (link_tokens fuel di toks)

/-- The call `cmd_target_link_libs(args)`: the registry after the call, `none` when a copy
loop does not end within `fuel` iterations. A text of `n` characters holds at
most `n` tokens. -/
def cmd_target_link_libs (fuel : Nat) (reg : Registry) (args : CStr) : Option Registry :=
  let args := args.dropWhile (fun c => c = '(' || c_isspace c)
  let cleaned := args.take 4095
  let cleaned := (cleaned.reverse.dropWhile (fun c => c = ')' || c_isspace c)).reverse
  match sscanf_link cleaned with
  | none => some reg
  | some (tname, libs) =>
    match find_target reg (trim_token tname) with
    | none => some reg
    | some di => link_tokens fuel di (strtok_parts [' '] (libs.length + 1) libs) reg

/-! ## Vocabulary for the statements about `target_link_libraries` -/

/-- The declared target named `t`: the first one in declaration order, if any. -/
def declared (reg : Registry) (t : CStr) : Option Target :=
  reg.find? (fun s => decide (s.name = t))

/-- The destination `d` after the lists of the linked target `S` are appended. -/
def absorb (S d : Target) : Target :=
  { d with incs := d.incs ++ S.incs, defs := d.defs ++ S.defs, libs := d.libs ++ S.libs }

/-- The destination `d` after one link token `t`: `t` is appended to `libs`, and the
lists of the declared target named `t`, when there is one, are appended. -/
def token_absorb (reg : Registry) (d : Target) (t : CStr) : Target :=
  match declared reg t with
  | some S => absorb S { d with libs := d.libs ++ [t] }
  | none => { d with libs := d.libs ++ [t] }

/-- A word of a command: not empty, without white space, parentheses and double
quotes. -/
def plain_word (t : CStr) : Prop :=
  t ≠ [] ∧ ∀ c ∈ t, c_isspace c = false ∧ c ≠ '(' ∧ c ≠ ')' ∧ c ≠ '"'

/-- The text `" t1 t2 ... tn"`: every token preceded by one blank. -/
def spaced : List CStr → CStr
  | [] => []
  | t :: ts => ' ' :: (t ++ spaced ts)

/-- A small registry used as a concrete input: a static library `core` with an include
directory, a define and a link, and an executable `app`. -/
def link_example : Registry :=
  [ { name := ['c', 'o', 'r', 'e'], type := ['S', 'T', 'A', 'T', 'I', 'C'],
      srcs := [['c', '.', 'c']], defs := [['-', 'D', 'X']], incs := [['i', 'n', 'c']],
      libs := [['m']] },
    { name := ['a', 'p', 'p'], type := ['E', 'X', 'E'], srcs := [['a', '.', 'c']],
      defs := [], incs := [], libs := [['z']] } ]

/-! ## Command reader -/

/-- The `while (fgets(...))` loop of `read_cmake_cmd`. The stream is the list of the
lines still to be read (a line is what one call of `fgets` returns when the
buffer has room for it); `acc` is the text in `buf` so far, so that
`out - buf = acc.length`. A line is read whole when
`strlen(line) < buflen - (out - buf)`; otherwise `fgets` would return a part
of it, which this model does not follow: the result is `none`. The result is
the text in `buf` and the lines left in the stream. -/
def read_lines (buflen : Nat) : List CStr → CStr → Int → Bool → Option (CStr × List CStr)
  | [], acc, _, _ => some (acc, [])
  | l :: rest, acc, depth, found =>
    if l.length + acc.length < buflen then
      -- hash = strchr(out, '#'); if (hash) *hash = 0;
      let cut := l.takeWhile (fun c => c != '#')
      let depth1 := depth + (cut.count '(' : Int) - (cut.count ')' : Int)
      let acc1 := acc ++ cut
      let found1 := found || acc1.contains '('
      if found1 = true ∧ depth1 ≤ 0 then some (acc1, rest)
      else read_lines buflen rest acc1 depth1 found1
    else none

/-- The function `read_cmake_cmd(fi, buf, buflen)`: the command (`none` for `NULL`)
and the lines left in the stream. -/
def read_cmake_cmd (buflen : Nat) (lines : List CStr) : Option (Option CStr × List CStr) :=
  match read_lines buflen lines [] 0 false with
  | none => none
  | some (buf, rest) =>
    let start := buf.dropWhile (fun c => c = ' ' || c = '\t' || c = '\n')
    if start = [] then some (none, rest) else some (some (cut_trailing_blanks start), rest)

/-! ## Vocabulary for the statement about the command reader -/

/-- A line cut at its first `#`. -/
def strip_comment (l : CStr) : CStr := l.takeWhile (fun c => c != '#')

/-- The comment-stripped lines, one after the other. -/
def stripped (ls : List CStr) : CStr := (ls.map strip_comment).flatten

/-- The parenthesis depth of a text: `+1` per `(`, `-1` per `)`. -/
def paren_depth (s : CStr) : Int := (s.count '(' : Int) - (s.count ')' : Int)

/-- After the lines `ls`, at least one `(` has been seen and the depth is zero or
below. -/
def closed_after (ls : List CStr) : Bool :=
  (stripped ls).contains '(' && decide (paren_depth (stripped ls) ≤ 0)

/-- A text without its leading and trailing blanks, tabs and newlines. -/
def trim_blanks (s : CStr) : CStr :=
  ((s.dropWhile (fun c => c = ' ' || c = '\t' || c = '\n')).reverse.dropWhile
    (fun c => c = ' ' || c = '\t' || c = '\n')).reverse

/-! ## Command handlers -/

/-- The characters excluded by the scan set `[^\n\r)]`. -/
def to_line_end : CStr := ['\n', '\r', ')']

/-- The loop that builds `filtered` in `cmd_set` and `cmd_add_compile_options` (the
`#ifndef _WIN32` code): the tokens of `strtok_r(.., " ", ..)`, without those
with `tok[0] == '/' && tok[1] != '\0'`, each followed by a blank. -/
def filter_flags (text : CStr) : CStr :=
  ((strtok_parts [' '] (text.length + 1) text).filter
    (fun tok => match tok with
      | '/' :: _ :: _ => false
      | _ => true)).flatMap (fun tok => tok ++ [' '])

/-- The variable name `CMAKE_C_FLAGS`. -/
def CMAKE_C_FLAGS : CStr := "CMAKE_C_FLAGS".toList

/-- The variable name `CMAKE_C_STANDARD`. -/
def CMAKE_C_STANDARD : CStr := "CMAKE_C_STANDARD".toList

/-- The variable name `CMAKE_C_COMPILER`. -/
def CMAKE_C_COMPILER : CStr := "CMAKE_C_COMPILER".toList

/-- The function `cmd_set(args)` (non-Windows build):
`sscanf(args, "%127s %767[^\n\r)]", key, val) >= 1`, `val` being `""` when the
second directive reads nothing. -/
def cmd_set (vars : VarTable) (args : CStr) : Option VarTable :=
  match scan_s 127 args with
  | none => some vars
  | some (key0, r1) =>
    let val0 :=
      match scan_set 767 to_line_end (r1.dropWhile c_isspace) with
      | some (v, _) => v
      | none => []
    let key := trim_token key0
    let val := trim_token val0
    if key = CMAKE_C_FLAGS then setvar vars key (filter_flags val)
    else setvar vars key val

/-- The function `cmd_add_compile_options(args)` (non-Windows build). The tokens
are appended to `char filtered[1024]` with `strcat`, without a bounds check:
`none` when they do not fit. `snprintf(buf, sizeof(buf), "%s %s", ..)` cuts the
new value at 1023 characters. -/
def cmd_add_compile_options (vars : VarTable) (args : CStr) : Option VarTable :=
  let filtered := filter_flags args
  if filtered.length ≤ 1023 then
    setvar vars CMAKE_C_FLAGS ((getvar vars CMAKE_C_FLAGS ++ [' '] ++ filtered).take 1023)
  else none

/-- The function `cmd_project(args)`. -/
def cmd_project (vars : VarTable) (args : CStr) : Option VarTable :=
  match scan_set 127 to_line_end args with
  | none => some vars
  | some (name, _) => setvar vars "PROJECT_NAME".toList (trim_token name)

/-- The call `strstr(s, pat)`: offset of the first occurrence of `pat` in `s`. -/
def strstr : CStr → CStr → Option Nat
  | [], pat => if pat = [] then some 0 else none
  | c :: rest, pat =>
    if pat.isPrefixOf (c :: rest) then some 0 else (strstr rest pat).map (fun i => i + 1)

/-- The function `cmd_file_glob(args)`. The directory walk `collect_files(dir, &buf,
&buflen, ext)` reads the file system; `collect dir ext` stands for the text it
leaves in `buf`. -/
def cmd_file_glob (collect : CStr → Option CStr → CStr) (vars : VarTable) (args : CStr) :
    Option VarTable :=
  match scan_s 127 args with
  | none => some vars
  | some (var0, r1) =>
    match scan_set 511 to_line_end (r1.dropWhile c_isspace) with
    | none => some vars
    | some (pat0, _) =>
      let var := trim_token var0
      let pattern := trim_token pat0
      if ' ' ∈ pattern then setvar vars var pattern
      else
        let expanded := expand_vars vars pattern 512
        let dir_ext : CStr × Option CStr :=
          match strstr expanded ['/', '*'] with
          | some i =>
            -- ext = star + 1 points at the '*'; ext++ steps over it
            let ext := expanded.drop (i + 2)
            (expanded.take i, if ext = [] ∨ ext = ['.', '*'] then none else some ext)
          | none => (expanded, none)
        if dir_ext.1 = [] then setvar vars var []
        else setvar vars var (collect dir_ext.1 dir_ext.2)

/-- The function `cmd_add_definitions(args)`. When `sscanf(args, "%255s", def)` reads
nothing, `def` is used uninitialised: `none`. -/
def cmd_add_definitions (reg : Registry) (args : CStr) : Option Registry :=
  match scan_s 255 args with
  | none => none
  | some (d, _) => some (reg.map (fun t => { t with defs := t.defs ++ [trim_token d] }))

/-- The loop over `strtok_r(rest, " ", ..)` in `cmd_add_executable` and
`cmd_add_library`: every token is passed to `trim_token` and kept when it is
not empty. -/
def source_tokens (rest : CStr) : List CStr :=
  ((strtok_parts [' '] (rest.length + 1) rest).map trim_token).filter (fun t => t ≠ [])

/-- The function `cmd_add_executable(args)`:
`sscanf(args, "%127s %65535[^\n\r)]", name, rest)`. `name` is used
uninitialised when nothing is read, and `targets[ntarget++]` is written without
a bounds check: `none` in both cases. -/
def cmd_add_executable (reg : Registry) (args : CStr) : Option Registry :=
  match scan_s 127 args with
  | none => none
  | some (name0, r1) =>
    let rest :=
      match scan_set 65535 to_line_end (r1.dropWhile c_isspace) with
      | some (r, _) => r
      | none => []
    if reg.length < MAX_TARGETS then
      some (reg ++ [{ name := trim_token name0, type := ['E', 'X', 'E'],
                      srcs := source_tokens rest, defs := [], incs := [], libs := [] }])
    else none

/-- The function `tolower` in the C locale. -/
def c_tolower (c : Char) : Char :=
  if 'A' ≤ c ∧ c ≤ 'Z' then Char.ofNat (c.toNat + 32) else c

/-- The test `strcasecmp(a, b) == 0`. -/
def strcasecmp_eq (a b : CStr) : Bool := a.map c_tolower = b.map c_tolower

/-- The function `cmd_add_library(args)`:
`sscanf(args, "%127s %63s %65535[^\n\r)]", name, type, rest)`. `name` or `type`
is used uninitialised when fewer than two words are read, and
`targets[ntarget++]` is written without a bounds check: `none` in these
cases. -/
def cmd_add_library (reg : Registry) (args : CStr) : Option Registry :=
  match scan_s 127 args with
  | none => none
  | some (name0, r1) =>
    match scan_s 63 r1 with
    | none => none
    | some (type0, r2) =>
      let rest :=
        match scan_set 65535 to_line_end (r2.dropWhile c_isspace) with
        | some (r, _) => r
        | none => []
      let type := trim_token type0
      let kind : CStr :=
        if strcasecmp_eq type ['S', 'T', 'A', 'T', 'I', 'C'] then ['S', 'T', 'A', 'T', 'I', 'C']
        else if strcasecmp_eq type ['S', 'H', 'A', 'R', 'E', 'D'] then
          ['S', 'H', 'A', 'R', 'E', 'D']
        else ['E', 'X', 'E']
      if reg.length < MAX_TARGETS then
        some (reg ++ [{ name := trim_token name0, type := kind,
                        srcs := source_tokens rest, defs := [], incs := [], libs := [] }])
      else none

/-- The function `parse_and_add_includes(rest, ..)`: the directories it appends. -/
def parse_includes (rest : CStr) : List CStr :=
  source_tokens (trim_token (rest.take 4095))

/-- The function `cmd_include_directories_global(args)`. -/
def cmd_include_directories_global (global_incs : List CStr) (args : CStr) : List CStr :=
  match scan_set 4095 to_line_end args with
  | none => global_incs
  | some (rest, _) => global_incs ++ parse_includes rest

/-- The function `cmd_include_dirs(args)`:
`sscanf(args, "%127s %31s %[^\n\r)]", tname, scope, rest) != 3` returns. The
third directive has no width and writes `char rest[4096]`: `none` when the
text is longer than 4095 characters. -/
def cmd_include_dirs (reg : Registry) (args : CStr) : Option Registry :=
  match scan_s 127 args with
  | none => some reg
  | some (tname0, r1) =>
    match scan_s 31 r1 with
    | none => some reg
    | some (_, r2) =>
      match scan_set r2.length to_line_end (r2.dropWhile c_isspace) with
      | none => some reg
      | some (rest0, _) =>
        if rest0.length ≤ 4095 then
          let tname := trim_token tname0
          let rest := trim_token rest0
          some (reg.map (fun t =>
            if t.name = tname then { t with incs := t.incs ++ parse_includes rest } else t))
        else none

/-! ## Program state and command dispatch -/

/-- The global tables of the program. -/
structure State where
  vars : VarTable
  targets : Registry
  global_incs : List CStr
  cond : CondState

/-- What the program reads from outside: the build platform (`__APPLE__` or not;
the model follows the non-Windows code), the result of `getcwd`, the files
that `fopen(name, "r")` finds, as lists of lines, and the result of the
directory walk `collect_files`. -/
structure Env where
  apple : Bool
  cwd : Option CStr
  fs : CStr → Option (List CStr)
  collect : CStr → Option CStr → CStr

/-- The loops `while (read_cmake_cmd(f, cmdline, sizeof cmdline)) { expand_vars(cmdline,
expcmd, sizeof expcmd); ... }` of `main` and of `cmd_include`, with the buffer
size `size` and the loop body `step` after the expansion. Every command that
is read takes at least one line from the stream; the first argument bounds
the number of commands. -/
def script_loop (size : Nat) (step : State → CStr → Option State) :
    Nat → List CStr → State → Option State
  | 0, _, _ => none
  | fuel + 1, lines, st =>
    match read_cmake_cmd size lines with
    | none => none
    | some (none, _) => some st
    | some (some cmdline, rest) =>
      match step st (expand_vars st.vars cmdline size) with
      | none => none
      | some st1 => script_loop size step fuel rest st1

/-- The dispatch in the loop of `cmd_include`: `set(`, `add_executable(`,
`add_library(`, `add_definitions(`; any other command is only reported in
debug mode. -/
def include_step (st : State) (p : CStr) : Option State :=
  if starts_with p ['s', 'e', 't', '('] then
    (cmd_set st.vars (p.drop 4)).map (fun v => { st with vars := v })
  else if starts_with p "add_executable(".toList then
    (cmd_add_executable st.targets (p.drop 15)).map (fun r => { st with targets := r })
  else if starts_with p "add_library(".toList then
    (cmd_add_library st.targets (p.drop 12)).map (fun r => { st with targets := r })
  else if starts_with p "add_definitions(".toList then
    (cmd_add_definitions st.targets (p.drop 16)).map (fun r => { st with targets := r })
  else some st

/-- The double quote character. -/
def dquote : Char := Char.ofNat 34

/-- The single quote character. -/
def squote : Char := Char.ofNat 39

/-- The function `cmd_include(args)`. `fname` is used uninitialised when
`sscanf(args, "%255s", fname)` reads nothing: `none`. A file that cannot be
opened leaves the state as it is. -/
def cmd_include (env : Env) (st : State) (args : CStr) : Option State :=
  match scan_s 255 args with
  | none => none
  | some (fname, _) =>
    let f := fname.dropWhile (fun c => c = dquote || c = squote)
    let f := match strrchr f dquote with
      | some i => f.take i
      | none => f
    match env.fs f with
    | none => some st
    | some lines => script_loop (MAX_LINE * 4) include_step (lines.length + 1) lines st

/-- The function `cmd_add_subdirectory(args)`. -/
def cmd_add_subdirectory (env : Env) (st : State) (args : CStr) : Option State :=
  match scan_s 255 args with
  | none => none
  | some (dir, _) => cmd_include env st ((dir ++ "/CMakeLists.txt".toList).take 511)

/-- The chain `if (strncmp(expcmd, "set(", 4) == 0) ... else if ...` under
`COMMAND HANDLING` in `main`. `fuel` bounds the copy loops of
`cmd_target_link_libs`. The handlers `cmd_cmake_minimum_required` and
`cmd_message` only print, and the commands of the `STUBS` part are skipped. -/
def main_dispatch (env : Env) (fuel : Nat) (st : State) (expcmd : CStr) : Option State :=
  if starts_with expcmd ['s', 'e', 't', '('] then
    (cmd_set st.vars (expcmd.drop 4)).map (fun v => { st with vars := v })
  else if starts_with expcmd "project(".toList then
    (cmd_project st.vars (expcmd.drop 8)).map (fun v => { st with vars := v })
  else if starts_with expcmd "file(GLOB_RECURSE".toList then
    (cmd_file_glob env.collect st.vars (expcmd.drop 17)).map (fun v => { st with vars := v })
  else if starts_with expcmd "add_definitions(".toList then
    (cmd_add_definitions st.targets (expcmd.drop 16)).map (fun r => { st with targets := r })
  else if starts_with expcmd "add_executable(".toList then
    (cmd_add_executable st.targets (expcmd.drop 15)).map (fun r => { st with targets := r })
  else if starts_with expcmd "add_library(".toList then
    (cmd_add_library st.targets (expcmd.drop 12)).map (fun r => { st with targets := r })
  else if starts_with expcmd "include_directories(".toList then
    some { st with global_incs := cmd_include_directories_global st.global_incs (expcmd.drop 20) }
  else if starts_with expcmd "target_include_directories(".toList then
    (cmd_include_dirs st.targets (expcmd.drop 27)).map (fun r => { st with targets := r })
  else if starts_with expcmd "target_link_libraries".toList then
    (cmd_target_link_libs fuel st.targets (expcmd.drop 21)).map
      (fun r => { st with targets := r })
  else if starts_with expcmd "include(".toList then cmd_include env st (expcmd.drop 8)
  else if starts_with expcmd "cmake_minimum_required(".toList then some st
  else if starts_with expcmd "message(".toList then some st
  else if starts_with expcmd "add_compile_options(".toList then
    (cmd_add_compile_options st.vars (expcmd.drop 20)).map (fun v => { st with vars := v })
  else if starts_with expcmd "add_subdirectory".toList then
    cmd_add_subdirectory env st (expcmd.drop 16)
  else some st

/-- The test whether a command is taken by one of the four condition branches at
the head of the loop body of `main`. -/
def is_cond_cmd (expcmd : CStr) : Bool :=
  starts_with expcmd ['i', 'f', '('] || starts_with expcmd ['e', 'l', 's', 'e', 'i', 'f', '(']
    || starts_with expcmd ['e', 'l', 's', 'e'] || starts_with expcmd ['e', 'n', 'd', 'i', 'f']

/-- The body of the loop of `main` after the expansion: condition handling, the
gate `if (!cond_active()) continue;`, command handling. -/
def main_step (env : Env) (fuel : Nat) (st : State) (expcmd : CStr) : Option State :=
  if is_cond_cmd expcmd then
    (main_cond st.vars expcmd st.cond).map (fun c => { st with cond := c })
  else if !cond_active st.cond then some st
  else main_dispatch env fuel st expcmd

/-! ## Makefile emission -/

/-- The macro `SHARED_NAME` of the non-Windows builds. -/
def SHARED_NAME (env : Env) : CStr := if env.apple then ".dylib".toList else ".so".toList

/-- The macro `LINK_RULES` of the non-Windows builds. -/
def LINK_RULES (env : Env) : CStr :=
  if env.apple then
    "-Wl,-install_name,@loader_path/libpocketpy.dylib -Wl,-rpath,@loader_path".toList
  else "-Wl,-rpath,.".toList

/-- The macro `EXE_RULES` of the non-Windows builds. -/
def EXE_RULES (env : Env) : CStr :=
  if env.apple then "-Wl,-rpath,@loader_path".toList else LINK_RULES env

/-- The loops `for (j ...) fprintf(mk, "<before>%s<after>", list[j]);`. -/
def emit_each (before after : CStr) (l : List CStr) : CStr :=
  l.flatMap (fun x => before ++ x ++ after)

/-- The name that the `all` and `clean` rules print for a target. -/
def emit_artifact (env : Env) (before after : CStr) (t : Target) : CStr :=
  if t.name = [] then []
  else if t.type = ['E', 'X', 'E'] then before ++ t.name ++ after
  else if t.type = ['S', 'T', 'A', 'T', 'I', 'C'] then
    before ++ "lib".toList ++ t.name ++ ".a".toList ++ after
  else if t.type = ['S', 'H', 'A', 'R', 'E', 'D'] then
    before ++ "lib".toList ++ t.name ++ SHARED_NAME env ++ after
  else []

/-- The part `if (strcmp(getvar("CMAKE_C_STANDARD"), "11") == 0) fprintf(mk, " -std=c11");`
of every recipe. -/
def emit_std (vars : VarTable) : CStr :=
  if getvar vars CMAKE_C_STANDARD = ['1', '1'] then " -std=c11".toList else []

/-- The text that the second loop of the emission writes for one target: the rule
line and the recipe. The second `else if (strcmp(t->type, "STATIC") == 0)`
branch of the source cannot be reached. -/
def emit_target (env : Env) (vars : VarTable) (global_incs : List CStr) (t : Target) : CStr :=
  if t.name = [] then []
  else if t.type = ['E', 'X', 'E'] then
    t.name ++ ": ".toList ++ emit_each [] [' '] t.srcs ++
      emit_each "lib".toList (SHARED_NAME env ++ [' ']) t.libs ++
      ['\n', '\t'] ++ getvar vars CMAKE_C_COMPILER ++ [' '] ++ getvar vars CMAKE_C_FLAGS ++
      " -L. ".toList ++ EXE_RULES env ++ emit_std vars ++
      emit_each [' '] [] t.defs ++ emit_each " -I".toList [] t.incs ++
      emit_each " -I".toList [] global_incs ++ emit_each [' '] [] t.srcs ++
      emit_each " -l".toList [] t.libs ++ " -o ".toList ++ t.name ++ ['\n', '\n']
  else if t.type = ['S', 'T', 'A', 'T', 'I', 'C'] then
    "lib".toList ++ t.name ++ ".a: ".toList ++ emit_each [] [' '] t.srcs ++
      ['\n', '\t'] ++ getvar vars CMAKE_C_COMPILER ++ [' '] ++ getvar vars CMAKE_C_FLAGS ++
      emit_std vars ++
      emit_each [' '] [] t.defs ++ emit_each " -I".toList [] t.incs ++
      emit_each " -I".toList [] global_incs ++ emit_each [' '] [] t.srcs ++
      "\n\tar rcs lib".toList ++ t.name ++ ".a *.o\n\n".toList
  else if t.type = ['S', 'H', 'A', 'R', 'E', 'D'] then
    "lib".toList ++ t.name ++ SHARED_NAME env ++ ": ".toList ++ emit_each [] [' '] t.srcs ++
      ['\n', '\t'] ++ getvar vars CMAKE_C_COMPILER ++ " -shared -fPIC ".toList ++
      getvar vars CMAKE_C_FLAGS ++ " -L. ".toList ++ LINK_RULES env ++ emit_std vars ++
      emit_each [' '] [] t.defs ++ emit_each " -I".toList [] t.incs ++
      emit_each " -I".toList [] global_incs ++ emit_each [' '] [] t.srcs ++
      emit_each " -l".toList [] t.libs ++ " -o lib".toList ++ t.name ++ SHARED_NAME env ++
      ['\n', '\n']
  else []

/-- The text written to `Makefile` at the end of `main`. -/
def emit_makefile (env : Env) (st : State) : CStr :=
  "all:".toList ++ st.targets.flatMap (emit_artifact env [' '] []) ++ ['\n', '\n'] ++
    st.targets.flatMap (emit_target env st.vars st.global_incs) ++
    "clean:\n\trm -f *.o *.a *".toList ++ SHARED_NAME env ++ [' '] ++
    st.targets.flatMap (emit_artifact env [] [' ']) ++ ['\n']

/-! ## The function `main` -/

/-- The variables that `main` sets before it opens the script (non-Windows build). -/
def main_defaults (env : Env) : List (CStr × CStr) :=
  [(CMAKE_C_FLAGS, []), (CMAKE_C_STANDARD, ['9', '9']), (CMAKE_C_COMPILER, ['g', 'c', 'c']),
   (['U', 'N', 'I', 'X'], ['O', 'N'])] ++
  (if env.apple then [(['A', 'P', 'P', 'L', 'E'], ['O', 'N'])] else [])

/-- The result of a run of `main`: the exit code and the text of `Makefile`, if the
file is written. -/
structure Outcome where
  exit_code : Nat
  makefile : Option CStr
  deriving DecidableEq, Repr

/-- The function `main`. `none` stands for a run that leaves the model (a buffer
overrun of the source, or a copy loop of `cmd_target_link_libs` that needs
more than `fuel` iterations). -/
def main (env : Env) (fuel : Nat) : Option Outcome :=
  match setvar_seq [] (main_defaults env) with
  | none => none
  | some vars0 =>
    match env.fs "CMakeLists.txt".toList with
    | none => some { exit_code := 1, makefile := none }
    | some lines =>
      let vars1 :=
        match env.cwd with
        | some cwd => setvar vars0 "CMAKE_CURRENT_LIST_DIR".toList cwd
        | none => some vars0
      match vars1 with
      | none => none
      | some vars =>
        match script_loop (MAX_LINE * 16) (main_step env fuel) (lines.length + 1) lines
            { vars := vars, targets := [], global_incs := [], cond := cond_init } with
        | none => none
        | some st => some { exit_code := 0, makefile := some (emit_makefile env st) }

/-! ## Sequences of declaration commands -/

/-- One declaration command with the argument text that the loop body of `main`
passes to its handler: `add_library(` when `lib` is true, `add_executable(`
otherwise. -/
structure Decl where
  lib : Bool
  args : CStr
  deriving DecidableEq, Repr

/-- The handler call for one declaration command. -/
def declare (reg : Registry) (d : Decl) : Option Registry :=
  if d.lib then cmd_add_library reg d.args else cmd_add_executable reg d.args

/-- A sequence of declaration commands, in order. -/
def declare_seq : Registry → List Decl → Option Registry
  | reg, [] => some reg
  | reg, d :: ds =>
    match declare reg d with
    | some r => declare_seq r ds
    | none => none

/-- The name that a declaration command gives to its target: the first word of the
arguments, as `sscanf` reads it with `%127s`, after `trim_token`. -/
def declared_name (d : Decl) : CStr :=
  match scan_s 127 d.args with
  | some (n, _) => trim_token n
  | none => []

/-! # Theorems -/

/-! ## Variable table: lemmas -/

theorem setvar_overwrite_none_iff (t : VarTable) (k v : CStr) :
    setvar_overwrite t k v = none ↔ k ∉ t.map Var.key := by
  induction t with
  | nil => simp [setvar_overwrite]
  | cons x xs ih =>
    by_cases h : x.key = k
    · simp [setvar_overwrite, h]
    · have h2 : ¬ k = x.key := fun e => h e.symm
      simp [setvar_overwrite, h, h2, ih]

theorem setvar_overwrite_keys (t t1 : VarTable) (k v : CStr)
    (h : setvar_overwrite t k v = some t1) : t1.map Var.key = t.map Var.key := by
  induction t generalizing t1 with
  | nil => simp [setvar_overwrite] at h
  | cons x xs ih =>
    by_cases hk : x.key = k
    · simp [setvar_overwrite, hk] at h
      subst h; simp [hk]
    · simp [setvar_overwrite, hk] at h
      obtain ⟨a, ha, rfl⟩ := h
      simp [ih a ha]

theorem getvar_setvar_overwrite (t t1 : VarTable) (k v K : CStr)
    (h : setvar_overwrite t k v = some t1) :
    getvar t1 K = if k = K then v else getvar t K := by
  induction t generalizing t1 with
  | nil => simp [setvar_overwrite] at h
  | cons x xs ih =>
    by_cases hk : x.key = k
    · simp [setvar_overwrite, hk] at h
      subst h
      by_cases hK : k = K
      · simp [getvar, hK]
      · simp [getvar, hK, hk]
    · simp [setvar_overwrite, hk] at h
      obtain ⟨a, ha, rfl⟩ := h
      by_cases hx : x.key = K
      · have : ¬ k = K := fun e => hk (hx.trans e.symm)
        simp [getvar, hx, this]
      · simp [getvar, hx, ih a ha]

theorem getvar_append_of_not_mem (t : VarTable) (k v K : CStr) (h : k ∉ t.map Var.key) :
    getvar (t ++ [⟨k, v⟩]) K = if k = K then v else getvar t K := by
  induction t with
  | nil => simp [getvar]
  | cons x xs ih =>
    simp only [List.map_cons, List.mem_cons, not_or] at h
    by_cases hx : x.key = K
    · have : ¬ k = K := fun e => h.1 (e.trans hx.symm)
      simp [getvar, hx, this]
    · simp [getvar, hx, ih h.2]

theorem getvar_setvar (t t1 : VarTable) (k v K : CStr) (h : setvar t k v = some t1) :
    getvar t1 K = if k = K then v else getvar t K := by
  unfold setvar at h
  cases ho : setvar_overwrite t k v with
  | some a =>
    rw [ho] at h
    simp at h
    subst h
    exact getvar_setvar_overwrite t a k v K ho
  | none =>
    rw [ho] at h
    have hk := (setvar_overwrite_none_iff t k v).1 ho
    by_cases hl : t.length < MAX_VARS
    · simp [hl] at h
      subst h
      exact getvar_append_of_not_mem t k v K hk
    · simp [hl] at h

theorem setvar_keys (t t1 : VarTable) (k v : CStr) (h : setvar t k v = some t1) :
    t1.map Var.key = if k ∈ t.map Var.key then t.map Var.key else t.map Var.key ++ [k] := by
  unfold setvar at h
  cases ho : setvar_overwrite t k v with
  | some a =>
    rw [ho] at h
    simp at h
    subst h
    have hk : k ∈ t.map Var.key := by
      by_contra hc
      rw [(setvar_overwrite_none_iff t k v).2 hc] at ho
      cases ho
    rw [if_pos hk]
    exact setvar_overwrite_keys t a k v ho
  | none =>
    rw [ho] at h
    have hk := (setvar_overwrite_none_iff t k v).1 ho
    by_cases hl : t.length < MAX_VARS
    · simp [hl] at h
      subst h
      rw [if_neg hk]; simp
    · simp [hl] at h

theorem setvar_isSome (t : VarTable) (k v : CStr)
    (h : k ∈ t.map Var.key ∨ t.length < MAX_VARS) : ∃ t1, setvar t k v = some t1 := by
  unfold setvar
  cases ho : setvar_overwrite t k v with
  | some a => exact ⟨a, rfl⟩
  | none =>
    have hk := (setvar_overwrite_none_iff t k v).1 ho
    rcases h with h | h
    · exact absurd h hk
    · exact ⟨t ++ [⟨k, v⟩], by simp [h]⟩

/-- Running a sequence of `setvar` calls from a table with distinct keys: when the
keys of the table and of the calls together are fewer than `MAX_VARS`, every
call succeeds and each key reads back its last write. -/
theorem setvar_seq_spec (ops : List (CStr × CStr)) :
    ∀ t : VarTable, (t.map Var.key).Nodup →
      (t.map Var.key ++ ops.map Prod.fst).toFinset.card < MAX_VARS →
      ∃ t1, setvar_seq t ops = some t1 ∧
        ∀ K, getvar t1 K = ops.foldl (fun acc p => if p.1 = K then p.2 else acc) (getvar t K) := by
  induction ops with
  | nil => intro t _ _; exact ⟨t, rfl, fun K => rfl⟩
  | cons op ops ih =>
    intro t hnd hcard
    obtain ⟨k, v⟩ := op
    have hlen : k ∈ t.map Var.key ∨ t.length < MAX_VARS := by
      by_cases hk : k ∈ t.map Var.key
      · exact Or.inl hk
      · right
        have h1 : (k :: t.map Var.key).toFinset ⊆
            (t.map Var.key ++ List.map Prod.fst ((k, v) :: ops)).toFinset := by
          intro x hx
          simp only [List.toFinset_cons, Finset.mem_insert, List.mem_toFinset] at hx
          simp only [List.map_cons, List.toFinset_append, List.toFinset_cons, Finset.mem_union,
            List.mem_toFinset, Finset.mem_insert]
          tauto
        have h2 := Finset.card_le_card h1
        have h3 : (k :: t.map Var.key).toFinset.card = t.length + 1 := by
          rw [List.toFinset_card_of_nodup (List.nodup_cons.2 ⟨hk, hnd⟩)]
          simp
        omega
    obtain ⟨t1, ht1⟩ := setvar_isSome t k v hlen
    have hkeys := setvar_keys t t1 k v ht1
    have hnd1 : (t1.map Var.key).Nodup := by
      rw [hkeys]
      split
      · exact hnd
      · rename_i hk
        exact List.Nodup.append hnd (List.nodup_singleton k) (by simpa using hk)
    have hcard1 : (t1.map Var.key ++ ops.map Prod.fst).toFinset.card < MAX_VARS := by
      have : (t1.map Var.key ++ ops.map Prod.fst).toFinset =
          (t.map Var.key ++ List.map Prod.fst ((k, v) :: ops)).toFinset := by
        rw [hkeys]
        ext x
        by_cases hk : k ∈ t.map Var.key
        · rw [if_pos hk]
          simp only [List.map_cons, List.toFinset_append, List.toFinset_cons, Finset.mem_union,
            List.mem_toFinset, Finset.mem_insert]
          constructor
          · rintro (h | h)
            · exact Or.inl h
            · exact Or.inr (Or.inr h)
          · rintro (h | h | h)
            · exact Or.inl h
            · subst h; exact Or.inl hk
            · exact Or.inr h
        · rw [if_neg hk]
          simp only [List.map_cons, List.toFinset_append, List.toFinset_cons, Finset.mem_union,
            List.mem_toFinset, Finset.mem_insert, List.mem_append, List.mem_singleton]
          tauto
      rw [this]; exact hcard
    obtain ⟨t2, ht2, hget⟩ := ih t1 hnd1 hcard1
    refine ⟨t2, ?_, ?_⟩
    · simp [setvar_seq, ht1, ht2]
    · intro K
      rw [hget K, getvar_setvar t t1 k v K ht1]
      simp only [List.foldl_cons]

theorem foldl_last_none (K : CStr) (ops : List (CStr × CStr)) (d : CStr)
    (h : ∀ p ∈ ops, p.1 ≠ K) :
    ops.foldl (fun acc p => if p.1 = K then p.2 else acc) d = d := by
  induction ops generalizing d with
  | nil => rfl
  | cons p ps ih =>
    have h1 : p.1 ≠ K := h p (List.mem_cons_self _ _)
    simp only [List.foldl_cons, if_neg h1]
    exact ih d (fun q hq => h q (List.mem_cons_of_mem _ hq))

/-- C1: for every sequence `ops` of `setvar` calls applied to the empty variable
table with fewer than `MAX_VARS` distinct keys, all calls succeed, and for
every key `K`: `getvar K` is the empty string when no call is on `K`, and is
the value `v` of the last call on `K` otherwise (the call `(K, v)` followed by
calls `post` on other keys only). -/
theorem C1_getvar_last_setvar (ops : List (CStr × CStr)) (K : CStr)
    (hcap : (ops.map Prod.fst).dedup.length < MAX_VARS) :
    ∃ t, setvar_seq [] ops = some t ∧
      ((∀ p ∈ ops, p.1 ≠ K) → getvar t K = []) ∧
      (∀ pre v post, ops = pre ++ (K, v) :: post → (∀ p ∈ post, p.1 ≠ K) → getvar t K = v) := by
  have hc : (([] : VarTable).map Var.key ++ ops.map Prod.fst).toFinset.card < MAX_VARS := by
    simpa [List.card_toFinset] using hcap
  obtain ⟨t, ht, hget⟩ := setvar_seq_spec ops [] (by simp) hc
  refine ⟨t, ht, ?_, ?_⟩
  · intro hno
    rw [hget K, foldl_last_none K ops _ hno]
    rfl
  · intro pre v post hops hpost
    rw [hget K, hops, List.foldl_append, List.foldl_cons, if_pos rfl]
    exact foldl_last_none K post v hpost

/-- C1 at a concrete sequence: `set(A, 1); set(B, 2); set(A, 3)` reads back `A = 3`,
`B = 2`, and nothing for `C`. -/
theorem C1_getvar_last_setvar_witness :
    (([(['A'], ['1']), (['B'], ['2']), (['A'], ['3'])] : List (CStr × CStr)).map
        Prod.fst).dedup.length < MAX_VARS ∧
    ∃ t, setvar_seq [] [(['A'], ['1']), (['B'], ['2']), (['A'], ['3'])] = some t ∧
      ((∀ p ∈ ([(['A'], ['1']), (['B'], ['2']), (['A'], ['3'])] : List (CStr × CStr)),
          p.1 ≠ ['A']) → getvar t ['A'] = []) ∧
      (∀ pre v post, [(['A'], ['1']), (['B'], ['2']), (['A'], ['3'])] = pre ++ (['A'], v) :: post →
        (∀ p ∈ post, p.1 ≠ ['A']) → getvar t ['A'] = v) :=
  ⟨by decide, C1_getvar_last_setvar _ ['A'] (by decide)⟩

/-! ## Variable expansion: lemmas -/

theorem expand_copy_eq (B : Nat) (val : CStr) :
    ∀ out : CStr, expand_copy B val out = out ++ val.take (B - 1 - out.length) := by
  induction val with
  | nil => intro out; simp [expand_copy]
  | cons v vs ih =>
    intro out
    by_cases h : out.length + 1 < B
    · have e : B - 1 - out.length = (B - 1 - (out ++ [v]).length) + 1 := by
        simp only [List.length_append, List.length_singleton]; omega
      rw [expand_copy, if_pos h, ih, e, List.take_succ_cons]
      simp
    · have e : B - 1 - out.length = 0 := by omega
      rw [expand_copy, if_neg h, e]
      simp

theorem expand_loop_full (vars : VarTable) (B fuel : Nat) (p out : CStr)
    (h : ¬ out.length + 1 < B) : expand_loop vars B fuel p out = out := by
  cases fuel with
  | zero => rfl
  | succ f =>
    cases p with
    | nil => rfl
    | cons c rest => simp [expand_loop, h]

theorem expand_loop_char (vars : VarTable) (B f : Nat) (c : Char) (rest out : CStr)
    (h : out.length + 1 < B) (hc : ¬ (c = '$' ∧ rest.head? = some '{')) :
    expand_loop vars B (f + 1) (c :: rest) out = expand_loop vars B f rest (out ++ [c]) := by
  simp only [expand_loop, if_pos h, if_neg hc]

theorem expand_loop_open (vars : VarTable) (B f : Nat) (c : Char) (rest out : CStr)
    (h : out.length + 1 < B) (hc : c = '$' ∧ rest.head? = some '{')
    (hs : strchr (c :: rest) '}' = none) :
    expand_loop vars B (f + 1) (c :: rest) out = expand_loop vars B f rest (out ++ [c]) := by
  simp only [expand_loop, if_pos h, if_pos hc, hs]

theorem expand_loop_ref (vars : VarTable) (B f : Nat) (c : Char) (rest out : CStr) (e : Nat)
    (h : out.length + 1 < B) (hc : c = '$' ∧ rest.head? = some '{')
    (hs : strchr (c :: rest) '}' = some e) :
    expand_loop vars B (f + 1) (c :: rest) out =
      expand_loop vars B f ((c :: rest).drop (e + 1))
        (expand_copy B (getvar vars (((c :: rest).drop 2).take (min (e - 2) 255))) out) := by
  simp only [expand_loop, if_pos h, if_pos hc, hs]

/-- The text already written only shifts the room that is left. -/
theorem expand_loop_shift (vars : VarTable) (fuel : Nat) :
    ∀ (B : Nat) (p out : CStr),
      expand_loop vars B fuel p out = out ++ expand_loop vars (B - out.length) fuel p [] := by
  induction fuel with
  | zero => intro B p out; simp [expand_loop]
  | succ f ih =>
    intro B p out
    cases p with
    | nil => simp [expand_loop]
    | cons c rest =>
      by_cases h : out.length + 1 < B
      · have h0 : ([] : CStr).length + 1 < B - out.length := by simp; omega
        by_cases hc : c = '$' ∧ rest.head? = some '{'
        · cases hs : strchr (c :: rest) '}' with
          | none =>
            rw [expand_loop_open vars B f c rest out h hc hs,
              expand_loop_open vars _ f c rest [] h0 hc hs, ih B rest (out ++ [c]),
              ih (B - out.length) rest ([] ++ [c])]
            simp [Nat.sub_sub]
          | some e =>
            rw [expand_loop_ref vars B f c rest out e h hc hs,
              expand_loop_ref vars _ f c rest [] e h0 hc hs, ih B, ih (B - out.length)]
            simp only [expand_copy_eq, List.length_append, List.length_take, List.nil_append,
              List.length_nil, Nat.sub_zero, List.append_assoc, List.append_cancel_left_eq]
            have e1 : B - out.length - 1 = B - 1 - out.length := by omega
            rw [e1]
            congr 2
            omega
        · rw [expand_loop_char vars B f c rest out h hc,
            expand_loop_char vars _ f c rest [] h0 hc, ih B rest (out ++ [c]),
            ih (B - out.length) rest ([] ++ [c])]
          simp [Nat.sub_sub]
      · rw [expand_loop_full vars B _ _ out h, expand_loop_full vars _ _ _ []]
        · simp
        · simp; omega

theorem strchr_lt (c : Char) : ∀ (p : CStr) (e : Nat), strchr p c = some e → e < p.length := by
  intro p
  induction p with
  | nil => intro e h; simp [strchr] at h
  | cons x xs ih =>
    intro e h
    by_cases hx : x = c
    · simp [strchr, hx] at h; subst h; simp
    · simp [strchr, hx] at h
      obtain ⟨a, ha, rfl⟩ := h
      have := ih a ha
      simp; omega

/-- The loop needs at most one iteration per input character. -/
theorem expand_loop_fuel (vars : VarTable) (B : Nat) (f1 : Nat) :
    ∀ (f2 : Nat) (p out : CStr), p.length ≤ f1 → p.length ≤ f2 →
      expand_loop vars B f1 p out = expand_loop vars B f2 p out := by
  induction f1 with
  | zero =>
    intro f2 p out h1 _
    have : p = [] := List.eq_nil_of_length_eq_zero (by omega)
    subst this
    cases f2 <;> rfl
  | succ f ih =>
    intro f2 p out h1 h2
    cases p with
    | nil => cases f2 <;> rfl
    | cons c rest =>
      cases f2 with
      | zero => simp at h2
      | succ g =>
        simp only [List.length_cons] at h1 h2
        by_cases h : out.length + 1 < B
        · by_cases hc : c = '$' ∧ rest.head? = some '{'
          · cases hs : strchr (c :: rest) '}' with
            | none =>
              rw [expand_loop_open vars B f c rest out h hc hs,
                expand_loop_open vars B g c rest out h hc hs]
              exact ih g rest _ (by omega) (by omega)
            | some e =>
              rw [expand_loop_ref vars B f c rest out e h hc hs,
                expand_loop_ref vars B g c rest out e h hc hs]
              have hl : ((c :: rest).drop (e + 1)).length ≤ rest.length := by
                simp only [List.length_drop, List.length_cons]; omega
              exact ih g _ _ (by omega) (by omega)
          · rw [expand_loop_char vars B f c rest out h hc,
              expand_loop_char vars B g c rest out h hc]
            exact ih g rest _ (by omega) (by omega)
        · rw [expand_loop_full vars B _ _ out h, expand_loop_full vars B _ _ out h]

theorem expand_loop_singleton (vars : VarTable) (f B : Nat) (p : CStr) (c : Char) :
    expand_loop vars B f p [c] = c :: expand_loop vars (B - 1) f p [] := by
  rw [expand_loop_shift vars f B p [c]]
  rfl

/-- A smaller buffer holds an initial segment of what a larger one holds. -/
theorem expand_loop_take (vars : VarTable) (fuel : Nat) :
    ∀ (B1 B2 : Nat) (p : CStr), B1 ≤ B2 →
      expand_loop vars B1 fuel p [] = (expand_loop vars B2 fuel p []).take (B1 - 1) := by
  induction fuel with
  | zero => intro B1 B2 p _; simp [expand_loop]
  | succ f ih =>
    intro B1 B2 p hle
    cases p with
    | nil => simp [expand_loop]
    | cons c rest =>
      by_cases h : ([] : CStr).length + 1 < B1
      · have h2 : ([] : CStr).length + 1 < B2 := by omega
        have e1 : B1 - 1 = (B1 - 1 - 1) + 1 := by simp at h; omega
        have hchar : expand_loop vars B1 f rest ([] ++ [c]) =
            (expand_loop vars B2 f rest ([] ++ [c])).take (B1 - 1) := by
          simp only [List.nil_append]
          rw [expand_loop_singleton, expand_loop_singleton, ih (B1 - 1) (B2 - 1) rest (by omega),
            e1, List.take_succ_cons]
          simp
        by_cases hc : c = '$' ∧ rest.head? = some '{'
        · cases hs : strchr (c :: rest) '}' with
          | none =>
            rw [expand_loop_open vars B1 f c rest [] h hc hs,
              expand_loop_open vars B2 f c rest [] h2 hc hs]
            exact hchar
          | some e =>
            rw [expand_loop_ref vars B1 f c rest [] e h hc hs,
              expand_loop_ref vars B2 f c rest [] e h2 hc hs,
              expand_loop_shift vars f B1, expand_loop_shift vars f B2]
            simp only [expand_copy_eq, List.nil_append, List.length_nil, Nat.sub_zero,
              List.length_take]
            generalize getvar vars (List.take (min (e - 2) 255) (List.drop 2 (c :: rest))) = val
            rw [ih (B1 - min (B1 - 1) val.length) (B2 - min (B2 - 1) val.length) _ (by omega),
              List.take_append_eq_append_take, List.take_take, List.length_take]
            have m1 : min (B1 - 1) (B2 - 1) = B1 - 1 := by omega
            rw [m1]
            congr 2
            omega
        · rw [expand_loop_char vars B1 f c rest [] h hc,
            expand_loop_char vars B2 f c rest [] h2 hc]
          exact hchar
      · rw [expand_loop_full vars B1 _ _ [] h]
        have : B1 - 1 = 0 := by simp at h; omega
        simp [this]

theorem strchr_append_of_not_mem (c : Char) (k post : CStr) (h : c ∉ k) :
    strchr (k ++ c :: post) c = some k.length := by
  induction k with
  | nil => simp [strchr]
  | cons x xs ih =>
    simp only [List.mem_cons, not_or] at h
    have hx : ¬ x = c := fun e => h.1 e.symm
    simp [strchr, hx, ih h.2]

/-- Characters before the first `${` are copied one by one. -/
theorem expand_loop_plain (vars : VarTable) (B : Nat) (pre : CStr) :
    (∀ a b : CStr, pre ≠ a ++ '$' :: '{' :: b) →
    ∀ (q out : CStr) (f : Nat), q.head? ≠ some '{' → out.length + pre.length < B →
      expand_loop vars B (pre.length + f) (pre ++ q) out = expand_loop vars B f q (out ++ pre) := by
  induction pre with
  | nil => intro _ q out f _ _; simp
  | cons c rest ih =>
    intro hno q out f hq hroom
    simp only [List.length_cons] at hroom
    have hno1 : ∀ a b : CStr, rest ≠ a ++ '$' :: '{' :: b := by
      intro a b e
      exact hno (c :: a) b (by rw [e]; rfl)
    have hc : ¬ (c = '$' ∧ (rest ++ q).head? = some '{') := by
      rintro ⟨h1, h2⟩
      cases rest with
      | nil => exact hq (by simpa using h2)
      | cons d r =>
        simp only [List.cons_append, List.head?_cons, Option.some.injEq] at h2
        exact hno [] r (by rw [h1, h2]; rfl)
    have e1 : (c :: rest).length + f = (rest.length + f) + 1 := by
      simp only [List.length_cons]; omega
    rw [e1, List.cons_append, expand_loop_char vars B _ c (rest ++ q) out (by omega) hc,
      ih hno1 q (out ++ [c]) f hq (by simp only [List.length_append, List.length_singleton]; omega)]
    simp

/-- One step of the loop at a terminated reference `${k}`. -/
theorem expand_loop_at_ref (vars : VarTable) (B f : Nat) (k post out : CStr)
    (hk : k.length < 256) (hclose : '}' ∉ k) (h : out.length + 1 < B) :
    expand_loop vars B (f + 1) ('$' :: '{' :: (k ++ '}' :: post)) out =
      expand_loop vars B f post (expand_copy B (getvar vars k) out) := by
  have hs : strchr ('$' :: '{' :: (k ++ '}' :: post)) '}' = some (k.length + 2) := by
    have := strchr_append_of_not_mem '}' k post hclose
    simp [strchr, this]
  rw [expand_loop_ref vars B f '$' _ out (k.length + 2) h (by simp) hs]
  have e1 : min (k.length + 2 - 2) 255 = k.length := by omega
  have e2 : List.drop (k.length + 2 + 1) ('$' :: '{' :: (k ++ '}' :: post)) = post := by
    simp [List.drop_append_eq_append_drop]
  have e3 : List.take k.length (List.drop 2 ('$' :: '{' :: (k ++ '}' :: post))) = k := by
    simp [List.take_append_eq_append_take]
  rw [e1, e2, e3]

/-- C2: for every variable table, every text `pre` that contains no `${`, every
key `k` shorter than 256 characters that contains no `}`, and every text
`post`: when the result fits the buffer (its length is below `buflen`),
`expand_vars (pre ++ "${" ++ k ++ "}" ++ post)` is
`pre ++ getvar k ++ expand_vars post`; an undefined `k` contributes
`getvar k = ""` and scanning resumes after the closing `}`. -/
theorem C2_expand_reference (vars : VarTable) (pre k post : CStr) (buflen : Nat)
    (hpre : ∀ a b : CStr, pre ≠ a ++ '$' :: '{' :: b)
    (hk : k.length < 256) (hclose : '}' ∉ k)
    (hroom : pre.length + (getvar vars k).length + (expand_vars vars post buflen).length
      < buflen) :
    expand_vars vars (pre ++ ['$', '{'] ++ k ++ ['}'] ++ post) buflen =
      pre ++ getvar vars k ++ expand_vars vars post buflen := by
  unfold expand_vars at *
  have e0 : pre ++ ['$', '{'] ++ k ++ ['}'] ++ post = pre ++ '$' :: '{' :: (k ++ '}' :: post) := by
    simp
  have e1 : (pre ++ '$' :: '{' :: (k ++ '}' :: post)).length
      = pre.length + ((k.length + post.length + 2) + 1) := by
    simp only [List.length_append, List.length_cons]; omega
  rw [e0, e1, expand_loop_plain vars buflen pre hpre _ [] _ (by simp) (by simp; omega)]
  simp only [List.nil_append]
  by_cases h : pre.length + 1 < buflen
  · rw [expand_loop_at_ref vars buflen _ k post pre hk hclose h, expand_copy_eq,
      expand_loop_shift]
    have t1 : List.take (buflen - 1 - pre.length) (getvar vars k) = getvar vars k :=
      List.take_of_length_le (by omega)
    rw [t1, expand_loop_fuel vars _ (k.length + post.length + 2) post.length post []
      (by omega) (le_refl _),
      expand_loop_take vars post.length (buflen - (pre ++ getvar vars k).length) buflen post
        (by omega)]
    rw [List.take_of_length_le]
    simp only [List.length_append]
    omega
  · rw [expand_loop_full vars buflen _ _ pre h]
    have h1 : (getvar vars k).length = 0 := by omega
    have h2 : (expand_loop vars buflen post.length post []).length = 0 := by omega
    rw [List.length_eq_zero] at h1 h2
    rw [h1, h2]
    simp

/-- C2 at a concrete input: with `X = "foo"`, `a$b${X}c${Y}` expands to `a$bfooc`. -/
theorem C2_expand_reference_witness :
    (∀ a b : CStr, (['a', '$', 'b'] : CStr) ≠ a ++ '$' :: '{' :: b) ∧
    (['X'] : CStr).length < 256 ∧ '}' ∉ (['X'] : CStr) ∧
    expand_vars [⟨['X'], ['f', 'o', 'o']⟩] (['a', '$', 'b'] ++ ['$', '{'] ++ ['X'] ++ ['}'] ++
        ['c', '$', '{', 'Y', '}']) 64 =
      ['a', '$', 'b'] ++ getvar [⟨['X'], ['f', 'o', 'o']⟩] ['X'] ++
        expand_vars [⟨['X'], ['f', 'o', 'o']⟩] ['c', '$', '{', 'Y', '}'] 64 :=
  have hp : ∀ a b : CStr, (['a', '$', 'b'] : CStr) ≠ a ++ '$' :: '{' :: b := by
    intro a b e
    match a, e with
    | [], e => simp at e
    | [_], e => simp at e
    | [_, _], e => simp at e
    | _ :: _ :: _ :: _, e => simp at e
  ⟨hp, by decide, by decide,
    C2_expand_reference [⟨['X'], ['f', 'o', 'o']⟩] ['a', '$', 'b'] ['X']
      ['c', '$', '{', 'Y', '}'] 64 hp (by decide) (by decide) (by decide)⟩

/-- C3: expansion is not recursive. For every variable table and every name `A`
that can be written as a reference (shorter than 256 characters, no `}`)
whose value fits the buffer, `expand_vars "${A}"` is the value of `A`,
character for character, whatever that value contains. -/
theorem C3_expand_not_recursive (vars : VarTable) (A : CStr) (buflen : Nat)
    (hA : A.length < 256) (hclose : '}' ∉ A) (hroom : (getvar vars A).length < buflen) :
    expand_vars vars (['$', '{'] ++ A ++ ['}']) buflen = getvar vars A := by
  unfold expand_vars
  have e0 : ['$', '{'] ++ A ++ ['}'] = '$' :: '{' :: (A ++ '}' :: []) := by simp
  have e1 : ('$' :: '{' :: (A ++ '}' :: [])).length = (A.length + 2) + 1 := by
    simp only [List.length_append, List.length_cons, List.length_nil]
  rw [e0, e1]
  by_cases h : ([] : CStr).length + 1 < buflen
  · rw [expand_loop_at_ref vars buflen _ A [] [] hA hclose h, expand_copy_eq]
    have : expand_loop vars buflen (A.length + 2) []
        ([] ++ List.take (buflen - 1 - ([] : CStr).length) (getvar vars A)) =
        [] ++ List.take (buflen - 1 - ([] : CStr).length) (getvar vars A) := by
      cases A.length + 2 <;> rfl
    rw [this]
    simp only [List.nil_append, List.length_nil, Nat.sub_zero]
    exact List.take_of_length_le (by omega)
  · rw [expand_loop_full vars buflen _ _ [] h]
    have h1 : (getvar vars A).length = 0 := by simp at h; omega
    exact (List.length_eq_zero.1 h1).symm

/-- C3 at the input of the specification: with `A = "${B}"` and `B = "x"`, `${A}`
expands to the literal text `${B}`, not to `x`. -/
theorem C3_expand_not_recursive_witness :
    (['A'] : CStr).length < 256 ∧ '}' ∉ (['A'] : CStr) ∧
    expand_vars [⟨['A'], ['$', '{', 'B', '}']⟩, ⟨['B'], ['x']⟩] (['$', '{'] ++ ['A'] ++ ['}']) 16
      = ['$', '{', 'B', '}'] :=
  ⟨by decide, by decide,
    C3_expand_not_recursive [⟨['A'], ['$', '{', 'B', '}']⟩, ⟨['B'], ['x']⟩] ['A'] 16
      (by decide) (by decide) (by decide)⟩

/-! ## Condition stack: lemmas -/

/-- With room on the stack, `cond_push` stores the conjunction of its argument and the
frame below the old top. -/
theorem cond_active_push_below (b : Bool) (st : CondState)
    (h : st.cond_level + 1 < MAX_STACK) (h1 : 1 ≤ st.cond_level) :
    cond_active (cond_push b st) = (b && st.cond_stack (st.cond_level - 1)) := by
  have h0 : ¬ st.cond_level = 0 := by omega
  simp [cond_push, h, cond_active, h0]

theorem main_cond_if (vars : VarTable) (cmd : CStr) (st : CondState)
    (h : starts_with cmd ['i', 'f', '('] = true) : main_cond vars cmd st = main_if vars cmd st := by
  simp [main_cond, h]

/-- C4, the code at `if(Q) if(Y)` with `Q` unset and `Y = "1"`, from the initial stack:
`if(Q)` pushes an inactive frame; the push of `if(Y)` reads the root frame,
which lies below the old top, and stores an active frame at depth `2`, so the
commands are active although `Q` is false. A single `if(Y)` from the initial
stack stores an inactive frame although `Y` is true. -/
theorem C4_cond_push_reads_below_top :
    cond_value [⟨['Y'], ['1']⟩] "if(Q)".toList = some false ∧
    cond_value [⟨['Y'], ['1']⟩] "if(Y)".toList = some true ∧
    (cond_run [⟨['Y'], ['1']⟩] ["if(Q)".toList] cond_init).map
        (fun st => (st.cond_level, cond_active st)) = some (1, false) ∧
    (cond_run [⟨['Y'], ['1']⟩] ["if(Q)".toList, "if(Y)".toList] cond_init).map
        (fun st => (st.cond_level, st.cond_stack 1, cond_active st)) = some (2, false, true) ∧
    (cond_run [⟨['Y'], ['1']⟩] ["if(Y)".toList] cond_init).map
        (fun st => (st.cond_level, cond_active st)) = some (1, false) ∧
    cond_active (cond_push true (cond_push false cond_init)) = true ∧
    cond_active (cond_push true cond_init) = false := by
  refine ⟨by decide, by decide, by decide, by decide, by decide, by decide, by decide⟩

/-- C5, the code at `if(Y) else()` with `Y = "1"`, from the initial stack: `if(Y)` stores an
inactive frame although `Y` is true, and `else` flips it, so the commands
after `else()` are active; the following `endif()` returns to the root frame. -/
theorem C5_else_active_after_true_if :
    cond_value [⟨['Y'], ['1']⟩] "if(Y)".toList = some true ∧
    (cond_run [⟨['Y'], ['1']⟩] ["if(Y)".toList] cond_init).map
        (fun st => (st.cond_level, cond_active st)) = some (1, false) ∧
    (cond_run [⟨['Y'], ['1']⟩] ["if(Y)".toList, "else()".toList] cond_init).map
        (fun st => (st.cond_level, cond_active st)) = some (1, true) ∧
    (cond_run [⟨['Y'], ['1']⟩] ["if(Y)".toList, "else()".toList, "endif()".toList]
        cond_init).map
        (fun st => (st.cond_level, cond_active st)) = some (0, true) := by
  refine ⟨by decide, by decide, by decide, by decide⟩

/-- C6, the code at `if(Q) if(Q) else()` with `Q` unset: the outer frame is
inactive, the inner `if` pushes an inactive frame, and `else` flips that frame
to active without looking at the frame below. -/
theorem C6_else_active_under_inactive_parent :
    ∃ st, cond_run [] [['i', 'f', '(', 'Q', ')'], ['i', 'f', '(', 'Q', ')'],
        ['e', 'l', 's', 'e', '(', ')']] cond_init = some st ∧
      st.cond_level = 2 ∧ cond_active st = true ∧ st.cond_stack 1 = false := by
  refine ⟨main_else (cond_push false (cond_push false cond_init)), ?_, ?_, ?_, ?_⟩
  · have v : cond_value [] ['i', 'f', '(', 'Q', ')'] = some false := by decide
    simp [cond_run, main_cond, starts_with, main_if, v]
  · decide
  · decide
  · decide

/-! ## `eval_simple_if` at concrete expressions -/

/-- C7, the code at `NOT X` with `X = "ON"`: `strtok_r(expr, "OR", ..)` cuts at every
`O` and every `R`, so the parts are `N` and `T X`; the part `N` consists of
delimiters of the `AND` cut only, has no terms, and keeps `and_result = 1`. The
expression evaluates to true although `X` is true. -/
theorem C7_eval_not_splits_inside_words :
    strtok_parts ['O', 'R'] 16 ['N', 'O', 'T', ' ', 'X'] = [['N'], ['T', ' ', 'X']] ∧
    strtok_parts ['A', 'N', 'D'] 16 ['N'] = [] ∧
    truthy (getvar [⟨['X'], ['O', 'N']⟩] ['X']) = true ∧
    eval_simple_if [⟨['X'], ['O', 'N']⟩] ['N', 'O', 'T', ' ', 'X'] = true ∧
    cond_value [⟨['X'], ['O', 'N']⟩] ['i', 'f', '(', 'N', 'O', 'T', ' ', 'X', ')'] = some true := by
  decide

/-- C8, the code at the bare token `UNIX` with `UNIX = "ON"` (the variable `main`
sets on this platform): the `AND` cut splits the name at `N` into `U` and `IX`,
neither of which is set, and the expression evaluates to false. -/
theorem C8_eval_bare_token_unix :
    getvar [⟨['U', 'N', 'I', 'X'], ['O', 'N']⟩] ['U', 'N', 'I', 'X'] = ['O', 'N'] ∧
    strtok_parts ['A', 'N', 'D'] 16 ['U', 'N', 'I', 'X'] = [['U'], ['I', 'X']] ∧
    eval_simple_if [⟨['U', 'N', 'I', 'X'], ['O', 'N']⟩] ['U', 'N', 'I', 'X'] = false ∧
    cond_value [⟨['U', 'N', 'I', 'X'], ['O', 'N']⟩] ['i', 'f', '(', 'U', 'N', 'I', 'X', ')'] =
      some false := by
  decide

/-- C9, the code at `if(X STREQUAL "foo")` with `X = "foo"`: the text passed to
`eval_simple_if` is `X STREQUAL "foo"`, the `OR` cut splits it at the `R` of
`STREQUAL`, no part has the operator `STREQUAL`, and the condition is false;
without the quotes it is false as well. -/
theorem C9_eval_strequal_false :
    cond_expr ['i', 'f', '(', 'X', ' ', 'S', 'T', 'R', 'E', 'Q', 'U', 'A', 'L', ' ',
        '"', 'f', 'o', 'o', '"', ')'] 2 19 =
      ['X', ' ', 'S', 'T', 'R', 'E', 'Q', 'U', 'A', 'L', ' ', '"', 'f', 'o', 'o', '"'] ∧
    strtok_parts ['O', 'R'] 16
        ['X', ' ', 'S', 'T', 'R', 'E', 'Q', 'U', 'A', 'L', ' ', '"', 'f', 'o', 'o', '"'] =
      [['X', ' ', 'S', 'T'], ['E', 'Q', 'U', 'A', 'L', ' ', '"', 'f', 'o', 'o', '"']] ∧
    cond_value [⟨['X'], ['f', 'o', 'o']⟩]
        ['i', 'f', '(', 'X', ' ', 'S', 'T', 'R', 'E', 'Q', 'U', 'A', 'L', ' ',
          '"', 'f', 'o', 'o', '"', ')'] = some false ∧
    eval_simple_if [⟨['X'], ['f', 'o', 'o']⟩]
        ['X', ' ', 'S', 'T', 'R', 'E', 'Q', 'U', 'A', 'L', ' ', 'f', 'o', 'o'] = false := by
  decide

/-! ## `target_link_libraries`: lemmas on the copy loops -/

theorem modify_congr_id (f : Target → Target) (hf : ∀ d, f d = d) (n : Nat) (reg : Registry) :
    reg.modify f n = reg := by
  apply List.ext_getElem?
  intro m
  rw [List.getElem?_modify]
  cases reg[m]? with
  | none => rfl
  | some a => by_cases h : n = m <;> simp [h, hf]

/-- A copy loop whose source is another target than the destination appends the
source list, from index `j` on, to the destination list. -/
theorem copy_list_spec (get : Target → List CStr) (put : Target → List CStr → Target)
    (hgp : ∀ d l, get (put d l) = l) (hpp : ∀ d l m, put (put d l) m = put d m)
    (hpg : ∀ d, put d (get d) = d)
    (si di : Nat) (hne : si ≠ di) (S : Target) :
    ∀ (fuel j : Nat) (reg : Registry), reg[si]? = some S → j ≤ (get S).length →
      (get S).length < fuel + j →
      copy_list get put si di fuel j reg =
        some (reg.modify (fun d => put d (get d ++ (get S).drop j)) di) := by
  intro fuel
  induction fuel with
  | zero => intro j reg _ h1 h2; omega
  | succ f ih =>
    intro j reg hS hj hfuel
    rw [copy_list, hS]
    simp only
    by_cases hlt : j < (get S).length
    · have hv : (get S)[j]? = some ((get S)[j]) := List.getElem?_eq_getElem hlt
      rw [hv]
      simp only
      have hS1 : (reg.modify (fun d => put d (get d ++ [(get S)[j]])) di)[si]? = some S := by
        rw [List.getElem?_modify_ne _ _ (fun e => hne e.symm)]; exact hS
      rw [ih (j + 1) _ hS1 (by omega) (by omega), List.modify_modify_eq]
      congr 2
      funext d
      simp only [Function.comp_apply, hgp, hpp, List.append_assoc, List.singleton_append]
      rw [List.drop_eq_getElem_cons hlt]
    · have hv : (get S)[j]? = none := List.getElem?_eq_none (by omega)
      rw [hv]
      simp only
      have hd : (get S).drop j = [] := List.drop_eq_nil_of_le (by omega)
      rw [hd, modify_congr_id _ (by intro d; simp [hpg])]

theorem propagate_from_spec (fuel si di : Nat) (hne : si ≠ di) (S : Target) (reg : Registry)
    (hS : reg[si]? = some S)
    (hfuel : S.incs.length < fuel ∧ S.defs.length < fuel ∧ S.libs.length < fuel) :
    propagate_from fuel si di reg = some (reg.modify (absorb S) di) := by
  unfold propagate_from
  have hne1 : di ≠ si := fun e => hne e.symm
  rw [copy_list_spec Target.incs (fun d l => { d with incs := l }) (fun _ _ => rfl)
    (fun _ _ _ => rfl) (fun _ => rfl) si di hne S fuel 0 reg hS (by omega) (by omega)]
  simp only [Option.some_bind]
  rw [copy_list_spec Target.defs (fun d l => { d with defs := l }) (fun _ _ => rfl)
    (fun _ _ _ => rfl) (fun _ => rfl) si di hne S fuel 0 _
    (by rw [List.getElem?_modify_ne _ _ hne1]; exact hS) (by omega) (by omega)]
  simp only [Option.some_bind]
  rw [copy_list_spec Target.libs (fun d l => { d with libs := l }) (fun _ _ => rfl)
    (fun _ _ _ => rfl) (fun _ => rfl) si di hne S fuel 0 _
    (by rw [List.getElem?_modify_ne _ _ hne1, List.getElem?_modify_ne _ _ hne1]; exact hS)
    (by omega) (by omega)]
  rw [List.modify_modify_eq, List.modify_modify_eq]
  rfl

theorem propagate_none (fuel di : Nat) (lib : CStr) :
    ∀ (n i : Nat) (reg : Registry),
      (∀ (j : Nat) (t : Target), i ≤ j → reg[j]? = some t → t.name ≠ lib) →
      propagate fuel di lib n i reg = some reg := by
  intro n
  induction n with
  | zero => intro i reg _; rfl
  | succ n ih =>
    intro i reg h
    rw [propagate]
    cases hi : reg[i]? with
    | none => rfl
    | some src =>
      simp only
      rw [if_neg (h i src (le_refl _) hi)]
      exact ih (i + 1) reg (fun j t hj => h j t (by omega))

theorem propagate_hit (fuel di : Nat) (lib : CStr) (si : Nat) (hne : si ≠ di) (S : Target)
    (hname : S.name = lib)
    (hfuel : S.incs.length < fuel ∧ S.defs.length < fuel ∧ S.libs.length < fuel) :
    ∀ (n i : Nat) (reg : Registry), i ≤ si → si < i + n → reg[si]? = some S →
      (∀ (j : Nat) (t : Target), j ≠ si → reg[j]? = some t → t.name ≠ lib) →
      propagate fuel di lib n i reg = some (reg.modify (absorb S) di) := by
  intro n
  induction n with
  | zero => intro i reg h1 h2; omega
  | succ n ih =>
    intro i reg h1 h2 hS hother
    rw [propagate]
    by_cases hi : i = si
    · subst hi
      rw [hS]
      simp only
      rw [if_pos hname, propagate_from_spec fuel i di hne S reg hS hfuel]
      simp only [Option.some_bind]
      apply propagate_none
      intro j t hj ht
      rw [List.getElem?_modify] at ht
      cases hr : reg[j]? with
      | none => rw [hr] at ht; simp at ht
      | some t0 =>
        rw [hr] at ht
        have h0 := hother j t0 (by omega) hr
        by_cases hd : di = j
        · simp [hd] at ht; subst ht; exact h0
        · simp [hd] at ht; subst ht; exact h0
    · cases hr : reg[i]? with
      | none =>
        have := List.getElem?_eq_none_iff.1 hr
        have h3 : si < reg.length := by
          by_contra hc
          rw [List.getElem?_eq_none (by omega)] at hS
          cases hS
        omega
      | some src =>
        simp only
        rw [if_neg (hother i src hi hr)]
        exact ih (i + 1) reg (by omega) (by omega) hS hother

/-- Distinct names: two slots with the same name are the same slot. -/
theorem index_unique (reg : Registry) (hnd : (reg.map Target.name).Nodup) :
    ∀ (i j : Nat) (a b : Target), reg[i]? = some a → reg[j]? = some b → a.name = b.name → i = j := by
  intro i j a b ha hb hab
  have hi : i < (reg.map Target.name).length := by
    simp only [List.length_map]
    by_contra hc
    rw [List.getElem?_eq_none (by omega)] at ha
    cases ha
  have hj : j < (reg.map Target.name).length := by
    simp only [List.length_map]
    by_contra hc
    rw [List.getElem?_eq_none (by omega)] at hb
    cases hb
  refine (@List.Nodup.getElem_inj_iff _ _ hnd i hi j hj).1 ?_
  have e1 : (reg.map Target.name)[i]? = some a.name := by simp [ha]
  have e2 : (reg.map Target.name)[j]? = some b.name := by simp [hb]
  rw [List.getElem?_eq_getElem hi] at e1
  rw [List.getElem?_eq_getElem hj] at e2
  simp only [Option.some.injEq] at e1 e2
  rw [e1, e2, hab]

theorem declared_none (reg : Registry) (t : CStr) (h : declared reg t = none) :
    ∀ (j : Nat) (s : Target), reg[j]? = some s → s.name ≠ t := by
  intro j s hs
  unfold declared at h
  rw [List.find?_eq_none] at h
  have := h s (List.getElem?_mem hs)
  simpa using this

theorem declared_some (reg : Registry) (t : CStr) (S : Target) (h : declared reg t = some S) :
    S.name = t ∧ ∃ si : Nat, reg[si]? = some S := by
  unfold declared at h
  have h1 := List.find?_some h
  have h2 := List.mem_of_find?_eq_some h
  obtain ⟨si, hsi⟩ := List.mem_iff_getElem?.1 h2
  exact ⟨by simpa using h1, si, hsi⟩

/-- One pass of the propagation loop for a token that is not the name of the
destination. -/
theorem propagate_spec (fuel di : Nat) (t : CStr) (reg : Registry)
    (hnd : (reg.map Target.name).Nodup) (d : Target) (hd : reg[di]? = some d)
    (hself : t ≠ d.name)
    (hfuel : ∀ s ∈ reg, s.name ≠ d.name →
      s.incs.length < fuel ∧ s.defs.length < fuel ∧ s.libs.length < fuel) :
    propagate fuel di t (reg.modify (fun d => { d with libs := d.libs ++ [t] }) di).length 0
        (reg.modify (fun d => { d with libs := d.libs ++ [t] }) di) =
      some (reg.modify (fun d => token_absorb reg d t) di) := by
  have hU := index_unique reg hnd
  cases hdec : declared reg t with
  | none =>
    have hno := declared_none reg t hdec
    rw [propagate_none]
    · congr 2
      funext x
      simp [token_absorb, hdec]
    · intro j s _ hs
      rw [List.getElem?_modify] at hs
      cases hr : reg[j]? with
      | none => rw [hr] at hs; simp at hs
      | some t0 =>
        rw [hr] at hs
        have h0 := hno j t0 hr
        by_cases hdj : di = j
        · simp [hdj] at hs; subst hs; exact h0
        · simp [hdj] at hs; subst hs; exact h0
  | some S =>
    obtain ⟨hn, si, hsi⟩ := declared_some reg t S hdec
    have hne : si ≠ di := by
      intro e
      rw [e, hd] at hsi
      simp only [Option.some.injEq] at hsi
      exact hself (by rw [hsi, hn])
    have hlen : si < reg.length := by
      by_contra hc
      rw [List.getElem?_eq_none (by omega)] at hsi
      cases hsi
    rw [propagate_hit fuel di t si hne S hn
      (hfuel S (List.getElem?_mem hsi) (by rw [hn]; exact hself))
      _ 0 _ (Nat.zero_le _) (by simp; exact hlen)
      (by rw [List.getElem?_modify_ne _ _ (fun e => hne e.symm)]; exact hsi)]
    · rw [List.modify_modify_eq]
      congr 2
      funext x
      simp [token_absorb, hdec]
    · intro j s hj hs
      rw [List.getElem?_modify] at hs
      cases hr : reg[j]? with
      | none => rw [hr] at hs; simp at hs
      | some t0 =>
        rw [hr] at hs
        have h0 : t0.name ≠ t := by
          intro e
          exact hj (hU j si t0 S hr hsi (by rw [e, hn]))
        by_cases hdj : di = j
        · simp [hdj] at hs; subst hs; exact h0
        · simp [hdj] at hs; subst hs; exact h0

theorem token_absorb_name (reg : Registry) (d : Target) (t : CStr) :
    (token_absorb reg d t).name = d.name := by
  unfold token_absorb
  cases declared reg t <;> rfl

theorem map_name_modify (G : Target → Target) (hG : ∀ d, (G d).name = d.name) (di : Nat)
    (reg : Registry) : (reg.modify G di).map Target.name = reg.map Target.name := by
  apply List.ext_getElem?
  intro m
  simp only [List.getElem?_map, List.getElem?_modify]
  cases reg[m]? with
  | none => rfl
  | some a => by_cases h : di = m <;> simp [h, hG]

theorem declared_modify (G : Target → Target) (hG : ∀ d, (G d).name = d.name) (t : CStr) :
    ∀ (reg : Registry) (di : Nat) (d : Target), reg[di]? = some d → t ≠ d.name →
      declared (reg.modify G di) t = declared reg t := by
  intro reg
  induction reg with
  | nil => intro di d h; simp at h
  | cons x xs ih =>
    intro di d hd ht
    cases di with
    | zero =>
      simp only [List.getElem?_cons_zero, Option.some.injEq] at hd
      subst hd
      have h1 : ¬ x.name = t := fun e => ht e.symm
      simp [declared, List.modify, List.find?, hG, h1]
    | succ k =>
      simp only [List.getElem?_cons_succ] at hd
      have := ih k d hd ht
      unfold declared at this ⊢
      simp only [List.modify_succ_cons, List.find?_cons]
      rw [this]

theorem foldl_token_absorb_congr (r1 r2 : Registry) (ts : List CStr)
    (h : ∀ t ∈ ts, declared r1 t = declared r2 t) :
    ∀ d : Target, ts.foldl (token_absorb r1) d = ts.foldl (token_absorb r2) d := by
  induction ts with
  | nil => intro d; rfl
  | cons t ts ih =>
    intro d
    have e : token_absorb r1 d t = token_absorb r2 d t := by
      unfold token_absorb
      rw [h t (List.mem_cons_self _ _)]
    simp only [List.foldl_cons, e]
    exact ih (fun u hu => h u (List.mem_cons_of_mem _ hu)) _

/-- The token loop, for tokens that `trim_token` leaves as they are and that differ
from the name of the destination. -/
theorem link_tokens_spec (fuel di : Nat) (Dn : CStr) :
    ∀ (toks : List CStr) (reg : Registry), (reg.map Target.name).Nodup →
      (∃ d, reg[di]? = some d ∧ d.name = Dn) →
      (∀ t ∈ toks, trim_token t = t ∧ t ≠ Dn) →
      (∀ s ∈ reg, s.name ≠ Dn →
        s.incs.length < fuel ∧ s.defs.length < fuel ∧ s.libs.length < fuel) →
      link_tokens fuel di toks reg =
        some (reg.modify (fun d => toks.foldl (token_absorb reg) d) di) := by
  intro toks
  induction toks with
  | nil =>
    intro reg _ _ _ _
    rw [link_tokens, modify_congr_id (fun d => List.foldl (token_absorb reg) d []) (fun d => rfl)]
  | cons t ts ih =>
    intro reg hnd hD htoks hfuel
    obtain ⟨d, hd, hdn⟩ := hD
    obtain ⟨htrim, hne⟩ := htoks t (List.mem_cons_self _ _)
    rw [link_tokens]
    simp only [htrim]
    rw [propagate_spec fuel di t reg hnd d hd (by rw [hdn]; exact hne)
      (by rw [hdn]; exact hfuel)]
    simp only [Option.some_bind]
    have hG : ∀ x, (token_absorb reg x t).name = x.name := fun x => token_absorb_name reg x t
    rw [ih (reg.modify (fun d => token_absorb reg d t) di)
      (by rw [map_name_modify _ hG]; exact hnd)
      ⟨token_absorb reg d t, by rw [List.getElem?_modify_eq, hd]; rfl, by rw [hG, hdn]⟩
      (fun u hu => htoks u (List.mem_cons_of_mem _ hu))
      (by
        intro s hs hsn
        obtain ⟨j, hj⟩ := List.mem_iff_getElem?.1 hs
        rw [List.getElem?_modify] at hj
        cases hr : reg[j]? with
        | none => rw [hr] at hj; simp at hj
        | some s0 =>
          rw [hr] at hj
          by_cases hdj : di = j
          · exfalso
            simp [hdj] at hj
            subst hdj
            rw [hd] at hr
            simp only [Option.some.injEq] at hr
            apply hsn
            rw [← hj, hG, ← hr, hdn]
          · simp [hdj] at hj
            subst hj
            exact hfuel s0 (List.getElem?_mem hr) hsn)]
    rw [List.modify_modify_eq]
    congr 2
    funext x
    simp only [Function.comp_apply, List.foldl_cons]
    apply foldl_token_absorb_congr
    intro u hu
    exact declared_modify _ hG u reg di d hd
      (by rw [hdn]; exact (htoks u (List.mem_cons_of_mem _ hu)).2)

/-- The lists of the destination after the token loop, written out. -/
theorem foldl_token_absorb_lists (reg : Registry) (toks : List CStr) :
    ∀ d : Target,
      (toks.foldl (token_absorb reg) d).libs =
          d.libs ++ toks.flatMap (fun t =>
            t :: (match declared reg t with | some S => S.libs | none => [])) ∧
      (toks.foldl (token_absorb reg) d).incs =
          d.incs ++ toks.flatMap (fun t =>
            match declared reg t with | some S => S.incs | none => []) ∧
      (toks.foldl (token_absorb reg) d).defs =
          d.defs ++ toks.flatMap (fun t =>
            match declared reg t with | some S => S.defs | none => []) ∧
      (toks.foldl (token_absorb reg) d).name = d.name ∧
      (toks.foldl (token_absorb reg) d).type = d.type ∧
      (toks.foldl (token_absorb reg) d).srcs = d.srcs := by
  induction toks with
  | nil => intro d; simp
  | cons t ts ih =>
    intro d
    obtain ⟨h1, h2, h3, h4, h5, h6⟩ := ih (token_absorb reg d t)
    simp only [List.foldl_cons, List.flatMap_cons]
    rw [h1, h2, h3, h4, h5, h6]
    unfold token_absorb
    cases declared reg t <;> simp [absorb]


/-! ## `target_link_libraries`: lemmas on the parsing of the arguments -/

theorem takeWhile_append_stop (p : Char → Bool) (a b : CStr) (ha : ∀ c ∈ a, p c = true)
    (hb : ∀ c, b.head? = some c → p c = false) : (a ++ b).takeWhile p = a := by
  induction a with
  | nil =>
    cases b with
    | nil => rfl
    | cons x xs => simp [List.takeWhile, hb x (by simp)]
  | cons x xs ih =>
    rw [List.cons_append, List.takeWhile_cons_of_pos (ha x (List.mem_cons_self _ _)),
      ih (fun c hc => ha c (List.mem_cons_of_mem _ hc))]

theorem dropWhile_append_stop (p : Char → Bool) (a b : CStr) (ha : ∀ c ∈ a, p c = true)
    (hb : ∀ c, b.head? = some c → p c = false) : (a ++ b).dropWhile p = b := by
  induction a with
  | nil =>
    cases b with
    | nil => rfl
    | cons x xs => simp [List.dropWhile, hb x (by simp)]
  | cons x xs ih =>
    rw [List.cons_append, List.dropWhile_cons_of_pos (ha x (List.mem_cons_self _ _)),
      ih (fun c hc => ha c (List.mem_cons_of_mem _ hc))]

theorem dropWhile_stop (p : Char → Bool) (b : CStr)
    (hb : ∀ c, b.head? = some c → p c = false) : b.dropWhile p = b :=
  dropWhile_append_stop p [] b (fun _ h => by simp at h) hb

theorem plain_char (t : CStr) (ht : plain_word t) (c : Char) (hc : c ∈ t) :
    c ≠ ' ' ∧ c ≠ '\t' ∧ c ≠ '\n' ∧ c ≠ '(' ∧ c ≠ ')' ∧ c ≠ '"' ∧ c_isspace c = false := by
  obtain ⟨h1, h2, h3, h4⟩ := ht.2 c hc
  have h5 := h1
  simp only [c_isspace, Bool.or_eq_false_iff, decide_eq_false_iff_not] at h5
  exact ⟨h5.1.1.1.1.1, h5.1.1.1.1.2, h5.1.1.1.2, h2, h3, h4, h1⟩

theorem plain_head (t rest : CStr) (ht : plain_word t) :
    ∃ c, (t ++ rest).head? = some c ∧ c ∈ t := by
  obtain ⟨hne, _⟩ := ht
  cases t with
  | nil => exact absurd rfl hne
  | cons x xs => exact ⟨x, rfl, List.mem_cons_self _ _⟩

theorem spaced_head (ts : List CStr) (c : Char) (h : (spaced ts).head? = some c) : c = ' ' := by
  cases ts with
  | nil => simp [spaced] at h
  | cons t ts => simp [spaced] at h; exact h.symm

theorem spaced_no_close (ts : List CStr) (h : ∀ t ∈ ts, plain_word t) :
    ∀ c ∈ spaced ts, c ≠ ')' := by
  induction ts with
  | nil => intro c hc; simp [spaced] at hc
  | cons t ts ih =>
    intro c hc
    simp only [spaced, List.mem_cons, List.mem_append] at hc
    rcases hc with hc | hc | hc
    · rw [hc]; decide
    · exact (plain_char t (h t (List.mem_cons_self _ _)) c hc).2.2.2.2.1
    · exact ih (fun u hu => h u (List.mem_cons_of_mem _ hu)) c hc

theorem spaced_length (ts : List CStr) (h : ∀ t ∈ ts, plain_word t) :
    ts.length ≤ (spaced ts).length := by
  induction ts with
  | nil => simp
  | cons t ts ih =>
    have := ih (fun u hu => h u (List.mem_cons_of_mem _ hu))
    simp only [spaced, List.length_cons, List.length_append]
    omega

/-- The last character of `Dn ++ " t1 ... tn"` is a character of a plain word. -/
theorem spaced_getLast (ts : List CStr) (h : ∀ t ∈ ts, plain_word t) :
    ∀ (w : CStr), plain_word w → ∀ c, (w ++ spaced ts).getLast? = some c →
      c ≠ ' ' ∧ c ≠ '\t' ∧ c ≠ '\n' ∧ c ≠ ')' ∧ c_isspace c = false := by
  induction ts with
  | nil =>
    intro w hw c hc
    simp only [spaced, List.append_nil] at hc
    have hm : c ∈ w := List.mem_of_getLast?_eq_some hc
    have := plain_char w hw c hm
    exact ⟨this.1, this.2.1, this.2.2.1, this.2.2.2.2.1, this.2.2.2.2.2.2⟩
  | cons t ts ih =>
    intro w hw c hc
    have ht := h t (List.mem_cons_self _ _)
    have e : w ++ spaced (t :: ts) = (w ++ [' ']) ++ (t ++ spaced ts) := by simp [spaced]
    rw [e] at hc
    have hne : t ++ spaced ts ≠ [] := by
      intro e0
      exact ht.1 (List.append_eq_nil.1 e0).1
    rw [List.getLast?_append_of_ne_nil _ hne] at hc
    exact ih (fun u hu => h u (List.mem_cons_of_mem _ hu)) t ht c hc

theorem strip_trailing_close (p : Char → Bool) (hp : p ')' = true) (y : CStr)
    (hy : ∀ c, y.getLast? = some c → p c = false) :
    ((y ++ [')']).reverse.dropWhile p).reverse = y := by
  have e : (y ++ [')']).reverse = ')' :: y.reverse := by simp
  rw [e, List.dropWhile_cons_of_pos hp, dropWhile_stop p y.reverse, List.reverse_reverse]
  intro c hc
  apply hy
  rw [List.getLast?_eq_head?_reverse]
  exact hc

theorem trim_token_plain (t : CStr) (ht : plain_word t) : trim_token t = t := by
  have hl : ∀ c, t.getLast? = some c →
      (fun c => decide (c = ' ') || decide (c = '\t') || decide (c = '\n') || decide (c = ')')) c
        = false := by
    intro c hc
    have := plain_char t ht c (List.mem_of_getLast?_eq_some hc)
    simp [this.1, this.2.1, this.2.2.1, this.2.2.2.2.1]
  have hh : ∀ c, t.head? = some c →
      (fun c => decide (c = ' ') || decide (c = '\t') || decide (c = '\n')) c = false := by
    intro c hc
    have := plain_char t ht c (List.mem_of_mem_head? hc)
    simp [this.1, this.2.1, this.2.2.1]
  have e1 : (t.reverse.dropWhile
      (fun c => decide (c = ' ') || decide (c = '\t') || decide (c = '\n') || decide (c = ')'))).reverse
      = t := by
    rw [dropWhile_stop _ t.reverse, List.reverse_reverse]
    intro c hc
    apply hl
    rw [List.getLast?_eq_head?_reverse]
    exact hc
  unfold trim_token
  simp only [e1, dropWhile_stop _ t hh]
  rw [if_neg]
  rintro ⟨_, h2, _⟩
  exact (plain_char t ht '"' (List.mem_of_mem_head? h2)).2.2.2.2.2.1 rfl

theorem contains_blank (c : Char) : ([' '] : CStr).contains c = decide (c = ' ') := by
  by_cases h : c = ' ' <;> simp [h]

theorem contains_blank_close (c : Char) :
    ([' ', ')'] : CStr).contains c = (decide (c = ' ') || decide (c = ')')) := by
  by_cases h : c = ' ' <;> by_cases h2 : c = ')' <;> simp [h, h2]

theorem contains_close (c : Char) : ([')'] : CStr).contains c = decide (c = ')') := by
  by_cases h : c = ')' <;> simp [h]

theorem strtok_parts_nil (delim : CStr) (n : Nat) : strtok_parts delim n [] = [] := by
  cases n <;> simp [strtok_parts, strtok_r]

theorem strtok_r_rest_lt (s delim tok rest : CStr) (h : strtok_r s delim = some (tok, rest)) :
    rest.length < s.length := by
  unfold strtok_r at h
  simp only at h
  split at h
  · cases h
  · rename_i hne
    simp only [Option.some.injEq, Prod.mk.injEq] at h
    obtain ⟨_, hr⟩ := h
    have h1 : (s.dropWhile (fun c => delim.contains c)).length ≤ s.length :=
      (List.dropWhile_sublist _).length_le
    have h2 : ((s.dropWhile (fun c => delim.contains c)).dropWhile
        (fun c => !delim.contains c)).length ≤
        (s.dropWhile (fun c => delim.contains c)).length :=
      (List.dropWhile_sublist _).length_le
    have h3 : 0 < (s.dropWhile (fun c => delim.contains c)).length :=
      List.length_pos.2 hne
    rw [← hr, List.length_tail]
    omega

/-- A loop over the tokens of a text of `n` characters ends within `n + 1` calls of
`strtok_r`: a larger bound returns the same tokens. -/
theorem strtok_parts_fuel (delim : CStr) :
    ∀ (n m : Nat) (s : CStr), s.length < n → s.length < m →
      strtok_parts delim n s = strtok_parts delim m s := by
  intro n
  induction n with
  | zero => intro m s h; omega
  | succ n ih =>
    intro m s hn hm
    cases m with
    | zero => omega
    | succ m =>
      rw [strtok_parts, strtok_parts]
      cases h : strtok_r s delim with
      | none => rfl
      | some pr =>
        obtain ⟨tok, rest⟩ := pr
        have := strtok_r_rest_lt s delim tok rest h
        simp only
        rw [ih m rest (by omega) (by omega)]

theorem strtok_r_plain (t : CStr) (ts : List CStr) (ht : plain_word t) :
    strtok_r (t ++ spaced ts) [' '] = some (t, (spaced ts).tail) := by
  have h1 : (t ++ spaced ts).dropWhile (fun c => ([' '] : CStr).contains c) = t ++ spaced ts := by
    apply dropWhile_stop
    intro c hc
    obtain ⟨x, hx, hm⟩ := plain_head t (spaced ts) ht
    rw [hx] at hc
    simp only [Option.some.injEq] at hc
    subst hc
    simp [contains_blank, (plain_char t ht x hm).1]
  have hall : ∀ c ∈ t, (fun c => !([' '] : CStr).contains c) c = true := by
    intro c hc
    simp [contains_blank, (plain_char t ht c hc).1]
  have hstop : ∀ c, (spaced ts).head? = some c →
      (fun c => !([' '] : CStr).contains c) c = false := by
    intro c hc
    simp [contains_blank, spaced_head ts c hc]
  have hne : t ++ spaced ts ≠ [] := fun e => ht.1 (List.append_eq_nil.1 e).1
  unfold strtok_r
  simp only [h1, if_neg hne, takeWhile_append_stop _ t (spaced ts) hall hstop,
    dropWhile_append_stop _ t (spaced ts) hall hstop]

theorem strtok_parts_spaced :
    ∀ (ts : List CStr) (t : CStr) (n : Nat), plain_word t → (∀ u ∈ ts, plain_word u) →
      ts.length < n → strtok_parts [' '] n (t ++ spaced ts) = t :: ts := by
  intro ts
  induction ts with
  | nil =>
    intro t n ht _ hn
    cases n with
    | zero => omega
    | succ m =>
      rw [strtok_parts, strtok_r_plain t [] ht]
      simp [spaced, strtok_parts_nil]
  | cons u us ih =>
    intro t n ht hts hn
    cases n with
    | zero => omega
    | succ m =>
      rw [strtok_parts, strtok_r_plain t (u :: us) ht]
      simp only [spaced, List.tail_cons]
      rw [ih u m (hts u (List.mem_cons_self _ _))
        (fun w hw => hts w (List.mem_cons_of_mem _ hw)) (by simp at hn; omega)]

theorem find_target_of_nodup :
    ∀ (reg : Registry) (di : Nat) (d : Target), (reg.map Target.name).Nodup →
      reg[di]? = some d → find_target reg d.name = some di := by
  intro reg
  induction reg with
  | nil => intro di d _ h; simp at h
  | cons x xs ih =>
    intro di d hnd hd
    cases di with
    | zero =>
      simp only [List.getElem?_cons_zero, Option.some.injEq] at hd
      subst hd
      simp [find_target]
    | succ k =>
      simp only [List.getElem?_cons_succ] at hd
      simp only [List.map_cons, List.nodup_cons] at hnd
      have hx : ¬ x.name = d.name := by
        intro e
        apply hnd.1
        rw [e]
        exact List.mem_map_of_mem _ (List.getElem?_mem hd)
      simp [find_target, hx, ih k d hnd.2 hd]

/-- The arguments `(Dn t1 ... tn)` are parsed into the target name `Dn` and the
tokens `t1 .. tn`. -/
theorem cmd_target_link_libs_parse (fuel : Nat) (reg : Registry) (Dn : CStr) (toks : List CStr)
    (hD : plain_word Dn) (hDl : Dn.length ≤ 127) (ht : ∀ t ∈ toks, plain_word t)
    (hlen : (Dn ++ spaced toks).length + 2 ≤ 4096) :
    cmd_target_link_libs fuel reg ('(' :: (Dn ++ spaced toks ++ [')'])) =
      match toks with
      | [] => some reg
      | _ :: _ =>
        match find_target reg Dn with
        | none => some reg
        | some di => link_tokens fuel di toks reg := by
  have hskip : ('(' :: (Dn ++ spaced toks ++ [')'])).dropWhile
      (fun c => decide (c = '(') || c_isspace c) = Dn ++ spaced toks ++ [')'] := by
    rw [List.dropWhile_cons_of_pos (by simp)]
    apply dropWhile_stop
    intro c hc
    obtain ⟨x, hx, hm⟩ := plain_head Dn (spaced toks ++ [')']) hD
    rw [List.append_assoc, hx] at hc
    simp only [Option.some.injEq] at hc
    subst hc
    have := plain_char Dn hD x hm
    simp [this.2.2.2.1, this.2.2.2.2.2.2]
  have htake : (Dn ++ spaced toks ++ [')']).take 4095 = Dn ++ spaced toks ++ [')'] := by
    apply List.take_of_length_le
    simp only [List.length_append, List.length_singleton] at hlen ⊢
    omega
  have hstrip : ((Dn ++ spaced toks ++ [')']).reverse.dropWhile
      (fun c => decide (c = ')') || c_isspace c)).reverse = Dn ++ spaced toks := by
    apply strip_trailing_close _ (by simp)
    intro c hc
    have := spaced_getLast toks ht Dn hD c hc
    simp [this.2.2.2.1, this.2.2.2.2]
  have hsp : (Dn ++ spaced toks).dropWhile c_isspace = Dn ++ spaced toks := by
    apply dropWhile_stop
    intro c hc
    obtain ⟨x, hx, hm⟩ := plain_head Dn (spaced toks) hD
    rw [hx] at hc
    simp only [Option.some.injEq] at hc
    subst hc
    exact (plain_char Dn hD x hm).2.2.2.2.2.2
  have hallD : ∀ c ∈ Dn, (fun c => !([' ', ')'] : CStr).contains c) c = true := by
    intro c hc
    have := plain_char Dn hD c hc
    simp [contains_blank_close, this.1, this.2.2.2.2.1]
  have hstopD : ∀ c, (spaced toks).head? = some c →
      (fun c => !([' ', ')'] : CStr).contains c) c = false := by
    intro c hc
    simp [contains_blank_close, spaced_head toks c hc]
  have hname : scan_set 127 [' ', ')'] (Dn ++ spaced toks) = some (Dn, spaced toks) := by
    unfold scan_set
    simp only [takeWhile_append_stop _ Dn (spaced toks) hallD hstopD,
      List.take_of_length_le hDl, if_neg hD.1, List.drop_left]
  unfold cmd_target_link_libs
  simp only [hskip, htake, hstrip]
  unfold sscanf_link
  simp only [hsp, hname]
  cases toks with
  | nil => simp [spaced, scan_set]
  | cons t ts =>
    have htp := ht t (List.mem_cons_self _ _)
    have hts : ∀ u ∈ ts, plain_word u := fun u hu => ht u (List.mem_cons_of_mem _ hu)
    have hsp2 : (spaced (t :: ts)).dropWhile c_isspace = t ++ spaced ts := by
      simp only [spaced]
      rw [List.dropWhile_cons_of_pos (by decide)]
      apply dropWhile_stop
      intro c hc
      obtain ⟨x, hx, hm⟩ := plain_head t (spaced ts) htp
      rw [hx] at hc
      simp only [Option.some.injEq] at hc
      subst hc
      exact (plain_char t htp x hm).2.2.2.2.2.2
    have hall2 : ∀ c ∈ t ++ spaced ts, (fun c => !([')'] : CStr).contains c) c = true := by
      intro c hc
      rw [List.mem_append] at hc
      rcases hc with hc | hc
      · simp [contains_close, (plain_char t htp c hc).2.2.2.2.1]
      · simp [contains_close, spaced_no_close ts hts c hc]
    have hl2 : (t ++ spaced ts).length ≤ 4095 := by
      simp only [spaced, List.length_append, List.length_cons] at hlen ⊢
      omega
    have hne2 : t ++ spaced ts ≠ [] := fun e => htp.1 (List.append_eq_nil.1 e).1
    have hlibs : scan_set 4095 [')'] (t ++ spaced ts) = some (t ++ spaced ts, []) := by
      unfold scan_set
      have := takeWhile_append_stop _ (t ++ spaced ts) [] hall2 (by simp)
      rw [List.append_nil] at this
      simp only [this, List.take_of_length_le hl2, if_neg hne2, List.drop_length]
    simp only [hsp2, hlibs, trim_token_plain Dn hD]
    cases find_target reg Dn with
    | none => rfl
    | some di =>
      simp only
      rw [strtok_parts_spaced ts t _ htp hts]
      have := spaced_length ts hts
      simp only [List.length_append]
      omega


/-- C10: for every registry with pairwise distinct target names, every declared
destination `D` (at index `di`) and every list `toks` of link tokens (plain
words, none of them the name of `D`), the call
`target_link_libraries(D t1 ... tn)` with the tokens separated by single blanks
returns, for any bound `fuel` above the lengths of the lists in the registry,
a registry in which only `D` has changed: `D.libs` is its old value followed,
for each token in order, by the token and then the `libs` of the declared
target of that name, if there is one; `D.incs` and `D.defs` are their old
values followed by the `incs`, `defs` of those targets in order. A token that
names no declared target contributes its own name to `D.libs` and nothing
else. -/
theorem C10_target_link_libraries (reg : Registry) (di : Nat) (D : Target) (toks : List CStr)
    (fuel : Nat)
    (hnd : (reg.map Target.name).Nodup) (hD : reg[di]? = some D)
    (hDw : plain_word D.name) (hDl : D.name.length ≤ 127)
    (htoks : ∀ t ∈ toks, plain_word t ∧ t ≠ D.name)
    (hlen : (D.name ++ spaced toks).length + 2 ≤ 4096)
    (hfuel : ∀ s ∈ reg, s.incs.length < fuel ∧ s.defs.length < fuel ∧ s.libs.length < fuel) :
    ∃ (reg1 : Registry) (D1 : Target),
      cmd_target_link_libs fuel reg ('(' :: (D.name ++ spaced toks ++ [')'])) = some reg1 ∧
      reg1.length = reg.length ∧ reg1[di]? = some D1 ∧
      (∀ i : Nat, i ≠ di → reg1[i]? = reg[i]?) ∧
      D1.libs = D.libs ++ toks.flatMap (fun t =>
        t :: (match declared reg t with | some S => S.libs | none => [])) ∧
      D1.incs = D.incs ++ toks.flatMap (fun t =>
        match declared reg t with | some S => S.incs | none => []) ∧
      D1.defs = D.defs ++ toks.flatMap (fun t =>
        match declared reg t with | some S => S.defs | none => []) ∧
      D1.name = D.name ∧ D1.type = D.type ∧ D1.srcs = D.srcs := by
  have hparse := cmd_target_link_libs_parse fuel reg D.name toks hDw hDl
    (fun t h => (htoks t h).1) hlen
  have hlists := foldl_token_absorb_lists reg toks D
  refine ⟨reg.modify (fun d => toks.foldl (token_absorb reg) d) di,
    toks.foldl (token_absorb reg) D, ?_, by simp, by rw [List.getElem?_modify_eq, hD]; rfl,
    fun i hi => List.getElem?_modify_ne _ _ (fun e => hi e.symm), hlists⟩
  rw [hparse]
  cases toks with
  | nil => exact congrArg some (modify_congr_id _ (fun d => rfl) di reg).symm
  | cons t ts =>
    simp only [find_target_of_nodup reg di D hnd hD]
    exact link_tokens_spec fuel di D.name (t :: ts) reg hnd ⟨D, hD, rfl⟩
      (fun u hu => ⟨trim_token_plain u (htoks u hu).1, (htoks u hu).2⟩)
      (fun s hs _ => hfuel s hs)

theorem plain_word_of_forall (t : CStr) (h1 : t ≠ [])
    (h2 : t.all (fun c => !c_isspace c && c != '(' && c != ')' && c != '"') = true) :
    plain_word t := by
  refine ⟨h1, fun c hc => ?_⟩
  have := List.all_eq_true.1 h2 c hc
  simp only [Bool.and_eq_true, Bool.not_eq_true', bne_iff_ne, ne_eq] at this
  exact ⟨this.1.1.1, this.1.1.2, this.1.2, this.2⟩

/-- C10 at `target_link_libraries(app core pthread)`: `app` receives `core`, the
link `m` of `core`, and `pthread`; the include directory and the define of
`core`; `pthread` names no target. -/
theorem C10_target_link_libraries_witness :
    ∃ (reg1 : Registry) (D1 : Target),
      cmd_target_link_libs 4 link_example
        ('(' :: (['a', 'p', 'p'] ++ spaced [['c', 'o', 'r', 'e'],
          ['p', 't', 'h', 'r', 'e', 'a', 'd']] ++ [')'])) = some reg1 ∧
      reg1.length = link_example.length ∧ reg1[1]? = some D1 ∧
      (∀ i : Nat, i ≠ 1 → reg1[i]? = link_example[i]?) ∧
      D1.libs = [['z'], ['c', 'o', 'r', 'e'], ['m'], ['p', 't', 'h', 'r', 'e', 'a', 'd']] ∧
      D1.incs = [['i', 'n', 'c']] ∧ D1.defs = [['-', 'D', 'X']] ∧
      D1.name = ['a', 'p', 'p'] ∧ D1.type = ['E', 'X', 'E'] ∧ D1.srcs = [['a', '.', 'c']] :=
  C10_target_link_libraries link_example 1
    { name := ['a', 'p', 'p'], type := ['E', 'X', 'E'], srcs := [['a', '.', 'c']],
      defs := [], incs := [], libs := [['z']] }
    [['c', 'o', 'r', 'e'], ['p', 't', 'h', 'r', 'e', 'a', 'd']] 4
    (by decide) rfl (plain_word_of_forall _ (by decide) (by decide)) (by decide)
    (by
      intro t ht
      simp only [List.mem_cons, List.mem_singleton, List.not_mem_nil, or_false] at ht
      rcases ht with rfl | rfl
      · exact ⟨plain_word_of_forall _ (by decide) (by decide), by decide⟩
      · exact ⟨plain_word_of_forall _ (by decide) (by decide), by decide⟩)
    (by decide) (by decide)

/-! ## The gate of inactive conditions -/

/-- C20: for every state in which `cond_active()` is false and every command that
is not taken by one of the four condition branches (`if(`, `elseif(`, `else`,
`endif`), the body of the loop of `main` leaves the whole state (variables,
targets, global include directories, condition stack) unchanged. -/
theorem C20_inactive_gate (env : Env) (fuel : Nat) (st : State) (expcmd : CStr)
    (hcmd : is_cond_cmd expcmd = false) (hoff : cond_active st.cond = false) :
    main_step env fuel st expcmd = some st := by
  simp [main_step, hcmd, hoff]

/-- C20 at a concrete state: after `if(Q)` with `Q` unset, the command
`add_executable(app a.c)` changes nothing. -/
theorem C20_inactive_gate_witness :
    is_cond_cmd "add_executable(app a.c)".toList = false ∧
    cond_active (cond_push false cond_init) = false ∧
    main_step ⟨false, none, fun _ => none, fun _ _ => []⟩ 8
        ⟨[], [], [], cond_push false cond_init⟩ "add_executable(app a.c)".toList =
      some ⟨[], [], [], cond_push false cond_init⟩ :=
  ⟨by decide, by decide,
    C20_inactive_gate ⟨false, none, fun _ => none, fun _ _ => []⟩ 8
      ⟨[], [], [], cond_push false cond_init⟩ "add_executable(app a.c)".toList
      (by decide) (by decide)⟩

/-! ## Scanning of words -/

theorem scan_s_word (w : Nat) (t rest : CStr) (hne : t ≠ [])
    (ht : ∀ c ∈ t, c_isspace c = false) (hw : t.length ≤ w)
    (hrest : ∀ c, rest.head? = some c → c_isspace c = true) :
    scan_s w (t ++ rest) = some (t, rest) := by
  have h1 : (t ++ rest).dropWhile c_isspace = t ++ rest := by
    apply dropWhile_stop
    intro c hc
    cases t with
    | nil => exact absurd rfl hne
    | cons x xs =>
      simp only [List.cons_append, List.head?_cons, Option.some.injEq] at hc
      subst hc
      exact ht x (List.mem_cons_self _ _)
  have h2 : (t ++ rest).takeWhile (fun c => !c_isspace c) = t := by
    apply takeWhile_append_stop
    · intro c hc; simp [ht c hc]
    · intro c hc; simp [hrest c hc]
  have hne2 : t ++ rest ≠ [] := fun e => hne (List.append_eq_nil.1 e).1
  unfold scan_s
  simp only [h1, if_neg hne2, h2, List.take_of_length_le hw, List.drop_left]

theorem plain_no_space (t : CStr) (ht : plain_word t) : ∀ c ∈ t, c_isspace c = false :=
  fun c hc => (ht.2 c hc).1

theorem trim_token_plain_close (t : CStr) (ht : plain_word t) : trim_token (t ++ [')']) = t := by
  have e1 : ((t ++ [')']).reverse.dropWhile
      (fun c => decide (c = ' ') || decide (c = '\t') || decide (c = '\n') || decide (c = ')'))).reverse
      = t := by
    apply strip_trailing_close _ (by simp)
    intro c hc
    have := plain_char t ht c (List.mem_of_getLast?_eq_some hc)
    simp [this.1, this.2.1, this.2.2.1, this.2.2.2.2.1]
  have e2 := trim_token_plain t ht
  unfold trim_token at e2 ⊢
  simp only [e1]
  have e3 : (t.reverse.dropWhile
      (fun c => decide (c = ' ') || decide (c = '\t') || decide (c = '\n') || decide (c = ')'))).reverse
      = t := by
    rw [dropWhile_stop _ t.reverse, List.reverse_reverse]
    intro c hc
    have hc2 : t.getLast? = some c := by rw [List.getLast?_eq_head?_reverse]; exact hc
    have := plain_char t ht c (List.mem_of_getLast?_eq_some hc2)
    simp [this.1, this.2.1, this.2.2.1, this.2.2.2.2.1]
  simp only [e3] at e2
  exact e2

/-- A word followed by `)` and nothing else is read whole by `%<w>s`. -/
theorem scan_s_plain_close (w : Nat) (t : CStr) (ht : plain_word t) (hw : t.length < w) :
    scan_s w (t ++ [')']) = some (t ++ [')'], []) := by
  have := scan_s_word w (t ++ [')']) [] (by simp)
    (by
      intro c hc
      rw [List.mem_append] at hc
      rcases hc with hc | hc
      · exact plain_no_space t ht c hc
      · simp only [List.mem_singleton] at hc; subst hc; decide)
    (by simp; omega) (by simp)
  simpa using this

/-! ## `add_definitions`, `add_executable`, `add_library` -/

theorem contains_line_end (c : Char) :
    to_line_end.contains c = (decide (c = '\n') || decide (c = '\r') || decide (c = ')')) := by
  by_cases h1 : c = '\n' <;> by_cases h2 : c = '\r' <;> by_cases h3 : c = ')' <;>
    simp [to_line_end, h1, h2, h3]

theorem mem_line_end (c : Char) : c ∈ to_line_end ↔ c = '\n' ∨ c = '\r' ∨ c = ')' := by
  simp [to_line_end]

theorem space_cases (c : Char) (h : c_isspace c = false) :
    c ≠ ' ' ∧ c ≠ '\t' ∧ c ≠ '\n' ∧ c ≠ '\r' := by
  simp only [c_isspace, Bool.or_eq_false_iff, decide_eq_false_iff_not] at h
  exact ⟨h.1.1.1.1.1, h.1.1.1.1.2, h.1.1.1.2, h.2⟩

theorem scan_s_blank_word (w : Nat) (t rest : CStr) (hne : t ≠ [])
    (ht : ∀ c ∈ t, c_isspace c = false) (hw : t.length ≤ w)
    (hrest : ∀ c, rest.head? = some c → c_isspace c = true) :
    scan_s w (' ' :: (t ++ rest)) = some (t, rest) := by
  have h := scan_s_word w t rest hne ht hw hrest
  unfold scan_s at h ⊢
  rw [List.dropWhile_cons_of_pos (by decide)]
  exact h

theorem spaced_chars (ts : List CStr) (h : ∀ t ∈ ts, plain_word t) :
    ∀ c ∈ spaced ts, c ≠ '\n' ∧ c ≠ '\r' ∧ c ≠ ')' := by
  induction ts with
  | nil => intro c hc; simp [spaced] at hc
  | cons t ts ih =>
    intro c hc
    simp only [spaced, List.mem_cons, List.mem_append] at hc
    rcases hc with hc | hc | hc
    · subst hc; decide
    · have h1 := space_cases c (plain_no_space t (h t (List.mem_cons_self _ _)) c hc)
      exact ⟨h1.2.2.1, h1.2.2.2, (plain_char t (h t (List.mem_cons_self _ _)) c hc).2.2.2.2.1⟩
    · exact ih (fun u hu => h u (List.mem_cons_of_mem _ hu)) c hc

/-- The text `" s1 ... sn)"` behind the last word that `sscanf` reads with `%s`: the
directive `%65535[^\n\r)]` reads `s1 ... sn`. -/
theorem scan_rest_spaced (s : CStr) (ss : List CStr) (hs : plain_word s)
    (hss : ∀ u ∈ ss, plain_word u) (hlen : (s ++ spaced ss).length ≤ 65535) :
    scan_set 65535 to_line_end ((' ' :: (s ++ spaced ss ++ [')'])).dropWhile c_isspace) =
      some (s ++ spaced ss, [')']) := by
  have h1 : (' ' :: (s ++ spaced ss ++ [')'])).dropWhile c_isspace = s ++ spaced ss ++ [')'] := by
    rw [List.dropWhile_cons_of_pos (by decide)]
    apply dropWhile_stop
    intro c hc
    obtain ⟨x, hx, hm⟩ := plain_head s (spaced ss ++ [')']) hs
    rw [List.append_assoc, hx] at hc
    simp only [Option.some.injEq] at hc
    subst hc
    exact plain_no_space s hs x hm
  have hall : ∀ c ∈ s ++ spaced ss, (fun c => !to_line_end.contains c) c = true := by
    intro c hc
    rw [List.mem_append] at hc
    rcases hc with hc | hc
    · have h2 := space_cases c (plain_no_space s hs c hc)
      simp [mem_line_end, h2.2.2.1, h2.2.2.2, (plain_char s hs c hc).2.2.2.2.1]
    · have h2 := spaced_chars ss hss c hc
      simp [mem_line_end, h2.1, h2.2.1, h2.2.2]
  have hne : s ++ spaced ss ≠ [] := fun e => hs.1 (List.append_eq_nil.1 e).1
  unfold scan_set
  rw [h1, takeWhile_append_stop _ (s ++ spaced ss) [')'] hall
    (by intro c hc; simp at hc; subst hc; simp [mem_line_end])]
  simp only [List.take_of_length_le hlen, if_neg hne, List.drop_left]

theorem source_tokens_spaced (s : CStr) (ss : List CStr) (hs : plain_word s)
    (hss : ∀ u ∈ ss, plain_word u) : source_tokens (s ++ spaced ss) = s :: ss := by
  unfold source_tokens
  rw [strtok_parts_spaced ss s _ hs hss
    (by have := spaced_length ss hss; simp only [List.length_append]; omega)]
  have hall : ∀ u ∈ s :: ss, plain_word u := by
    intro u hu
    rcases List.mem_cons.1 hu with h | h
    · rw [h]; exact hs
    · exact hss u h
  have e1 : (s :: ss).map trim_token = s :: ss := by
    have : ∀ l : List CStr, (∀ u ∈ l, plain_word u) → l.map trim_token = l := by
      intro l hl
      induction l with
      | nil => rfl
      | cons a l ih =>
        rw [List.map_cons, trim_token_plain a (hl a (List.mem_cons_self _ _)),
          ih (fun u hu => hl u (List.mem_cons_of_mem _ hu))]
    exact this _ hall
  rw [e1]
  apply List.filter_eq_self.2
  intro u hu
  simpa using (hall u hu).1

theorem source_tokens_nil : source_tokens [] = [] := by decide

/-- The sources `s1 .. sn` as read from the text `" s1 ... sn)"` (or `")"` after the
last word read with `%s` when there are none). -/
theorem add_executable_spaced (reg : Registry) (N : CStr) (srcs : List CStr)
    (hN : plain_word N) (hNl : N.length < 127) (hs : ∀ u ∈ srcs, plain_word u)
    (hlen : (spaced srcs).length ≤ 65535) (hroom : reg.length < MAX_TARGETS) :
    cmd_add_executable reg (N ++ spaced srcs ++ [')']) =
      some (reg ++ [{ name := N, type := ['E', 'X', 'E'], srcs := srcs,
                      defs := [], incs := [], libs := [] }]) := by
  cases srcs with
  | nil =>
    simp only [spaced, List.append_nil]
    unfold cmd_add_executable
    rw [scan_s_plain_close 127 N hN hNl]
    simp only [List.dropWhile_nil, if_pos hroom, trim_token_plain_close N hN]
    have : scan_set 65535 to_line_end [] = none := by decide
    simp only [this, source_tokens_nil]
  | cons s ss =>
    have hsp := hs s (List.mem_cons_self _ _)
    have hss : ∀ u ∈ ss, plain_word u := fun u hu => hs u (List.mem_cons_of_mem _ hu)
    have e : N ++ spaced (s :: ss) ++ [')'] = N ++ (' ' :: (s ++ spaced ss ++ [')'])) := by
      simp [spaced]
    unfold cmd_add_executable
    rw [e, scan_s_word 127 N _ hN.1 (plain_no_space N hN) (by omega)
      (by intro c hc; simp at hc; subst hc; decide)]
    simp only [scan_rest_spaced s ss hsp hss (by simp [spaced] at hlen; simp; omega),
      if_pos hroom, trim_token_plain N hN, source_tokens_spaced s ss hsp hss]

/-- C11: for every registry and every define token `d` (a plain word shorter than
255 characters), `add_definitions(d)` appends `d` to the `defs` of every target in
the registry, changes nothing else and adds no target; a target that
`add_executable` or `add_library` declares afterwards in a registry `r2` starts
with empty `defs`: with the targets of `reg` declared before and `T2` after,
only the targets of `reg` carry `d`. The last part is the same command as the
loop body of `main` processes it when commands are active. -/
theorem C11_add_definitions (reg : Registry) (d : CStr) (hd : plain_word d)
    (hdl : d.length < 255) :
    cmd_add_definitions reg (d ++ [')']) =
      some (reg.map (fun t => { t with defs := t.defs ++ [d] })) ∧
    (∀ (r2 r3 : Registry) (args : CStr),
      (cmd_add_executable r2 args = some r3 ∨ cmd_add_library r2 args = some r3) →
      ∃ T2, r3 = r2 ++ [T2] ∧ T2.defs = []) ∧
    (∀ (N : CStr) (srcs : List CStr), plain_word N → N.length < 127 →
      (∀ u ∈ srcs, plain_word u) → (spaced srcs).length ≤ 65535 → reg.length < MAX_TARGETS →
      (cmd_add_definitions reg (d ++ [')'])).bind
          (fun r => cmd_add_executable r (N ++ spaced srcs ++ [')'])) =
        some (reg.map (fun t => { t with defs := t.defs ++ [d] }) ++
          [{ name := N, type := ['E', 'X', 'E'], srcs := srcs,
             defs := [], incs := [], libs := [] }])) ∧
    (∀ (env : Env) (fuel : Nat) (vars : VarTable) (gi : List CStr) (cond : CondState),
      cond_active cond = true →
      main_step env fuel ⟨vars, reg, gi, cond⟩ ("add_definitions(".toList ++ d ++ [')']) =
        some ⟨vars, reg.map (fun t => { t with defs := t.defs ++ [d] }), gi, cond⟩) := by
  have h1 : cmd_add_definitions reg (d ++ [')']) =
      some (reg.map (fun t => { t with defs := t.defs ++ [d] })) := by
    unfold cmd_add_definitions
    rw [scan_s_plain_close 255 d hd hdl]
    simp only [trim_token_plain_close d hd]
  refine ⟨h1, ?_, ?_, ?_⟩
  · intro r2 r3 args h
    rcases h with h | h
    · unfold cmd_add_executable at h
      cases h1 : scan_s 127 args with
      | none => rw [h1] at h; cases h
      | some p =>
        rw [h1] at h
        by_cases hr : r2.length < MAX_TARGETS
        · simp only [if_pos hr, Option.some.injEq] at h
          exact ⟨_, h.symm, rfl⟩
        · simp only [if_neg hr] at h
          cases h
    · unfold cmd_add_library at h
      cases h1 : scan_s 127 args with
      | none => rw [h1] at h; cases h
      | some p =>
        rw [h1] at h
        cases h2 : scan_s 63 p.2 with
        | none => simp only [h2] at h; cases h
        | some q =>
          simp only [h2] at h
          by_cases hr : r2.length < MAX_TARGETS
          · simp only [if_pos hr, Option.some.injEq] at h
            exact ⟨_, h.symm, rfl⟩
          · simp only [if_neg hr] at h
            cases h
  · intro N srcs hN hNl hs hlen hroom
    rw [h1, Option.some_bind]
    exact add_executable_spaced _ N srcs hN hNl hs hlen (by simpa using hroom)
  · intro env fuel vars gi cond hact
    simp [main_step, is_cond_cmd, main_dispatch, starts_with, hact, h1]

/-- C11 at a concrete registry: `add_definitions(-DX)` on the registry with `core`
and `app`, followed by `add_executable(t2 b.c)`. -/
theorem C11_add_definitions_witness :
    cmd_add_definitions link_example ("-DX".toList ++ [')']) =
      some (link_example.map (fun t => { t with defs := t.defs ++ ["-DX".toList] })) ∧
    (cmd_add_definitions link_example ("-DX".toList ++ [')'])).bind
        (fun r => cmd_add_executable r ("t2".toList ++ spaced ["b.c".toList] ++ [')'])) =
      some (link_example.map (fun t => { t with defs := t.defs ++ ["-DX".toList] }) ++
        [{ name := "t2".toList, type := ['E', 'X', 'E'], srcs := ["b.c".toList],
           defs := [], incs := [], libs := [] }]) :=
  ⟨(C11_add_definitions link_example "-DX".toList
      (plain_word_of_forall _ (by decide) (by decide)) (by decide)).1,
    (C11_add_definitions link_example "-DX".toList
      (plain_word_of_forall _ (by decide) (by decide)) (by decide)).2.2.1
      "t2".toList ["b.c".toList] (plain_word_of_forall _ (by decide) (by decide)) (by decide)
      (by
        intro u hu
        simp only [List.mem_singleton] at hu
        subst hu
        exact plain_word_of_forall _ (by decide) (by decide))
      (by decide) (by decide)⟩

set_option maxRecDepth 100000 in
/-- C12, the code at a declaration that spans three lines,
`add_executable(app` / `    main.c` / `    util.c)`: the reader returns the three
lines as one command, and `%65535[^\n\r)]` in `cmd_add_executable` stops at the
first newline after `main.c`, so that `util.c` is not among the sources. With
a tab between two sources the loop over `strtok_r(rest, " ", ..)` keeps them
as one source. The `Makefile` that `main` writes for the three lines has no
`util.c`. -/
theorem C12_add_executable_multiline :
    read_cmake_cmd (MAX_LINE * 16)
        ["add_executable(app\n".toList, "    main.c\n".toList, "    util.c)\n".toList] =
      some (some "add_executable(app\n    main.c\n    util.c)".toList, []) ∧
    cmd_add_executable [] "app\n    main.c\n    util.c)".toList =
      some [{ name := "app".toList, type := ['E', 'X', 'E'], srcs := ["main.c".toList],
              defs := [], incs := [], libs := [] }] ∧
    cmd_add_executable [] "app main.c\tutil.c)".toList =
      some [{ name := "app".toList, type := ['E', 'X', 'E'], srcs := ["main.c\tutil.c".toList],
              defs := [], incs := [], libs := [] }] ∧
    main ⟨false, none,
        fun n => if n = "CMakeLists.txt".toList then
          some ["add_executable(app\n".toList, "    main.c\n".toList, "    util.c)\n".toList]
        else none,
        fun _ _ => []⟩ 8 =
      some ⟨0, some ("all: app\n\napp: main.c \n\tgcc  -L. -Wl,-rpath,. main.c -o app\n\n".toList
        ++ "clean:\n\trm -f *.o *.a *.so app \n".toList)⟩ := by
  decide

/-- C13 is false as stated, at `add_library(core a.c b.c)`: the second word is always
read as the kind token, so `a.c` is not a source; and at
`add_library(x static a.c)`: the kind token is compared without regard to
letter case, so `static` gives a static library. -/
theorem C13_add_library_counterexample :
    cmd_add_library [] "core a.c b.c)".toList =
      some [{ name := "core".toList, type := ['E', 'X', 'E'], srcs := ["b.c".toList],
              defs := [], incs := [], libs := [] }] ∧
    (cmd_add_library [] "core a.c b.c)".toList).map (fun r => r.map Target.srcs) ≠
      some [["a.c".toList, "b.c".toList]] ∧
    cmd_add_library [] "x static a.c)".toList =
      some [{ name := "x".toList, type := "STATIC".toList, srcs := ["a.c".toList],
              defs := [], incs := [], libs := [] }] := by
  decide

/-- C13 as amended: for every name `N`, every second word `K` and source tokens
`s1 .. sn` (plain words, separated by single blanks), `add_library(N K s1 ... sn)`
appends one target named `N` with sources `[s1, .., sn]`, whose kind is `STATIC`
when `K` is `STATIC` in any letter case, `SHARED` when `K` is `SHARED` in any
letter case, and `EXE` otherwise. -/
theorem C13_add_library (reg : Registry) (N K : CStr) (srcs : List CStr)
    (hN : plain_word N) (hNl : N.length < 127) (hK : plain_word K) (hKl : K.length < 63)
    (hs : ∀ u ∈ srcs, plain_word u) (hlen : (spaced srcs).length ≤ 65535)
    (hroom : reg.length < MAX_TARGETS) :
    cmd_add_library reg (N ++ ' ' :: (K ++ spaced srcs ++ [')'])) =
      some (reg ++ [{ name := N,
                      type := if strcasecmp_eq K "STATIC".toList then "STATIC".toList
                              else if strcasecmp_eq K "SHARED".toList then "SHARED".toList
                              else ['E', 'X', 'E'],
                      srcs := srcs, defs := [], incs := [], libs := [] }]) := by
  unfold cmd_add_library
  rw [scan_s_word 127 N _ hN.1 (plain_no_space N hN) (by omega)
    (by intro c hc; simp at hc; subst hc; decide)]
  cases srcs with
  | nil =>
    simp only [spaced, List.append_nil]
    have h := scan_s_plain_close 63 K hK hKl
    have h2 : scan_s 63 (' ' :: (K ++ [')'])) = some (K ++ [')'], []) := by
      unfold scan_s at h ⊢
      rw [List.dropWhile_cons_of_pos (by decide)]
      exact h
    simp only [h2, List.dropWhile_nil, if_pos hroom, trim_token_plain_close K hK,
      trim_token_plain N hN]
    have : scan_set 65535 to_line_end [] = none := by decide
    simp only [this, source_tokens_nil]
    rfl
  | cons s ss =>
    have hsp := hs s (List.mem_cons_self _ _)
    have hss : ∀ u ∈ ss, plain_word u := fun u hu => hs u (List.mem_cons_of_mem _ hu)
    have e : K ++ spaced (s :: ss) ++ [')'] = K ++ (' ' :: (s ++ spaced ss ++ [')'])) := by
      simp [spaced]
    have hk := scan_s_blank_word 63 K (' ' :: (s ++ spaced ss ++ [')'])) hK.1
      (plain_no_space K hK) (by omega) (by intro c hc; simp at hc; subst hc; decide)
    rw [e]
    simp only [hk, scan_rest_spaced s ss hsp hss (by simp [spaced] at hlen; simp; omega),
      if_pos hroom, trim_token_plain N hN, trim_token_plain K hK,
      source_tokens_spaced s ss hsp hss]
    rfl

/-- C13 as amended, at `add_library(core STATIC core.c)`. -/
theorem C13_add_library_witness :
    cmd_add_library [] ("core".toList ++ ' ' :: ("STATIC".toList ++ spaced ["core.c".toList]
        ++ [')'])) =
      some ([] ++ [{ name := "core".toList,
                     type := if strcasecmp_eq "STATIC".toList "STATIC".toList then "STATIC".toList
                             else if strcasecmp_eq "STATIC".toList "SHARED".toList then
                               "SHARED".toList
                             else ['E', 'X', 'E'],
                     srcs := ["core.c".toList], defs := [], incs := [], libs := [] }]) :=
  C13_add_library [] "core".toList "STATIC".toList ["core.c".toList]
    (plain_word_of_forall _ (by decide) (by decide)) (by decide)
    (plain_word_of_forall _ (by decide) (by decide)) (by decide)
    (by
      intro u hu
      simp only [List.mem_singleton] at hu
      subst hu
      exact plain_word_of_forall _ (by decide) (by decide))
    (by decide) (by decide)

/-- C18, the code at `add_compile_options(-Wall)` with `CMAKE_C_FLAGS = ""`: the
argument text is `-Wall)`, and the closing parenthesis is never cut off, so the
last token is stored as `-Wall)`; with `-Wall /W4 -O2` the token `/W4` is
dropped and the last token is stored as `-O2)`. -/
theorem C18_add_compile_options_keeps_paren :
    cmd_add_compile_options [⟨CMAKE_C_FLAGS, []⟩] "-Wall)".toList =
      some [⟨CMAKE_C_FLAGS, " -Wall) ".toList⟩] ∧
    strtok_parts [' '] 9 " -Wall) ".toList = ["-Wall)".toList] ∧
    cmd_add_compile_options [⟨CMAKE_C_FLAGS, []⟩] "-Wall /W4 -O2)".toList =
      some [⟨CMAKE_C_FLAGS, " -Wall -O2) ".toList⟩] ∧
    (main_dispatch ⟨false, none, fun _ => none, fun _ _ => []⟩ 8
        ⟨[⟨CMAKE_C_FLAGS, []⟩], [], [], cond_init⟩ "add_compile_options(-Wall)".toList).map
        State.vars =
      some [⟨CMAKE_C_FLAGS, " -Wall) ".toList⟩] := by
  decide

/-! ## Makefile emission at concrete scripts -/

set_option maxRecDepth 100000 in
/-- C16, the code at the script `add_library(core STATIC core.c)`,
`add_executable(app app.c)`, `target_link_libraries(app core)` (Linux build): the
`all` rule lists `libcore.a` and `app`, the recipe of `app` has `-lcore`, but the
prerequisites of `app` are `app.c libcore.so`: the loop over `t->libs` prints
every link name as `lib<name><SHARED_NAME>`, also for a static library, whose
artifact `libcore.a` is not among the prerequisites. -/
theorem C16_static_link_prerequisite :
    main ⟨false, none,
        fun n => if n = "CMakeLists.txt".toList then
          some ["add_library(core STATIC core.c)\n".toList, "add_executable(app app.c)\n".toList,
            "target_link_libraries(app core)\n".toList]
        else none,
        fun _ _ => []⟩ 8 =
      some ⟨0, some ("all: libcore.a app\n\n".toList ++
        "libcore.a: core.c \n\tgcc  core.c\n\tar rcs libcore.a *.o\n\n".toList ++
        "app: app.c libcore.so \n\tgcc  -L. -Wl,-rpath,. app.c -lcore -o app\n\n".toList ++
        "clean:\n\trm -f *.o *.a *.so libcore.a app \n".toList)⟩ := by
  decide

set_option maxRecDepth 100000 in
/-- C17 is false as stated, at the script `set(CMAKE_C_FLAGS -std=c11)`,
`add_executable(app a.c)`: at emission time `CMAKE_C_STANDARD` is `99`, and the
recipe of `app` contains `-std=c11`, which comes from the compiler flags. -/
theorem C17_std_flag_counterexample :
    (script_loop (MAX_LINE * 16) (main_step ⟨false, none, fun _ => none, fun _ _ => []⟩ 8) 3
        ["set(CMAKE_C_FLAGS -std=c11)\n".toList, "add_executable(app a.c)\n".toList]
        ⟨[⟨CMAKE_C_FLAGS, []⟩, ⟨CMAKE_C_STANDARD, ['9', '9']⟩,
          ⟨CMAKE_C_COMPILER, ['g', 'c', 'c']⟩], [], [], cond_init⟩).map
        (fun st => (getvar st.vars CMAKE_C_STANDARD,
          st.targets.map (emit_target ⟨false, none, fun _ => none, fun _ _ => []⟩ st.vars
            st.global_incs))) =
      some (['9', '9'],
        ["app: a.c \n\tgcc -std=c11  -L. -Wl,-rpath,. a.c -o app\n\n".toList]) ∧
    strstr "app: a.c \n\tgcc -std=c11  -L. -Wl,-rpath,. a.c -o app\n\n".toList "-std=c11".toList
      = some 15 := by
  decide

theorem emit_std_eq (vars : VarTable) (h : getvar vars CMAKE_C_STANDARD = ['1', '1']) :
    emit_std vars = " -std=c11".toList := by
  simp [emit_std, h]

theorem emit_std_ne (vars : VarTable) (h : getvar vars CMAKE_C_STANDARD ≠ ['1', '1']) :
    emit_std vars = [] := by
  simp [emit_std, h]

/-- C17 as amended: for every target with a name and one of the three kinds, the text
emitted for it with `CMAKE_C_STANDARD = "11"` has ` -std=c11` in its recipe
(after the rule line and its `\n\t`), and with any other value the text is the
same without that one flag (the compiler and the compiler flags being equal),
so that a recipe then contains `-std=c11` only if another part of it does.
`set(CMAKE_C_STANDARD 11)` sets the value to `11`. -/
theorem C17_std_flag (env : Env) (gi : List CStr) (t : Target) (vars1 vars2 : VarTable)
    (hname : t.name ≠ [])
    (htype : t.type = ['E', 'X', 'E'] ∨ t.type = "STATIC".toList ∨ t.type = "SHARED".toList)
    (hcc : getvar vars1 CMAKE_C_COMPILER = getvar vars2 CMAKE_C_COMPILER)
    (hfl : getvar vars1 CMAKE_C_FLAGS = getvar vars2 CMAKE_C_FLAGS)
    (h11 : getvar vars1 CMAKE_C_STANDARD = ['1', '1'])
    (hne : getvar vars2 CMAKE_C_STANDARD ≠ ['1', '1']) :
    (∃ rule a b : CStr,
      emit_target env vars1 gi t = rule ++ ['\n', '\t'] ++ a ++ " -std=c11".toList ++ b ∧
      emit_target env vars2 gi t = rule ++ ['\n', '\t'] ++ a ++ b) ∧
    (∀ vars vs : VarTable, cmd_set vars "CMAKE_C_STANDARD 11)".toList = some vs →
      getvar vs CMAKE_C_STANDARD = ['1', '1']) := by
  constructor
  · rcases htype with h | h | h
    · refine ⟨t.name ++ ": ".toList ++ emit_each [] [' '] t.srcs ++
          emit_each "lib".toList (SHARED_NAME env ++ [' ']) t.libs,
        getvar vars1 CMAKE_C_COMPILER ++ [' '] ++ getvar vars1 CMAKE_C_FLAGS ++
          " -L. ".toList ++ EXE_RULES env,
        emit_each [' '] [] t.defs ++ emit_each " -I".toList [] t.incs ++
          emit_each " -I".toList [] gi ++ emit_each [' '] [] t.srcs ++
          emit_each " -l".toList [] t.libs ++ " -o ".toList ++ t.name ++ ['\n', '\n'], ?_, ?_⟩
      · simp only [emit_target, if_neg hname, h, if_true, emit_std_eq vars1 h11,
          List.append_assoc]
      · simp only [emit_target, if_neg hname, h, if_true, emit_std_ne vars2 hne, hcc, hfl,
          List.append_assoc, List.nil_append]
    · have hx : ¬ ("STATIC".toList = ['E', 'X', 'E']) := by decide
      refine ⟨"lib".toList ++ t.name ++ ".a: ".toList ++ emit_each [] [' '] t.srcs,
        getvar vars1 CMAKE_C_COMPILER ++ [' '] ++ getvar vars1 CMAKE_C_FLAGS,
        emit_each [' '] [] t.defs ++ emit_each " -I".toList [] t.incs ++
          emit_each " -I".toList [] gi ++ emit_each [' '] [] t.srcs ++
          "\n\tar rcs lib".toList ++ t.name ++ ".a *.o\n\n".toList, ?_, ?_⟩
      · simp only [emit_target, if_neg hname, h, if_neg hx, emit_std_eq vars1 h11,
          List.append_assoc]
        rfl
      · simp only [emit_target, if_neg hname, h, if_neg hx, emit_std_ne vars2 hne, hcc, hfl,
          List.append_assoc, List.nil_append]
        rfl
    · have hx : ¬ ("SHARED".toList = ['E', 'X', 'E']) := by decide
      have hy : ¬ ("SHARED".toList = ['S', 'T', 'A', 'T', 'I', 'C']) := by decide
      refine ⟨"lib".toList ++ t.name ++ SHARED_NAME env ++ ": ".toList ++
          emit_each [] [' '] t.srcs,
        getvar vars1 CMAKE_C_COMPILER ++ " -shared -fPIC ".toList ++
          getvar vars1 CMAKE_C_FLAGS ++ " -L. ".toList ++ LINK_RULES env,
        emit_each [' '] [] t.defs ++ emit_each " -I".toList [] t.incs ++
          emit_each " -I".toList [] gi ++ emit_each [' '] [] t.srcs ++
          emit_each " -l".toList [] t.libs ++ " -o lib".toList ++ t.name ++ SHARED_NAME env ++
          ['\n', '\n'], ?_, ?_⟩
      · simp only [emit_target, if_neg hname, h, if_neg hx, if_neg hy, emit_std_eq vars1 h11,
          List.append_assoc]
        rfl
      · simp only [emit_target, if_neg hname, h, if_neg hx, if_neg hy, emit_std_ne vars2 hne,
          hcc, hfl, List.append_assoc, List.nil_append]
        rfl
  · intro vars vs h
    have hs : scan_s 127 "CMAKE_C_STANDARD 11)".toList =
        some (CMAKE_C_STANDARD, " 11)".toList) := by decide
    have hv : scan_set 767 to_line_end (" 11)".toList.dropWhile c_isspace) =
        some (['1', '1'], [')']) := by decide
    have hk : trim_token CMAKE_C_STANDARD = CMAKE_C_STANDARD := by decide
    have hk2 : ¬ (CMAKE_C_STANDARD = CMAKE_C_FLAGS) := by decide
    have hv2 : trim_token ['1', '1'] = ['1', '1'] := by decide
    unfold cmd_set at h
    simp only [hs, hv, hk, if_neg hk2, hv2] at h
    rw [getvar_setvar vars vs _ _ CMAKE_C_STANDARD h]
    simp

/-- C17 as amended, at the target `app` with sources `a.c`, for the values `11` and
`99` (the default). -/
theorem C17_std_flag_witness :
    (∃ rule a b : CStr,
      emit_target ⟨false, none, fun _ => none, fun _ _ => []⟩
          [⟨CMAKE_C_STANDARD, ['1', '1']⟩, ⟨CMAKE_C_COMPILER, ['g', 'c', 'c']⟩] []
          ⟨"app".toList, ['E', 'X', 'E'], ["a.c".toList], [], [], []⟩ =
        rule ++ ['\n', '\t'] ++ a ++ " -std=c11".toList ++ b ∧
      emit_target ⟨false, none, fun _ => none, fun _ _ => []⟩
          [⟨CMAKE_C_STANDARD, ['9', '9']⟩, ⟨CMAKE_C_COMPILER, ['g', 'c', 'c']⟩] []
          ⟨"app".toList, ['E', 'X', 'E'], ["a.c".toList], [], [], []⟩ =
        rule ++ ['\n', '\t'] ++ a ++ b) ∧
    (∀ vars vs : VarTable, cmd_set vars "CMAKE_C_STANDARD 11)".toList = some vs →
      getvar vs CMAKE_C_STANDARD = ['1', '1']) :=
  C17_std_flag ⟨false, none, fun _ => none, fun _ _ => []⟩ []
    ⟨"app".toList, ['E', 'X', 'E'], ["a.c".toList], [], [], []⟩
    [⟨CMAKE_C_STANDARD, ['1', '1']⟩, ⟨CMAKE_C_COMPILER, ['g', 'c', 'c']⟩]
    [⟨CMAKE_C_STANDARD, ['9', '9']⟩, ⟨CMAKE_C_COMPILER, ['g', 'c', 'c']⟩]
    (by decide) (Or.inl rfl) (by decide) (by decide) (by decide) (by decide)

/-! ## `include`: the dispatch of `cmd_include` against the loop body of `main` -/

theorem strrchr_append_of_not_mem (c : Char) (k post : CStr) (h : c ∉ post) :
    strrchr (k ++ c :: post) c = some k.length := by
  have hp : strrchr post c = none := by
    induction post with
    | nil => rfl
    | cons x xs ih =>
      simp only [List.mem_cons, not_or] at h
      have hx : ¬ x = c := fun e => h.1 e.symm
      simp [strrchr, ih h.2, hx]
  induction k with
  | nil => simp [strrchr, hp]
  | cons x xs ih => simp [strrchr, ih]

theorem stripped_append (a b : List CStr) : stripped (a ++ b) = stripped a ++ stripped b := by
  simp [stripped]

theorem stripped_singleton (l : CStr) : stripped [l] = strip_comment l := by
  simp [stripped]

theorem strip_comment_length_le (l : CStr) : (strip_comment l).length ≤ l.length :=
  (List.takeWhile_sublist _).length_le

theorem stripped_length_le (ls : List CStr) : (stripped ls).length ≤ ls.flatten.length := by
  induction ls with
  | nil => simp [stripped]
  | cons l ls ih =>
    have e : stripped (l :: ls) = strip_comment l ++ stripped ls := by simp [stripped]
    have := strip_comment_length_le l
    rw [e]
    simp only [List.flatten_cons, List.length_append]
    omega

theorem paren_depth_append (a b : CStr) : paren_depth (a ++ b) = paren_depth a + paren_depth b := by
  simp only [paren_depth, List.count_append, Nat.cast_add]
  ring

theorem contains_append_left (a b : CStr) (c : Char) (h : a.contains c = true) :
    (a ++ b).contains c = true := by
  simp only [List.contains_iff_exists_mem_beq, List.mem_append] at h ⊢
  obtain ⟨x, hx, hb⟩ := h
  exact ⟨x, Or.inl hx, hb⟩

/-- The reading loop, started after the lines `pre`: it stops after `k` more lines,
the first count at which the text is closed, or at the end of the stream. -/
theorem read_lines_spec (buflen : Nat) :
    ∀ (rest pre : List CStr), (pre ++ rest).flatten.length < buflen →
      ∃ k, k ≤ rest.length ∧
        read_lines buflen rest (stripped pre) (paren_depth (stripped pre))
            ((stripped pre).contains '(') =
          some (stripped (pre ++ rest.take k), rest.drop k) ∧
        (∀ j, 0 < j → j < k → closed_after (pre ++ rest.take j) = false) ∧
        (k = rest.length ∨ (0 < k ∧ closed_after (pre ++ rest.take k) = true)) := by
  intro rest
  induction rest with
  | nil =>
    intro pre _
    exact ⟨0, le_refl _, by simp [read_lines], fun j h1 h2 => by omega, Or.inl rfl⟩
  | cons l rest ih =>
    intro pre hfit
    have hlen : l.length + (stripped pre).length < buflen := by
      have h1 := stripped_length_le pre
      simp only [List.flatten_append, List.flatten_cons, List.length_append] at hfit
      omega
    have hacc : stripped pre ++ List.takeWhile (fun c => c != '#') l = stripped (pre ++ [l]) := by
      rw [stripped_append, stripped_singleton]; rfl
    have hdepth : paren_depth (stripped pre) +
        ((List.takeWhile (fun c => c != '#') l).count '(' : Int) -
        ((List.takeWhile (fun c => c != '#') l).count ')' : Int) =
        paren_depth (stripped (pre ++ [l])) := by
      rw [stripped_append, stripped_singleton, paren_depth_append]
      simp only [paren_depth, strip_comment]
      ring
    have hfound : ((stripped pre).contains '(' || (stripped (pre ++ [l])).contains '(') =
        (stripped (pre ++ [l])).contains '(' := by
      cases h : (stripped pre).contains '(' with
      | false => simp
      | true =>
        rw [stripped_append, contains_append_left _ _ _ h]
        rfl
    rw [read_lines, if_pos hlen]
    simp only [hacc, hdepth, hfound]
    by_cases hc : (stripped (pre ++ [l])).contains '(' = true ∧
        paren_depth (stripped (pre ++ [l])) ≤ 0
    · rw [if_pos hc]
      refine ⟨1, by simp, by simp, fun j h1 h2 => by omega, Or.inr ⟨by omega, ?_⟩⟩
      simp only [List.take_succ_cons, List.take_zero, closed_after, hc.1, Bool.true_and,
        decide_eq_true_eq]
      exact hc.2
    · rw [if_neg hc]
      obtain ⟨k, hk, hread, hbefore, hstop⟩ := ih (pre ++ [l]) (by simpa using hfit)
      refine ⟨k + 1, by simp; omega, ?_, ?_, ?_⟩
      · rw [hread]
        simp
      · intro j h1 h2
        cases j with
        | zero => omega
        | succ i =>
          cases i with
          | zero =>
            simp only [zero_add, List.take_succ_cons, List.take_zero, closed_after,
              Bool.and_eq_false_iff, decide_eq_false_iff_not]
            by_cases hx : (stripped (pre ++ [l])).contains '(' = true
            · right
              intro hd
              exact hc ⟨hx, hd⟩
            · left
              simpa using hx
          | succ m =>
            have := hbefore (m + 1) (by omega) (by omega)
            simpa using this
      · rcases hstop with h | ⟨h1, h2⟩
        · left; simp [h]
        · right
          exact ⟨by omega, by simpa using h2⟩

theorem dropWhile_append_singleton (p : Char → Bool) (c : Char) (hc : p c = false) :
    ∀ a : CStr, (a ++ [c]).dropWhile p = a.dropWhile p ++ [c] := by
  intro a
  induction a with
  | nil => simp [List.dropWhile, hc]
  | cons x xs ih =>
    by_cases hx : p x = true
    · rw [List.cons_append, List.dropWhile_cons_of_pos hx, List.dropWhile_cons_of_pos hx, ih]
    · rw [List.cons_append, List.dropWhile_cons_of_neg hx, List.dropWhile_cons_of_neg hx]
      rfl

theorem cut_trailing_blanks_eq (s : CStr)
    (h : ∀ c, s.head? = some c →
      (fun c => decide (c = ' ') || decide (c = '\t') || decide (c = '\n')) c = false) :
    cut_trailing_blanks s =
      (s.reverse.dropWhile (fun c => decide (c = ' ') || decide (c = '\t') || decide (c = '\n'))).reverse := by
  cases s with
  | nil => rfl
  | cons c rest =>
    rw [cut_trailing_blanks, List.reverse_cons,
      dropWhile_append_singleton _ c (h c rfl), List.reverse_append]
    rfl

theorem head_dropWhile (p : Char → Bool) :
    ∀ (l : CStr) (c : Char), (l.dropWhile p).head? = some c → p c = false := by
  intro l
  induction l with
  | nil => intro c h; simp at h
  | cons x xs ih =>
    intro c h
    by_cases hx : p x = true
    · rw [List.dropWhile_cons_of_pos hx] at h
      exact ih c h
    · rw [List.dropWhile_cons_of_neg hx] at h
      simp only [List.head?_cons, Option.some.injEq] at h
      subst h
      simpa using hx

/-- C14: for every stream given as a list of lines that fits the buffer,
`read_cmake_cmd` takes `k` lines from the stream, where no count of lines
`0 < j < k` leaves the text closed (a `(` seen and the depth zero or below,
both counted on the lines cut at their first `#`) and either the `k` lines
leave it closed or `k` is the whole stream; it returns the comment-stripped
text of these lines without leading and trailing blanks, tabs and newlines,
and `NULL` exactly when that text is empty, also when the parentheses never
close. -/
theorem C14_read_cmake_cmd (buflen : Nat) (lines : List CStr)
    (hfit : lines.flatten.length < buflen) :
    ∃ k, k ≤ lines.length ∧
      read_cmake_cmd buflen lines =
        some (if trim_blanks (stripped (lines.take k)) = [] then none
              else some (trim_blanks (stripped (lines.take k))), lines.drop k) ∧
      (∀ j, 0 < j → j < k → closed_after (lines.take j) = false) ∧
      (k = lines.length ∨ (0 < k ∧ closed_after (lines.take k) = true)) := by
  obtain ⟨k, hk, hread, hbefore, hstop⟩ := read_lines_spec buflen lines [] (by simpa using hfit)
  refine ⟨k, hk, ?_, by simpa using hbefore, by simpa using hstop⟩
  have h0 : read_lines buflen lines [] 0 false =
      some (stripped (lines.take k), lines.drop k) := by
    have e1 : stripped [] = [] := rfl
    have e2 : paren_depth [] = 0 := rfl
    have e3 : ([] : CStr).contains '(' = false := rfl
    rw [e1, e2, e3] at hread
    simpa using hread
  unfold read_cmake_cmd
  rw [h0]
  simp only
  by_cases hs : (stripped (lines.take k)).dropWhile
      (fun c => decide (c = ' ') || decide (c = '\t') || decide (c = '\n')) = []
  · have ht : trim_blanks (stripped (lines.take k)) = [] := by
      simp [trim_blanks, hs]
    rw [if_pos hs, if_pos ht]
  · have ht : trim_blanks (stripped (lines.take k)) =
        cut_trailing_blanks ((stripped (lines.take k)).dropWhile
          (fun c => decide (c = ' ') || decide (c = '\t') || decide (c = '\n'))) := by
      rw [cut_trailing_blanks_eq _ (head_dropWhile _ _)]
      rfl
    have hne : trim_blanks (stripped (lines.take k)) ≠ [] := by
      rw [ht]
      intro e
      apply hs
      cases hd : (stripped (lines.take k)).dropWhile
          (fun c => decide (c = ' ') || decide (c = '\t') || decide (c = '\n')) with
      | nil => rfl
      | cons x xs => rw [hd] at e; simp [cut_trailing_blanks] at e
    rw [if_neg hs, if_neg hne, ht]

/-- C14 at a stream of four lines: a comment line, a command that spans two lines
with a comment after its first part, and a further command that stays in the
stream. -/
theorem C14_read_cmake_cmd_witness :
    ["# c\n".toList, "set(X # foo\n".toList, " 1)  \n".toList, "next()\n".toList].flatten.length
      < 64 ∧
    ∃ k, k ≤ ["# c\n".toList, "set(X # foo\n".toList, " 1)  \n".toList, "next()\n".toList].length ∧
      read_cmake_cmd 64
          ["# c\n".toList, "set(X # foo\n".toList, " 1)  \n".toList, "next()\n".toList] =
        some (if trim_blanks (stripped (["# c\n".toList, "set(X # foo\n".toList,
                " 1)  \n".toList, "next()\n".toList].take k)) = [] then none
              else some (trim_blanks (stripped (["# c\n".toList, "set(X # foo\n".toList,
                " 1)  \n".toList, "next()\n".toList].take k))),
          ["# c\n".toList, "set(X # foo\n".toList, " 1)  \n".toList, "next()\n".toList].drop k) ∧
      (∀ j, 0 < j → j < k → closed_after (["# c\n".toList, "set(X # foo\n".toList,
        " 1)  \n".toList, "next()\n".toList].take j) = false) ∧
      (k = ["# c\n".toList, "set(X # foo\n".toList, " 1)  \n".toList, "next()\n".toList].length ∨
        (0 < k ∧ closed_after (["# c\n".toList, "set(X # foo\n".toList, " 1)  \n".toList,
          "next()\n".toList].take k) = true)) :=
  ⟨by decide, C14_read_cmake_cmd 64
    ["# c\n".toList, "set(X # foo\n".toList, " 1)  \n".toList, "next()\n".toList] (by decide)⟩

/-! ## One declaration `add_executable(N s1 ... sn)` from script to `Makefile` -/

theorem expand_vars_plain (vars : VarTable) (s : CStr) (B : Nat) (hd : '$' ∉ s)
    (hlen : s.length < B) : expand_vars vars s B = s := by
  have hno : ∀ a b : CStr, s ≠ a ++ '$' :: '{' :: b := by
    intro a b e
    apply hd
    rw [e]
    simp
  have := expand_loop_plain vars B s hno [] [] 0 (by simp) (by simpa using hlen)
  simp only [List.append_nil, Nat.add_zero, List.nil_append] at this
  unfold expand_vars
  rw [this]
  rfl

theorem spaced_not_mem (c : Char) (hc : c ≠ ' ') (ts : List CStr) (h : ∀ t ∈ ts, c ∉ t) :
    c ∉ spaced ts := by
  induction ts with
  | nil => simp [spaced]
  | cons t ts ih =>
    simp only [spaced, List.mem_cons, List.mem_append, not_or]
    exact ⟨hc, h t (List.mem_cons_self _ _), ih (fun u hu => h u (List.mem_cons_of_mem _ hu))⟩

/-- The reader on a stream of one line `add_executable(<body>)`. -/
theorem read_single_declaration (B : Nat) (body : CStr)
    (hhash : '#' ∉ body) (hopen : '(' ∉ body) (hclose : ')' ∉ body)
    (hlen : body.length + 17 < B) :
    read_cmake_cmd B ["add_executable(".toList ++ body ++ [')', '\n']] =
      some (some ("add_executable(".toList ++ body ++ [')']), []) := by
  have hcut : List.takeWhile (fun c => c != '#') ("add_executable(".toList ++ body ++ [')', '\n'])
      = "add_executable(".toList ++ body ++ [')', '\n'] := by
    have := takeWhile_append_stop (fun c => c != '#')
      ("add_executable(".toList ++ body ++ [')', '\n']) []
      (by
        intro c hc
        simp only [List.mem_append, List.mem_cons, List.mem_singleton, List.not_mem_nil,
          or_false] at hc
        rcases hc with (hc | hc) | hc | hc
        · have : c ≠ '#' := by
            intro e; subst e; revert hc; decide
          simpa using this
        · have : c ≠ '#' := fun e => hhash (e ▸ hc)
          simpa using this
        · subst hc; decide
        · subst hc; decide)
      (by simp)
    simpa using this
  have hc1 : List.count '(' ("add_executable(".toList ++ body ++ [')', '\n']) = 1 := by
    simp only [List.count_append, List.count_eq_zero_of_not_mem hopen]
    decide
  have hc2 : List.count ')' ("add_executable(".toList ++ body ++ [')', '\n']) = 1 := by
    simp only [List.count_append, List.count_eq_zero_of_not_mem hclose]
    decide
  have hfound : ("add_executable(".toList ++ body ++ [')', '\n']).contains '(' = true := by
    simp
  have hread : read_lines B ["add_executable(".toList ++ body ++ [')', '\n']] [] 0 false =
      some ("add_executable(".toList ++ body ++ [')', '\n'], []) := by
    rw [read_lines, if_pos (by simp; omega)]
    simp only [hcut, List.nil_append, hc1, hc2, hfound, Bool.false_or]
    simp
  unfold read_cmake_cmd
  rw [hread]
  have e : "add_executable(".toList ++ body ++ [')', '\n'] =
      'a' :: ("dd_executable(".toList ++ body ++ [')', '\n']) := by simp
  have hrev : (("dd_executable(".toList ++ body ++ [')', '\n']).reverse.dropWhile
      (fun x => decide (x = ' ') || decide (x = '\t') || decide (x = '\n'))).reverse =
      "dd_executable(".toList ++ body ++ [')'] := by
    have e2 : ("dd_executable(".toList ++ body ++ [')', '\n']).reverse =
        '\n' :: ')' :: ("dd_executable(".toList ++ body).reverse := by simp
    rw [e2, List.dropWhile_cons_of_pos (by decide), List.dropWhile_cons_of_neg (by decide)]
    simp
  simp only [e, List.dropWhile_cons_of_neg (show ¬ ((fun c => decide (c = ' ') ||
    decide (c = '\t') || decide (c = '\n')) 'a' = true) by decide), cut_trailing_blanks, hrev]
  simp

theorem emit_each_singleton_target (f : Target → CStr) (t : Target) :
    [t].flatMap f = f t := by
  simp [List.flatMap]

/-- The variables that `main` sets before the script is read. -/
theorem main_defaults_vars (env : Env) :
    ∃ v0, setvar_seq [] (main_defaults env) = some v0 ∧ v0.length < MAX_VARS ∧
      getvar v0 CMAKE_C_COMPILER = ['g', 'c', 'c'] ∧ getvar v0 CMAKE_C_FLAGS = [] ∧
      getvar v0 CMAKE_C_STANDARD = ['9', '9'] := by
  cases h : env.apple with
  | false =>
    rw [main_defaults, h]
    exact ⟨_, rfl, by decide, by decide, by decide, by decide⟩
  | true =>
    rw [main_defaults, h]
    exact ⟨_, rfl, by decide, by decide, by decide, by decide⟩

theorem main_cwd_vars (v0 : VarTable) (cwd : CStr) (hroom : v0.length < MAX_VARS)
    (h1 : getvar v0 CMAKE_C_COMPILER = ['g', 'c', 'c']) (h2 : getvar v0 CMAKE_C_FLAGS = [])
    (h3 : getvar v0 CMAKE_C_STANDARD = ['9', '9']) :
    ∃ v, setvar v0 "CMAKE_CURRENT_LIST_DIR".toList cwd = some v ∧
      getvar v CMAKE_C_COMPILER = ['g', 'c', 'c'] ∧ getvar v CMAKE_C_FLAGS = [] ∧
      getvar v CMAKE_C_STANDARD = ['9', '9'] := by
  obtain ⟨v, hv⟩ := setvar_isSome v0 "CMAKE_CURRENT_LIST_DIR".toList cwd (Or.inr hroom)
  refine ⟨v, hv, ?_, ?_, ?_⟩
  · rw [getvar_setvar v0 v _ _ _ hv, if_neg (by decide), h1]
  · rw [getvar_setvar v0 v _ _ _ hv, if_neg (by decide), h2]
  · rw [getvar_setvar v0 v _ _ _ hv, if_neg (by decide), h3]

/-- C15: for every script that consists of the one line
`add_executable(N s1 ... sn)` (plain words without `#` and `$`, separated by
single blanks, within the buffers), `main` exits with `0` and writes this
`Makefile`: the `all` rule lists `N`; the rule for `N` has the prerequisites
`s1 .. sn` and nothing else; its recipe, after a tab, calls the default
compiler `gcc` with the (empty) default flags, `-L.` and the `EXE_RULES` of
the platform, then the sources `s1 .. sn` in order, and ends with `-o N`; the
`clean` rule removes `N`. -/
theorem C15_single_executable (env : Env) (fuel : Nat) (N : CStr) (srcs : List CStr)
    (hN : plain_word N) (hNl : N.length < 127) (hN2 : '#' ∉ N ∧ '$' ∉ N)
    (hs : ∀ u ∈ srcs, plain_word u ∧ '#' ∉ u ∧ '$' ∉ u)
    (hlen : (N ++ spaced srcs).length + 18 < MAX_LINE * 16)
    (hfs : env.fs "CMakeLists.txt".toList =
      some ["add_executable(".toList ++ (N ++ spaced srcs) ++ [')', '\n']]) :
    main env fuel = some
      { exit_code := 0,
        makefile := some (
          "all: ".toList ++ N ++ "\n\n".toList ++
          N ++ ": ".toList ++ emit_each [] [' '] srcs ++
          "\n\tgcc  -L. ".toList ++ EXE_RULES env ++ emit_each [' '] [] srcs ++
          " -o ".toList ++ N ++ "\n\n".toList ++
          "clean:\n\trm -f *.o *.a *".toList ++ SHARED_NAME env ++ [' '] ++ N ++ " \n".toList) } := by
  have hsp : ∀ u ∈ srcs, plain_word u := fun u hu => (hs u hu).1
  have hbody : ∀ c : Char, c ≠ ' ' → c ∉ N → (∀ u ∈ srcs, c ∉ u) → c ∉ N ++ spaced srcs := by
    intro c h1 h2 h3
    simp only [List.mem_append, not_or]
    exact ⟨h2, spaced_not_mem c h1 srcs h3⟩
  have hhash : '#' ∉ N ++ spaced srcs := hbody '#' (by decide) hN2.1 (fun u hu => (hs u hu).2.1)
  have hdollar : '$' ∉ N ++ spaced srcs :=
    hbody '$' (by decide) hN2.2 (fun u hu => (hs u hu).2.2)
  have hopen : '(' ∉ N ++ spaced srcs :=
    hbody '(' (by decide) (fun h => (plain_char N hN _ h).2.2.2.1 rfl)
      (fun u hu h => (plain_char u (hsp u hu) _ h).2.2.2.1 rfl)
  have hclose : ')' ∉ N ++ spaced srcs :=
    hbody ')' (by decide) (fun h => (plain_char N hN _ h).2.2.2.2.1 rfl)
      (fun u hu h => (plain_char u (hsp u hu) _ h).2.2.2.2.1 rfl)
  have hB : MAX_LINE * 16 = 16384 := by decide
  rw [hB] at hlen
  have hread := read_single_declaration (MAX_LINE * 16) (N ++ spaced srcs) hhash hopen hclose
    (by rw [hB]; omega)
  have hexp : ∀ vars : VarTable,
      expand_vars vars ("add_executable(".toList ++ (N ++ spaced srcs) ++ [')']) (MAX_LINE * 16) =
        "add_executable(".toList ++ (N ++ spaced srcs) ++ [')'] := by
    intro vars
    apply expand_vars_plain
    · simp only [List.mem_append, List.mem_singleton, not_or]
      exact ⟨⟨by decide, by simpa using hdollar⟩, by decide⟩
    · rw [hB]
      simp only [List.length_append, List.length_singleton] at hlen ⊢
      have : "add_executable(".toList.length = 15 := by decide
      omega
  have hadd : cmd_add_executable [] (N ++ spaced srcs ++ [')']) =
      some ([] ++ [{ name := N, type := ['E', 'X', 'E'], srcs := srcs,
                     defs := [], incs := [], libs := [] }]) :=
    add_executable_spaced [] N srcs hN hNl hsp
      (by simp only [List.length_append] at hlen; omega) (by decide)
  have hstep : ∀ vars : VarTable,
      main_step env fuel ⟨vars, [], [], cond_init⟩
          ("add_executable(".toList ++ (N ++ spaced srcs) ++ [')']) =
        some ⟨vars, [Target.mk N ['E', 'X', 'E'] srcs [] [] []], [], cond_init⟩ := by
    intro vars
    have hact : cond_active cond_init = true := by decide
    have hadd1 := hadd
    simp only [List.append_assoc, List.nil_append] at hadd1
    simp [main_step, is_cond_cmd, main_dispatch, starts_with, hact, hadd1]
  have hend : read_cmake_cmd (MAX_LINE * 16) [] = some (none, []) := by decide
  have hloop : ∀ vars : VarTable,
      script_loop (MAX_LINE * 16) (main_step env fuel) 2
          ["add_executable(".toList ++ (N ++ spaced srcs) ++ [')', '\n']]
          ⟨vars, [], [], cond_init⟩ =
        some ⟨vars, [Target.mk N ['E', 'X', 'E'] srcs [] [] []], [], cond_init⟩ := by
    intro vars
    rw [script_loop, hread]
    simp only [hexp, hstep]
    rw [script_loop, hend]
  have hemit : ∀ vars : VarTable, getvar vars CMAKE_C_COMPILER = ['g', 'c', 'c'] →
      getvar vars CMAKE_C_FLAGS = [] → getvar vars CMAKE_C_STANDARD = ['9', '9'] →
      emit_makefile env ⟨vars, [Target.mk N ['E', 'X', 'E'] srcs [] [] []], [], cond_init⟩ =
        "all: ".toList ++ N ++ "\n\n".toList ++
          N ++ ": ".toList ++ emit_each [] [' '] srcs ++
          "\n\tgcc  -L. ".toList ++ EXE_RULES env ++ emit_each [' '] [] srcs ++
          " -o ".toList ++ N ++ "\n\n".toList ++
          "clean:\n\trm -f *.o *.a *".toList ++ SHARED_NAME env ++ [' '] ++ N ++ " \n".toList := by
    intro vars h1 h2 h3
    have hstd : emit_std vars = [] := by simp [emit_std, h3]
    simp [emit_makefile, emit_artifact, emit_target, emit_each, hN.1, h1, h2, hstd]
  obtain ⟨v0, hv0, hroom, hg1, hg2, hg3⟩ := main_defaults_vars env
  unfold main
  simp only [hv0, hfs, List.length_singleton, hloop]
  cases hc : env.cwd with
  | none => simp only [hemit v0 hg1 hg2 hg3]
  | some cwd =>
    obtain ⟨v, hv, hv1, hv2, hv3⟩ := main_cwd_vars v0 cwd hroom hg1 hg2 hg3
    simp only [hv, hemit v hv1 hv2 hv3]

/-- C15 at the script of the specification, `add_executable(app main.c util.c)`, on
Linux: the whole `Makefile`. -/
theorem C15_single_executable_witness :
    main ⟨false, none,
        fun n => if n = "CMakeLists.txt".toList then
          some ["add_executable(".toList ++ ("app".toList ++
            spaced ["main.c".toList, "util.c".toList]) ++ [')', '\n']]
        else none,
        fun _ _ => []⟩ 8 = some
      { exit_code := 0,
        makefile := some (
          "all: ".toList ++ "app".toList ++ "\n\n".toList ++
          "app".toList ++ ": ".toList ++ emit_each [] [' '] ["main.c".toList, "util.c".toList] ++
          "\n\tgcc  -L. ".toList ++
          EXE_RULES ⟨false, none,
            fun n => if n = "CMakeLists.txt".toList then
              some ["add_executable(".toList ++ ("app".toList ++
                spaced ["main.c".toList, "util.c".toList]) ++ [')', '\n']]
            else none,
            fun _ _ => []⟩ ++
          emit_each [' '] [] ["main.c".toList, "util.c".toList] ++
          " -o ".toList ++ "app".toList ++ "\n\n".toList ++
          "clean:\n\trm -f *.o *.a *".toList ++
          SHARED_NAME ⟨false, none,
            fun n => if n = "CMakeLists.txt".toList then
              some ["add_executable(".toList ++ ("app".toList ++
                spaced ["main.c".toList, "util.c".toList]) ++ [')', '\n']]
            else none,
            fun _ _ => []⟩ ++ [' '] ++ "app".toList ++ " \n".toList) } :=
  C15_single_executable _ 8 "app".toList ["main.c".toList, "util.c".toList]
    (plain_word_of_forall _ (by decide) (by decide)) (by decide) (by decide)
    (by
      intro u hu
      simp only [List.mem_cons, List.mem_singleton, List.not_mem_nil, or_false] at hu
      rcases hu with rfl | rfl
      · exact ⟨plain_word_of_forall _ (by decide) (by decide), by decide, by decide⟩
      · exact ⟨plain_word_of_forall _ (by decide) (by decide), by decide, by decide⟩)
    (by decide) (by decide)

/-! ## The bound on the number of commands of a script -/

theorem read_lines_rest (B : Nat) :
    ∀ (lines : List CStr) (acc : CStr) (d : Int) (f : Bool) (buf : CStr) (rest : List CStr),
      read_lines B lines acc d f = some (buf, rest) →
      rest.length ≤ lines.length ∧ (lines ≠ [] → rest.length < lines.length) := by
  intro lines
  induction lines with
  | nil =>
    intro acc d f buf rest h
    simp only [read_lines, Option.some.injEq, Prod.mk.injEq] at h
    rw [← h.2]
    simp
  | cons l ls ih =>
    intro acc d f buf rest h
    rw [read_lines] at h
    split at h
    · simp only at h
      split at h
      · simp only [Option.some.injEq, Prod.mk.injEq] at h
        rw [← h.2]
        simp
      · have := (ih _ _ _ _ _ h).1
        simp only [List.length_cons]
        exact ⟨by omega, fun _ => by omega⟩
    · cases h

/-- A command that the reader returns has taken at least one line from the stream. -/
theorem read_cmake_cmd_consumes (B : Nat) (lines rest : List CStr) (cmd : CStr)
    (h : read_cmake_cmd B lines = some (some cmd, rest)) : rest.length < lines.length := by
  unfold read_cmake_cmd at h
  cases hr : read_lines B lines [] 0 false with
  | none => rw [hr] at h; cases h
  | some p =>
    obtain ⟨buf, r⟩ := p
    rw [hr] at h
    simp only at h
    cases lines with
    | nil =>
      simp only [read_lines, Option.some.injEq, Prod.mk.injEq] at hr
      rw [← hr.1] at h
      simp at h
    | cons l ls =>
      have h1 := (read_lines_rest B (l :: ls) [] 0 false buf r hr).2 (by simp)
      split at h
      · simp only [Option.some.injEq, Prod.mk.injEq] at h
        exact absurd h.1 (by simp)
      · simp only [Option.some.injEq, Prod.mk.injEq] at h
        rw [← h.2]
        exact h1

/-- The loops over the commands of a script end within one iteration per line and a
last one for the end of the stream: a larger bound gives the same result. -/
theorem script_loop_fuel (size : Nat) (step : State → CStr → Option State) :
    ∀ (f1 f2 : Nat) (lines : List CStr) (st : State), lines.length < f1 → lines.length < f2 →
      script_loop size step f1 lines st = script_loop size step f2 lines st := by
  intro f1
  induction f1 with
  | zero => intro f2 lines st h; omega
  | succ n ih =>
    intro f2 lines st h1 h2
    cases f2 with
    | zero => omega
    | succ m =>
      rw [script_loop, script_loop]
      cases hr : read_cmake_cmd size lines with
      | none => rfl
      | some r =>
        obtain ⟨cmd, rest⟩ := r
        cases cmd with
        | none => rfl
        | some cmdline =>
          simp only
          have := read_cmake_cmd_consumes size lines rest cmdline hr
          cases step st (expand_vars st.vars cmdline size) with
          | none => rfl
          | some s1 => exact ih m rest s1 (by omega) (by omega)

/-! ## Condition stack bounds and `elseif`: lemmas -/

theorem strrchr_lt (c : Char) : ∀ (p : CStr) (e : Nat), strrchr p c = some e → e < p.length := by
  intro p
  induction p with
  | nil => intro e h; simp [strrchr] at h
  | cons x xs ih =>
    intro e h
    simp only [strrchr] at h
    cases hr : strrchr xs c with
    | some i =>
      rw [hr] at h
      simp only [Option.some.injEq] at h
      have := ih i hr
      simp only [List.length_cons]
      omega
    | none =>
      rw [hr] at h
      by_cases hx : x = c
      · simp [hx] at h
        simp only [List.length_cons]
        omega
      · simp [hx] at h

theorem cond_value_short (vars : VarTable) (cmd : CStr) (h : cmd.length ≤ 512) :
    ∃ b, cond_value vars cmd = some b := by
  unfold cond_value
  cases hs : strchr cmd '(' with
  | none => exact ⟨false, by simp⟩
  | some s =>
    cases he : strrchr cmd ')' with
    | none => exact ⟨false, by simp⟩
    | some e =>
      have := strrchr_lt ')' cmd e he
      by_cases hes : e > s
      · have hle : e - s - 1 ≤ 511 := by omega
        exact ⟨eval_simple_if vars (cond_expr cmd s e), by simp [hes, hle]⟩
      · exact ⟨false, by simp [hes]⟩

/-- The text between the parentheses of `kw(E)` is `E` whatever the keyword `kw`. -/
theorem cond_value_wrapped (vars : VarTable) (kw E : CStr) (hk : '(' ∉ kw) :
    cond_value vars (kw ++ '(' :: (E ++ [')'])) =
      if E.length ≤ 511 then
        some (eval_simple_if vars
          (cut_trailing_blanks (E.dropWhile (fun x => x = ' ' || x = '\t' || x = '\n'))))
      else none := by
  have hs : strchr (kw ++ '(' :: (E ++ [')'])) '(' = some kw.length :=
    strchr_append_of_not_mem '(' kw (E ++ [')']) hk
  have he : strrchr (kw ++ '(' :: (E ++ [')'])) ')' = some (kw.length + (E.length + 1)) := by
    have := strrchr_append_of_not_mem ')' (kw ++ '(' :: E) [] (by simp)
    simpa [List.append_assoc] using this
  have hgt : kw.length + (E.length + 1) > kw.length := by omega
  have hsub : kw.length + (E.length + 1) - kw.length - 1 = E.length := by omega
  have hdrop : ((kw ++ '(' :: (E ++ [')'])).drop (kw.length + 1)).take E.length = E := by
    have : kw ++ '(' :: (E ++ [')']) = (kw ++ ['(']) ++ (E ++ [')']) := by simp
    rw [this, List.drop_append_of_le_length (by simp)]
    simp
  unfold cond_value
  rw [hs, he]
  simp only [hgt, if_true, hsub, cond_expr, hdrop]

/-- The invariant of the condition stack: the depth is inside the array and the root
frame is active. -/
theorem cond_inv_step (vars : VarTable) (cmd : CStr) (st st1 : CondState)
    (hl : st.cond_level < MAX_STACK) (h0 : st.cond_stack 0 = true)
    (h : main_cond vars cmd st = some st1) :
    st1.cond_level < MAX_STACK ∧ st1.cond_stack 0 = true := by
  have hpush : ∀ (b : Bool) (s : CondState), s.cond_level < MAX_STACK → s.cond_stack 0 = true →
      (cond_push b s).cond_level < MAX_STACK ∧ (cond_push b s).cond_stack 0 = true := by
    intro b s hs hs0
    unfold cond_push
    by_cases hr : s.cond_level + 1 < MAX_STACK
    · rw [if_pos hr]
      refine ⟨hr, ?_⟩
      have : (0 : Nat) ≠ s.cond_level + 1 := by omega
      simp [Function.update_noteq this, hs0]
    · rw [if_neg hr]
      exact ⟨hs, hs0⟩
  unfold main_cond at h
  split at h
  · simp only [main_if, Option.map_eq_some'] at h
    obtain ⟨b, _, rfl⟩ := h
    exact hpush b st hl h0
  · split at h
    · simp only [main_elseif, Option.map_eq_some'] at h
      obtain ⟨b, _, rfl⟩ := h
      apply hpush
      · by_cases hp : st.cond_level > 0
        · rw [if_pos hp]; show st.cond_level - 1 < MAX_STACK; omega
        · rw [if_neg hp]; exact hl
      · by_cases hp : st.cond_level > 0
        · rw [if_pos hp]; exact h0
        · rw [if_neg hp]; exact h0
    · split at h
      · simp only [Option.some.injEq] at h
        subst h
        unfold main_else
        by_cases hp : st.cond_level ≠ 0
        · rw [if_pos hp]
          refine ⟨hl, ?_⟩
          have : (0 : Nat) ≠ st.cond_level := fun e => hp e.symm
          simp [Function.update_noteq this, h0]
        · rw [if_neg hp]
          exact ⟨hl, h0⟩
      · split at h
        · simp only [Option.some.injEq] at h
          subst h
          unfold main_endif cond_pop
          by_cases hp : st.cond_level > 0
          · rw [if_pos hp]
            exact ⟨by show st.cond_level - 1 < MAX_STACK; omega, h0⟩
          · rw [if_neg hp]
            exact ⟨hl, h0⟩
        · simp only [Option.some.injEq] at h
          subst h
          exact ⟨hl, h0⟩

theorem cond_inv_run (vars : VarTable) : ∀ (cmds : List CStr) (st st1 : CondState),
    st.cond_level < MAX_STACK → st.cond_stack 0 = true →
    cond_run vars cmds st = some st1 →
    st1.cond_level < MAX_STACK ∧ st1.cond_stack 0 = true := by
  intro cmds
  induction cmds with
  | nil =>
    intro st st1 hl h0 h
    simp only [cond_run, Option.some.injEq] at h
    subst h
    exact ⟨hl, h0⟩
  | cons c cs ih =>
    intro st st1 hl h0 h
    simp only [cond_run] at h
    cases hm : main_cond vars c st with
    | none => rw [hm] at h; simp at h
    | some s1 =>
      rw [hm] at h
      obtain ⟨a, b⟩ := cond_inv_step vars c st s1 hl h0 hm
      exact ih s1 st1 a b h

theorem main_cond_short (vars : VarTable) (cmd : CStr) (st : CondState)
    (h : cmd.length ≤ 512) : ∃ st1, main_cond vars cmd st = some st1 := by
  obtain ⟨b, hb⟩ := cond_value_short vars cmd h
  unfold main_cond
  split
  · exact ⟨cond_push b st, by simp [main_if, hb]⟩
  · split
    · exact ⟨cond_push b
        (if st.cond_level > 0 then { st with cond_level := st.cond_level - 1 } else st),
        by simp [main_elseif, hb]⟩
    · split
      · exact ⟨_, rfl⟩
      · split
        · exact ⟨_, rfl⟩
        · exact ⟨_, rfl⟩

theorem cond_run_short (vars : VarTable) : ∀ (cmds : List CStr) (st : CondState),
    (∀ c ∈ cmds, c.length ≤ 512) → ∃ st1, cond_run vars cmds st = some st1 := by
  intro cmds
  induction cmds with
  | nil => intro st _; exact ⟨st, rfl⟩
  | cons c cs ih =>
    intro st h
    obtain ⟨s1, hs1⟩ := main_cond_short vars c st (h c (by simp))
    obtain ⟨s2, hs2⟩ := ih s1 (fun x hx => h x (by simp [hx]))
    exact ⟨s2, by simp [cond_run, hs1, hs2]⟩

/-- C22: for every sequence of commands processed by the condition branches of
`main` from the initial state (`cond_stack[0] = 1`, `cond_level = 0`), the run
ends when every command fits in 512 characters, `cond_level` is at most
`MAX_STACK - 1` and `cond_stack[0]` is still active afterwards; `cond_pop` at
depth `0` and `cond_push` at depth `MAX_STACK - 1` return the stack unchanged. -/
theorem C22_cond_stack_bounds (vars : VarTable) (cmds : List CStr) :
    (∀ st, cond_run vars cmds cond_init = some st →
      st.cond_level ≤ MAX_STACK - 1 ∧ st.cond_stack 0 = true) ∧
    ((∀ c ∈ cmds, c.length ≤ 512) → ∃ st, cond_run vars cmds cond_init = some st) ∧
    (∀ st : CondState, st.cond_level = 0 → cond_pop st = st) ∧
    (∀ (st : CondState) (b : Bool), st.cond_level = MAX_STACK - 1 → cond_push b st = st) := by
  refine ⟨?_, cond_run_short vars cmds cond_init, ?_, ?_⟩
  · intro st h
    obtain ⟨a, b⟩ := cond_inv_run vars cmds cond_init st (by decide) (by decide) h
    refine ⟨?_, b⟩
    have : MAX_STACK = 32 := rfl
    omega
  · intro st h
    simp [cond_pop, h]
  · intro st b h
    have : ¬ st.cond_level + 1 < MAX_STACK := by
      have : MAX_STACK = 32 := rfl
      omega
    simp [cond_push, this]

/-- C22 at a concrete input: `endif()` at depth `0`, then `if(Y)`, `elseif(Q)`, `else()`
with `Y = "1"` and `Q` unset. -/
theorem C22_cond_stack_bounds_witness :
    (∀ c ∈ ["endif()".toList, "if(Y)".toList, "elseif(Q)".toList, "else()".toList],
      c.length ≤ 512) ∧
    ∃ st, cond_run [⟨['Y'], ['1']⟩]
        ["endif()".toList, "if(Y)".toList, "elseif(Q)".toList, "else()".toList] cond_init =
          some st ∧
      st.cond_level ≤ MAX_STACK - 1 ∧ st.cond_stack 0 = true :=
  ⟨by decide,
    ((C22_cond_stack_bounds [⟨['Y'], ['1']⟩]
        ["endif()".toList, "if(Y)".toList, "elseif(Q)".toList, "else()".toList]).2.1
      (by decide)).elim
      (fun st h => ⟨st, h,
        (C22_cond_stack_bounds [⟨['Y'], ['1']⟩]
          ["endif()".toList, "if(Y)".toList, "elseif(Q)".toList, "else()".toList]).1 st h⟩)⟩

/-- C24: for every condition stack and every expression text `E`, the command
`elseif(E)` leaves the stack exactly as `endif()` followed by `if(E)` does; this
part of the claim holds. The frame it stores is not the value of `E` AND the
parent frame. At `if(Q) if(Q) elseif(Y)` with `Q` unset and `Y = "1"` the parent
frame `cond_stack[1]` is inactive and the new top is active: the push reads the
root frame, below the parent. At `if(Y) elseif(Y)` from the initial stack the
commands are inactive after `if(Y)` and inactive after `elseif(Y)` although `Y`
is true; at `if(Q) elseif(Y)` the commands after `elseif(Y)` are inactive. -/
theorem C24_elseif_pushes_past_parent :
    (∀ (vars : VarTable) (E : CStr) (st : CondState),
      cond_run vars [['e', 'l', 's', 'e', 'i', 'f', '('] ++ E ++ [')']] st =
        cond_run vars [['e', 'n', 'd', 'i', 'f', '(', ')'], ['i', 'f', '('] ++ E ++ [')']] st) ∧
    cond_value [⟨['Y'], ['1']⟩] "elseif(Y)".toList = some true ∧
    cond_value [⟨['Y'], ['1']⟩] "if(Y)".toList = some true ∧
    cond_value [⟨['Y'], ['1']⟩] "if(Q)".toList = some false ∧
    (cond_run [⟨['Y'], ['1']⟩] ["if(Q)".toList, "if(Q)".toList, "elseif(Y)".toList]
        cond_init).map
        (fun st => (st.cond_level, st.cond_stack 1, cond_active st)) = some (2, false, true) ∧
    (cond_run [⟨['Y'], ['1']⟩] ["if(Y)".toList] cond_init).map cond_active = some false ∧
    (cond_run [⟨['Y'], ['1']⟩] ["if(Y)".toList, "elseif(Y)".toList] cond_init).map
        cond_active = some false ∧
    (cond_run [⟨['Y'], ['1']⟩] ["if(Q)".toList, "elseif(Y)".toList] cond_init).map
        cond_active = some false := by
  refine ⟨?_, by decide, by decide, by decide, by decide, by decide, by decide, by decide⟩
  intro vars E st
  have hv : cond_value vars (['e', 'l', 's', 'e', 'i', 'f', '('] ++ E ++ [')']) =
      cond_value vars (['i', 'f', '('] ++ E ++ [')']) := by
    have a := cond_value_wrapped vars ['e', 'l', 's', 'e', 'i', 'f'] E (by decide)
    have b := cond_value_wrapped vars ['i', 'f'] E (by decide)
    simp only [List.cons_append, List.nil_append, List.append_assoc] at a b ⊢
    rw [a, b]
  have e_elseif : ∀ s : CondState,
      main_cond vars (['e', 'l', 's', 'e', 'i', 'f', '('] ++ E ++ [')']) s =
        main_elseif vars (['e', 'l', 's', 'e', 'i', 'f', '('] ++ E ++ [')']) s := by
    intro s; simp [main_cond, starts_with]
  have e_if : ∀ (X : CStr) (s : CondState),
      main_cond vars (['i', 'f', '('] ++ X ++ [')']) s =
        main_if vars (['i', 'f', '('] ++ X ++ [')']) s := by
    intro X s; simp [main_cond, starts_with]
  have e_endif : ∀ s : CondState,
      main_cond vars ['e', 'n', 'd', 'i', 'f', '(', ')'] s = some (main_endif s) := by
    intro s; simp [main_cond, starts_with]
  have hdec : (if st.cond_level > 0 then { st with cond_level := st.cond_level - 1 } else st) =
      cond_pop st := rfl
  simp only [cond_run, e_elseif, main_elseif, hv, hdec, e_endif, e_if, main_if, main_endif]

/-! ## Bare tokens on the restricted alphabet: lemmas -/

/-- A text without any delimiter is one part. -/
theorem strtok_parts_whole (delim T : CStr) (n : Nat) (hne : T ≠ [])
    (hT : ∀ c ∈ T, delim.contains c = false) : strtok_parts delim (n + 1) T = [T] := by
  have h1 : T.dropWhile (fun c => delim.contains c) = T := by
    apply dropWhile_stop
    intro c hc
    cases T with
    | nil => simp at hc
    | cons x xs =>
      simp only [List.head?_cons, Option.some.injEq] at hc
      subst hc
      exact hT x (List.mem_cons_self _ _)
  have hneg : ∀ c ∈ T, (fun c => !delim.contains c) c = true := by
    intro c hc
    show (!delim.contains c) = true
    rw [hT c hc]
    rfl
  have h2 : T.takeWhile (fun c => !delim.contains c) = T := by
    have := takeWhile_append_stop (fun c => !delim.contains c) T [] hneg (by simp)
    simpa using this
  have h3 : T.dropWhile (fun c => !delim.contains c) = [] := by
    have := dropWhile_append_stop (fun c => !delim.contains c) T [] hneg (by simp)
    simpa using this
  have hr : strtok_r T delim = some (T, []) := by
    unfold strtok_r
    simp only [h1, hne, if_false, h2, h3, List.tail_nil]
  simp [strtok_parts, hr, strtok_parts_nil]

theorem scan_s_mem (w : Nat) (s a r : CStr) (h : scan_s w s = some (a, r)) :
    (∀ c ∈ a, c ∈ s) ∧ (∀ c ∈ r, c ∈ s) := by
  unfold scan_s at h
  simp only at h
  split at h
  · cases h
  · simp only [Option.some.injEq, Prod.mk.injEq] at h
    obtain ⟨rfl, rfl⟩ := h
    constructor
    · intro c hc
      exact (List.dropWhile_sublist _).subset
        ((List.takeWhile_sublist _).subset ((List.take_sublist _ _).subset hc))
    · intro c hc
      exact (List.dropWhile_sublist _).subset ((List.drop_sublist _ _).subset hc)

theorem truthy_iff (v : CStr) :
    truthy v = true ↔ v ≠ [] ∧ v ≠ ['O', 'F', 'F'] ∧ v ≠ ['0'] := by
  unfold truthy
  simp only [Bool.or_eq_true, Bool.and_eq_true, decide_eq_true_eq, ne_eq]
  constructor
  · rintro ((h | h) | h)
    · subst h; decide
    · subst h; decide
    · exact ⟨h.1.1, h.1.2, h.2⟩
  · rintro ⟨a, b, c⟩
    exact Or.inr ⟨⟨a, b⟩, c⟩

/-- Without `R` in the token the comparison branch is never taken, and without `N` no
`NOT ` is seen: the term is the truthiness of the variable named by the token. -/
theorem eval_term_bare (vars : VarTable) (T : CStr) (hne : T ≠ [])
    (hsp : ∀ c ∈ T, c ≠ ' ' ∧ c ≠ '\t') (hN : 'N' ∉ T) (hR : 'R' ∉ T) :
    eval_term vars T = truthy (getvar vars T) := by
  have h1 : T.dropWhile (fun c => c = ' ' || c = '\t') = T := by
    apply dropWhile_stop
    intro c hc
    cases T with
    | nil => simp at hc
    | cons x xs =>
      simp only [List.head?_cons, Option.some.injEq] at hc
      subst hc
      have := hsp x (List.mem_cons_self _ _)
      simp [this.1, this.2]
  have h2 : (['N', 'O', 'T', ' '] : CStr).isPrefixOf T = false := by
    cases T with
    | nil => exact absurd rfl hne
    | cons x xs =>
      have hx : x ≠ 'N' := fun e => hN (by simp [e])
      have hx2 : ¬ 'N' = x := fun e => hx e.symm
      simp [List.isPrefixOf, hx2]
  unfold eval_term
  simp only [h1, h2, if_false, Bool.false_eq_true]
  cases h3 : sscanf_3s T with
  | none => rfl
  | some r =>
    obtain ⟨var, op, val⟩ := r
    have hop : op ≠ ['S', 'T', 'R', 'E', 'Q', 'U', 'A', 'L'] := by
      intro e
      unfold sscanf_3s at h3
      cases ha : scan_s 127 T with
      | none => simp [ha] at h3
      | some p1 =>
        obtain ⟨v1, r1⟩ := p1
        cases hb : scan_s 127 r1 with
        | none => simp [ha, hb] at h3
        | some p2 =>
          obtain ⟨o2, r2⟩ := p2
          cases hc : scan_s 127 r2 with
          | none => simp [ha, hb, hc] at h3
          | some p3 =>
            obtain ⟨v3, r3⟩ := p3
            simp only [ha, hb, hc, Option.some.injEq, Prod.mk.injEq] at h3
            obtain ⟨_, ho, _⟩ := h3
            have m1 := (scan_s_mem 127 T v1 r1 ha).2
            have m2 := (scan_s_mem 127 r1 o2 r2 hb).1
            have : 'R' ∈ o2 := by rw [ho, e]; decide
            exact hR (m1 _ (m2 _ this))
    simp [hop]

/-- C25: for every variable table and every non-empty token `T` without the
characters `A`, `N`, `D`, `O`, `R`, space, tab and newline,
`eval_simple_if(T)` is true iff `getvar(T)` is non-empty and differs from
`"OFF"` and `"0"`. -/
theorem C25_bare_token_restricted (vars : VarTable) (T : CStr) (hne : T ≠ [])
    (hT : ∀ c ∈ T, c ≠ 'A' ∧ c ≠ 'N' ∧ c ≠ 'D' ∧ c ≠ 'O' ∧ c ≠ 'R' ∧
      c ≠ ' ' ∧ c ≠ '\t' ∧ c ≠ '\n') :
    eval_simple_if vars T = true ↔
      getvar vars T ≠ [] ∧ getvar vars T ≠ ['O', 'F', 'F'] ∧ getvar vars T ≠ ['0'] := by
  have h1 : T.dropWhile (fun c => c = ' ' || c = '\t' || c = '\n') = T := by
    apply dropWhile_stop
    intro c hc
    cases T with
    | nil => simp at hc
    | cons x xs =>
      simp only [List.head?_cons, Option.some.injEq] at hc
      subst hc
      have := hT x (List.mem_cons_self _ _)
      simp [this.2.2.2.2.2.1, this.2.2.2.2.2.2.1, this.2.2.2.2.2.2.2]
  have hor : strtok_parts ['O', 'R'] 16 T = [T] := by
    apply strtok_parts_whole _ _ 15 hne
    intro c hc
    have := hT c hc
    simp [this.2.2.2.1, this.2.2.2.2.1]
  have hand : strtok_parts ['A', 'N', 'D'] 16 T = [T] := by
    apply strtok_parts_whole _ _ 15 hne
    intro c hc
    have := hT c hc
    simp [this.1, this.2.1, this.2.2.1]
  have hterm : eval_term vars T = truthy (getvar vars T) :=
    eval_term_bare vars T hne
      (fun c hc => ⟨(hT c hc).2.2.2.2.2.1, (hT c hc).2.2.2.2.2.2.1⟩)
      (fun h => (hT _ h).2.1 rfl) (fun h => (hT _ h).2.2.2.2.1 rfl)
  have hval : eval_simple_if vars T = truthy (getvar vars T) := by
    unfold eval_simple_if
    simp only [h1, hor, List.foldl_cons, List.foldl_nil, Bool.false_or]
    unfold eval_and
    simp only [hand, List.foldl_cons, List.foldl_nil, Bool.true_and, hterm]
  rw [hval]
  exact truthy_iff _

/-- C25 at concrete inputs: the token `WITH_SSL` with the value `"yes"`. -/
theorem C25_bare_token_restricted_witness :
    "WITH_SSL".toList ≠ [] ∧
    (eval_simple_if [⟨"WITH_SSL".toList, "yes".toList⟩] "WITH_SSL".toList = true ↔
      getvar [⟨"WITH_SSL".toList, "yes".toList⟩] "WITH_SSL".toList ≠ [] ∧
      getvar [⟨"WITH_SSL".toList, "yes".toList⟩] "WITH_SSL".toList ≠ ['O', 'F', 'F'] ∧
      getvar [⟨"WITH_SSL".toList, "yes".toList⟩] "WITH_SSL".toList ≠ ['0']) :=
  ⟨by decide,
    C25_bare_token_restricted [⟨"WITH_SSL".toList, "yes".toList⟩] "WITH_SSL".toList
      (by decide) (by decide)⟩

/-! ## A target linked to itself: lemmas -/

/-- A copy loop whose source and destination are the same list does not end once it
has an element to copy: every bound on the iterations is used up. -/
theorem copy_list_self_none (get : Target → List CStr) (put : Target → List CStr → Target)
    (hgp : ∀ d l, get (put d l) = l) (di : Nat) :
    ∀ (fuel j : Nat) (reg : Registry) (d : Target), reg[di]? = some d → j < (get d).length →
      copy_list get put di di fuel j reg = none := by
  intro fuel
  induction fuel with
  | zero => intro j reg d _ _; rfl
  | succ f ih =>
    intro j reg d hd hj
    have hv : (get d)[j]? = some ((get d)[j]) := List.getElem?_eq_getElem hj
    rw [copy_list, hd]
    simp only [hv]
    apply ih (j + 1) _ (put d (get d ++ [(get d)[j]]))
    · rw [List.getElem?_modify_eq, hd]; rfl
    · rw [hgp]; simp; omega

theorem copy_list_self_cases (get : Target → List CStr) (put : Target → List CStr → Target)
    (hgp : ∀ d l, get (put d l) = l) (di : Nat) (fuel : Nat) (reg : Registry) :
    copy_list get put di di fuel 0 reg = none ∨ copy_list get put di di fuel 0 reg = some reg := by
  cases fuel with
  | zero => exact Or.inl rfl
  | succ f =>
    cases hd : reg[di]? with
    | none => right; rw [copy_list, hd]
    | some d =>
      cases hl : get d with
      | nil => right; rw [copy_list, hd]; simp [hl]
      | cons x xs =>
        left
        exact copy_list_self_none get put hgp di (f + 1) 0 reg d hd (by simp [hl])

theorem propagate_from_self_none (fuel di : Nat) (reg : Registry) (d : Target)
    (hd : reg[di]? = some d) (hl : d.libs ≠ []) : propagate_from fuel di di reg = none := by
  have hlibs : copy_list Target.libs (fun d l => { d with libs := l }) di di fuel 0 reg = none :=
    copy_list_self_none _ _ (fun _ _ => rfl) di fuel 0 reg d hd
      (List.length_pos.2 hl)
  unfold propagate_from
  rcases copy_list_self_cases Target.incs (fun d l => { d with incs := l }) (fun _ _ => rfl)
    di fuel reg with h1 | h1
  · rw [h1]; rfl
  · rw [h1]
    simp only [Option.some_bind]
    rcases copy_list_self_cases Target.defs (fun d l => { d with defs := l }) (fun _ _ => rfl)
      di fuel reg with h2 | h2
    · rw [h2]; rfl
    · rw [h2]
      simp only [Option.some_bind]
      exact hlibs

theorem propagate_self_none (fuel di : Nat) (lib : CStr) :
    ∀ (n i : Nat) (reg : Registry) (d : Target), i ≤ di → di < i + n →
      reg[di]? = some d → d.name = lib → d.libs ≠ [] →
      (∀ (j : Nat) (a : Target), j < di → reg[j]? = some a → a.name ≠ lib) →
      propagate fuel di lib n i reg = none := by
  intro n
  induction n with
  | zero => intro i reg d h1 h2; omega
  | succ m ih =>
    intro i reg d h1 h2 hd hn hl hbefore
    by_cases hi : i = di
    · subst hi
      rw [propagate, hd]
      simp only [hn, if_true]
      rw [propagate_from_self_none fuel i reg d hd hl]
      rfl
    · have hlt : i < di := by omega
      have hlen : di < reg.length := by
        by_contra hc
        rw [List.getElem?_eq_none (by omega)] at hd
        cases hd
      have hsome : reg[i]? = some (reg[i]) := List.getElem?_eq_getElem (by omega)
      rw [propagate, hsome]
      simp only [hbefore i _ hlt hsome, if_false]
      exact ih (i + 1) reg d (by omega) (by omega) hd hn hl hbefore

/-- The call `target_link_libraries(D D t2 ... tn)` on a declared target `D`: the
propagation for the first token never ends. -/
theorem link_self_none (fuel : Nat) (reg : Registry) (di : Nat) (D : Target) (rest : List CStr)
    (hnd : (reg.map Target.name).Nodup) (hD : reg[di]? = some D)
    (hDw : plain_word D.name) (hDl : D.name.length ≤ 127)
    (ht : ∀ t ∈ rest, plain_word t)
    (hlen : (D.name ++ spaced (D.name :: rest)).length + 2 ≤ 4096) :
    cmd_target_link_libs fuel reg ('(' :: (D.name ++ spaced (D.name :: rest) ++ [')'])) =
      none := by
  have hparse := cmd_target_link_libs_parse fuel reg D.name (D.name :: rest) hDw hDl
    (by
      intro t h
      simp only [List.mem_cons] at h
      rcases h with rfl | h
      · exact hDw
      · exact ht t h) hlen
  rw [hparse]
  simp only [find_target_of_nodup reg di D hnd hD, link_tokens, trim_token_plain D.name hDw]
  have hlt : di < reg.length := by
    by_contra hc
    rw [List.getElem?_eq_none (by omega)] at hD
    cases hD
  have hprop : propagate fuel di D.name
      (reg.modify (fun d => { d with libs := d.libs ++ [D.name] }) di).length 0
      (reg.modify (fun d => { d with libs := d.libs ++ [D.name] }) di) = none := by
    apply propagate_self_none fuel di D.name _ 0 _ { D with libs := D.libs ++ [D.name] }
      (Nat.zero_le _) (by simp; exact hlt)
    · rw [List.getElem?_modify_eq, hD]; rfl
    · rfl
    · simp
    · intro j a hj ha
      have hne : di ≠ j := by omega
      rw [List.getElem?_modify_ne _ _ hne] at ha
      intro e
      have := index_unique reg hnd j di a D ha hD e
      omega
  rw [hprop]
  rfl

/-- C23 fails at `target_link_libraries(app app)` with `app` declared: whatever bound
is put on the iterations of the copy loops, it is used up; the loop that
copies `libs` of `app` into itself does not end. -/
theorem C23_self_link_never_ends :
    ∀ fuel : Nat,
      cmd_target_link_libs fuel
        [Target.mk "app".toList "EXE".toList ["a.c".toList] [] [] []]
        "(app app)".toList = none := by
  intro fuel
  have h := link_self_none fuel [Target.mk "app".toList "EXE".toList ["a.c".toList] [] [] []]
    0 (Target.mk "app".toList "EXE".toList ["a.c".toList] [] [] []) []
    (by decide) rfl (plain_word_of_forall _ (by decide) (by decide)) (by decide)
    (by intro t h; cases h) (by decide)
  exact h

/-! ## Names in the registry: lemmas -/

/-- A declaration command that reads its words appends one target, named by its
first word, while the array has room. -/
theorem declare_append (reg : Registry) (d : Decl) (hok : (declare [] d).isSome = true)
    (hroom : reg.length < MAX_TARGETS) :
    ∃ t : Target, declare reg d = some (reg ++ [t]) ∧ t.name = declared_name d := by
  unfold declare at hok ⊢
  unfold declared_name
  cases hl : d.lib with
  | false =>
    rw [hl] at hok
    simp only [Bool.false_eq_true, if_false] at hok ⊢
    unfold cmd_add_executable at hok ⊢
    cases h1 : scan_s 127 d.args with
    | none => rw [h1] at hok; simp at hok
    | some p =>
      obtain ⟨n0, r1⟩ := p
      simp only [hroom, if_true]
      exact ⟨_, rfl, rfl⟩
  | true =>
    rw [hl] at hok
    simp only [if_true] at hok ⊢
    unfold cmd_add_library at hok ⊢
    cases h1 : scan_s 127 d.args with
    | none => rw [h1] at hok; simp at hok
    | some p =>
      obtain ⟨n0, r1⟩ := p
      rw [h1] at hok
      simp only at hok ⊢
      cases h2 : scan_s 63 r1 with
      | none => rw [h2] at hok; simp at hok
      | some q =>
        obtain ⟨t0, r2⟩ := q
        simp only [hroom, if_true]
        exact ⟨_, rfl, rfl⟩

theorem declare_seq_names : ∀ (cmds : List Decl) (reg : Registry),
    (∀ d ∈ cmds, (declare [] d).isSome = true) → reg.length + cmds.length ≤ MAX_TARGETS →
    ∃ r : Registry, declare_seq reg cmds = some r ∧
      r.map Target.name = reg.map Target.name ++ cmds.map declared_name := by
  intro cmds
  induction cmds with
  | nil => intro reg _ _; exact ⟨reg, rfl, by simp⟩
  | cons d ds ih =>
    intro reg hok hlen
    simp only [List.length_cons] at hlen
    obtain ⟨t, ht, hn⟩ := declare_append reg d (hok d (List.mem_cons_self _ _)) (by omega)
    obtain ⟨r, hr, hm⟩ := ih (reg ++ [t]) (fun x hx => hok x (List.mem_cons_of_mem _ hx))
      (by simp only [List.length_append, List.length_singleton]; omega)
    refine ⟨r, ?_, ?_⟩
    · simp only [declare_seq, ht, hr]
    · rw [hm]
      simp [hn]

/-- C21 is false as stated, at the commands `add_executable(app a.c)`,
`add_executable(app b.c)` processed from the empty registry: both targets
are stored, under the same name. -/
theorem C21_registry_names_counterexample :
    declare_seq [] [⟨false, "app a.c)".toList⟩, ⟨false, "app b.c)".toList⟩] =
      some [Target.mk "app".toList "EXE".toList ["a.c".toList] [] [] [],
            Target.mk "app".toList "EXE".toList ["b.c".toList] [] [] []] ∧
    ¬ (([Target.mk "app".toList "EXE".toList ["a.c".toList] [] [] [],
         Target.mk "app".toList "EXE".toList ["b.c".toList] [] [] []] : Registry).map
        Target.name).Nodup := by
  constructor
  · decide
  · decide

/-- C21, amended: for every sequence of at most `MAX_TARGETS` declaration commands
(`add_executable` or `add_library`) whose words are read, processed from the
empty registry, the registry holds one target per command, in the order of
the commands, each under the first word of its command; the names in the
registry are pairwise distinct exactly when the names in the commands are. -/
theorem C21_registry_names (cmds : List Decl)
    (hok : ∀ d ∈ cmds, (declare [] d).isSome = true) (hlen : cmds.length ≤ MAX_TARGETS) :
    ∃ reg : Registry, declare_seq [] cmds = some reg ∧
      reg.map Target.name = cmds.map declared_name ∧
      ((reg.map Target.name).Nodup ↔ (cmds.map declared_name).Nodup) := by
  obtain ⟨r, hr, hm⟩ := declare_seq_names cmds [] hok (by simpa using hlen)
  simp only [List.map_nil, List.nil_append] at hm
  exact ⟨r, hr, hm, by rw [hm]⟩

/-- C21 (amended) at the commands `add_library(core STATIC core.c)`,
`add_executable(app a.c)`: the registry holds `core` and `app`. -/
theorem C21_registry_names_witness :
    (∀ d ∈ [(⟨true, "core STATIC core.c)".toList⟩ : Decl), ⟨false, "app a.c)".toList⟩],
      (declare [] d).isSome = true) ∧
    ∃ reg : Registry,
      declare_seq [] [⟨true, "core STATIC core.c)".toList⟩, ⟨false, "app a.c)".toList⟩] =
        some reg ∧
      reg.map Target.name =
        [(⟨true, "core STATIC core.c)".toList⟩ : Decl), ⟨false, "app a.c)".toList⟩].map
          declared_name ∧
      ((reg.map Target.name).Nodup ↔
        ([(⟨true, "core STATIC core.c)".toList⟩ : Decl), ⟨false, "app a.c)".toList⟩].map
          declared_name).Nodup) :=
  ⟨by decide,
    C21_registry_names [⟨true, "core STATIC core.c)".toList⟩, ⟨false, "app a.c)".toList⟩]
      (by decide) (by decide)⟩

end MiniCMake
